import Mathlib

/-!
# Groth16 prover (`prover/prover.go`): a shallow embedding

The development follows the Go source function by function.

* Go `int` values that count things (`n`, `parts`, `NVars`, `NPublic`,
  `DomainSize`, indices) are natural numbers; `*big.Int` values are integers.
* `float64` values are modelled exactly: a non-negative finite double is the
  dyadic rational `num / den`, and every arithmetic operation rounds the exact
  result to 53 significant bits, ties to even, as IEEE-754 prescribes.
* A slice expression or an index that is out of range makes the Go program
  panic; the embedding returns `none` there. Go bounds a slice expression by
  the capacity and an index by the length: the capacity of a slice is taken to
  be its length, except for the witness of `GenerateProofCap`, which has a
  backing array and a length of its own.
* The elliptic-curve groups are arbitrary commutative groups, the scalar field
  is `ZMod R` for the group order `R` (`types.R`, a parameter).
-/

namespace Prover

/-! ## IEEE-754 double precision, non-negative finite values -/

/-- A non-negative finite `float64`, held as the exact rational `num / den`. -/
structure F64 where
  num : Nat
  den : Nat
deriving DecidableEq, Repr

/-- Worker of `ilog2`: halve until the argument is below two. -/
def ilog2Aux : Nat → Nat → Nat
  | 0, _ => 0
  | fuel + 1, n => if n < 2 then 0 else ilog2Aux fuel (n / 2) + 1

/-- Position of the leading binary digit: `2 ^ ilog2 n ≤ n < 2 ^ (ilog2 n + 1)` for `0 < n`. -/
def ilog2 (n : Nat) : Nat := ilog2Aux n n

/-- Round the exact quotient `N / D` to the nearest double, ties to even.
With `up` and `dn` chosen so that `N * 2 ^ up / (D * 2 ^ dn)` lies in
`[2 ^ 52, 2 ^ 53)`, the integer part `m` of that quotient is the 53-bit
significand before rounding and the remainder `r` decides the rounding. The
result is `m1 * 2 ^ dn / 2 ^ up`. No overflow or subnormal arises for quotients
of 64-bit integers. -/
def round53 (N D : Nat) : F64 :=
  if N = 0 then ⟨0, 1⟩ else
    let up := 53 + ilog2 D
    let dn := if D * 2 ^ ilog2 N ≤ N * 2 ^ ilog2 D then ilog2 N + 1 else ilog2 N
    let m := (N * 2 ^ up) / (D * 2 ^ dn)
    let r := (N * 2 ^ up) % (D * 2 ^ dn)
    let m1 := if D * 2 ^ dn < 2 * r ∨ (2 * r = D * 2 ^ dn ∧ m % 2 = 1) then m + 1 else m
    ⟨m1 * 2 ^ (dn - up), 2 ^ (up - dn)⟩

/-- The conversion `float64(n)` of a non-negative Go `int`. -/
def F64.ofInt (n : Nat) : F64 := round53 n 1

/-- The quotient `a / b` of two doubles, correctly rounded. -/
def F64.div (a b : F64) : F64 := round53 (a.num * b.den) (a.den * b.num)

/-- The product `a * b` of two doubles, correctly rounded. -/
def F64.mul (a b : F64) : F64 := round53 (a.num * b.num) (a.den * b.den)

/-- The conversion `int(x)` of a non-negative double: truncation. -/
def F64.toInt (a : F64) : Nat := a.num / a.den

/-! ## `ranges` -/

/-- Source `ranges(n, parts)`: with `p := float64(n) / float64(parts)`, entry `i`
is `[int(float64(i)*p), int(float64(i+1)*p)]`. -/
def ranges (n parts : Nat) : List (Nat × Nat) :=
  let p := F64.div (F64.ofInt n) (F64.ofInt parts)
  (List.range parts).map fun i =>
    (F64.toInt (F64.mul (F64.ofInt i) p), F64.toInt (F64.mul (F64.ofInt (i + 1)) p))

/-- The split point `int(float64(i) * p)` of `ranges(n, parts)`, for
`p := float64(n) / float64(parts)`. -/
def splitPoint (n parts i : Nat) : Nat :=
  F64.toInt (F64.mul (F64.ofInt i) (F64.div (F64.ofInt n) (F64.ofInt parts)))

/-- The exact rational value `num / den` of a double; used to state the rounding
properties of `round53`. -/
def F64.toRat (a : F64) : ℚ := (a.num : ℚ) / (a.den : ℚ)

/-- The quotient `A / B` rounded to the nearest integer, ties to even: the
significand `m1` that `round53` computes from `m` and `r`. -/
def roundHalfEven (A B : Nat) : Nat :=
  if B < 2 * (A % B) ∨ (2 * (A % B) = B ∧ (A / B) % 2 = 1) then A / B + 1 else A / B

/-- An index `i` is covered by the half-open range `c = [c.1, c.2)`. -/
def covers (c : Nat × Nat) (i : Nat) : Prop := c.1 ≤ i ∧ i < c.2

instance (c : Nat × Nat) (i : Nat) : Decidable (covers c i) := by
  unfold covers; infer_instance

/-- The chunks `rs` are contiguous from `s` to `e`: the first one starts at `s`,
each one ends where the next one starts, the last one ends at `e`, and no
chunk has its end before its start. -/
def chained : Nat → List (Nat × Nat) → Nat → Prop
  | s, [], e => s = e
  | s, c :: rest, e => c.1 = s ∧ c.1 ≤ c.2 ∧ chained c.2 rest e

instance chainedDecidable : (s : Nat) → (rs : List (Nat × Nat)) → (e : Nat) →
    Decidable (chained s rs e)
  | s, [], e => by unfold chained; infer_instance
  | s, c :: rest, e => by
      unfold chained
      exact @instDecidableAnd _ _ _ (@instDecidableAnd _ _ _ (chainedDecidable c.2 rest e))

/-- The chunks `rs` partition `[0, n)` into contiguous ranges. -/
def IsPartition (rs : List (Nat × Nat)) (n : Nat) : Prop := chained 0 rs n

instance (rs : List (Nat × Nat)) (n : Nat) : Decidable (IsPartition rs n) := by
  unfold IsPartition; infer_instance

/-! ## Data model -/

/-- Source `gSize`: the window width handed to the MSM primitive. -/
def gSize : Nat := 6

/-- The proving key `types.Pk`. A sparse column `PolsA[i]` (a Go map from
constraint index to coefficient) is the list of its entries in the order in
which the `range` loop visits them. -/
structure Pk (G1 G2 : Type) where
  NVars : Nat
  NPublic : Nat
  DomainSize : Nat
  A : List G1
  B1 : List G1
  B2 : List G2
  C : List G1
  HExps : List G1
  PolsA : List (List (Nat × Int))
  PolsB : List (List (Nat × Int))
  VkAlpha1 : G1
  VkBeta1 : G1
  VkBeta2 : G2
  VkDelta1 : G1
  VkDelta2 : G2

/-- The proof `types.Proof`. -/
structure Proof (G1 G2 : Type) where
  A : G1
  B : G2
  C : G1
deriving DecidableEq, Repr

/-- The three values returned by `GenerateProof`; `none` stands for Go `nil`. -/
structure Result (ε G1 G2 : Type) where
  proof : Option (Proof G1 G2)
  pubSignals : Option (List Int)
  err : Option ε
deriving DecidableEq, Repr

/-- The parts of the package that `prover.go` calls and does not define: the
transforms `fft` and `ifft` and the table `roots.roots[r]` as it stands after
`setRoots(r)`. -/
structure Engine (R : Nat) where
  fft : List (ZMod R) → List (ZMod R)
  ifft : List (ZMod R) → List (ZMod R)
  roots : Nat → List (ZMod R)

/-- The slice expression `xs[a:b]`; `none` when Go panics. Go bounds `b` by the
capacity of `xs`, not by its length: the list `xs` holds the backing array of the
slice from its first entry up to its capacity. -/
def slice {α : Type} (xs : List α) (a b : Nat) : Option (List α) :=
  if a ≤ b ∧ b ≤ xs.length then some ((xs.drop a).take (b - a)) else none

/-- The loop `for i := a; i < b; i++` threading a state through a body that may panic. -/
def forRange {σ : Type} (a b : Nat) (body : σ → Nat → Option σ) (init : σ) : Option σ :=
  (List.range' a (b - a)).foldlM body init

/-- The nested loops `for _, ranges := range rs { for i := ranges[0]; i < ranges[1]; i++ }`. -/
def forChunks {σ : Type} (rs : List (Nat × Nat)) (body : σ → Nat → Option σ) (init : σ) :
    Option σ :=
  rs.foldlM (fun st c => forRange c.1 c.2 body st) init

/-- Modelled from the spec: the helper `fAdd`, addition modulo `R` with a result in `[0, R)`. -/
def fAdd (R : Nat) (a b : Int) : Int := (a + b) % (R : Int)

/-- Modelled from the spec: the helper `fMul`, multiplication modulo `R` with a result in `[0, R)`. -/
def fMul (R : Nat) (a b : Int) : Int := (a * b) % (R : Int)

/-- Modelled from the spec: the MSM primitives `scalarMultNoDoubleG1` and
`scalarMultNoDoubleG2`, by their contract: the accumulator plus the sum of
`scalar_i * point_i`. The window width does not enter the result. -/
def scalarMultNoDouble {G : Type} [AddCommGroup G] (pts : List G) (ks : List Int) (acc : G)
    (_gsize : Nat) : G :=
  acc + (List.zipWith (fun p k => k • p) pts ks).sum

/-! ## `randBigInt` -/

/-- The method `BitLen` of `big.Int` on a non-negative value. -/
def bitLen (n : Nat) : Nat := if n = 0 then 0 else ilog2 n + 1

/-- The method `SetBytes` of `big.Int`: the big-endian value of a byte string. -/
def setBytes (bs : List (Fin 256)) : Nat := bs.foldl (fun acc b => 256 * acc + b.val) 0

/-- One call of `rand.Read` on a buffer of `n` bytes: an error, or `n` bytes. -/
abbrev Read (ε : Type) : Type := (n : Nat) → Except ε { bs : List (Fin 256) // bs.length = n }

deriving instance DecidableEq for Except

/-- Source `randBigInt`, on the outcome `read` of its call of `rand.Read`:
`.error e` is the return `nil, err`, `.ok rq` the return `rq, nil`, and the outer
`none` a panic (`make([]byte, -1)` when `R` has fewer than eight bits). -/
def randBigInt {ε : Type} (R : Nat) (read : Read ε) : Option (Except ε Int) :=
  let maxbits := bitLen R
  if maxbits / 8 = 0 then none
  else
    match read (maxbits / 8 - 1) with
    | .error e => some (.error e)
    | .ok b =>
      let r : Int := setBytes b.1
      let rq := r % (R : Int)
      some (.ok rq)

/-! ## `calculateH` -/

/-- Body of the inner loop, for the entry `jc = (j, PolsA[i][j])` of the column:
`polAT[j] = fAdd(polAT[j], fMul(w[i], PolsA[i][j]))`. -/
def addEntry (R : Nat) (w : List Int) (i : Nat) (pol : List Int) (jc : Nat × Int) :
    Option (List Int) := do
  let old ← pol[jc.1]?
  let wi ← w[i]?
  pure (pol.set jc.1 (fAdd R old (fMul R wi jc.2)))

/-- The inner loop `for j := range pk.PolsA[i]` over one sparse column `col`. -/
def addColumn (R : Nat) (w : List Int) (i : Nat) (col : List (Nat × Int)) (pol : List Int) :
    Option (List Int) :=
  col.foldlM (addEntry R w i) pol

/-- Body of the outer loop, for the variable `i`. -/
def addVariable (R : Nat) (pols : List (List (Nat × Int))) (w : List Int) (pol : List Int)
    (i : Nat) : Option (List Int) := do
  let col ← pols[i]?
  addColumn R w i col pol

/-- The loop `for i := 0; i < pk.NVars; i++` over the columns `pols`, started
from `arrayOfZeroes(m)`. -/
def buildPol (R nVars : Nat) (pols : List (List (Nat × Int))) (w : List Int) (m : Nat) :
    Option (List Int) :=
  forRange 0 nVars (addVariable R pols w) (List.replicate m 0)

/-- Body of the coset loop: `polASe[i]` and `polBSe[i]` are multiplied by `roots.roots[r][i]`. -/
def cosetStep {R : Nat} (rt : List (ZMod R)) (st : List (ZMod R) × List (ZMod R)) (i : Nat) :
    Option (List (ZMod R) × List (ZMod R)) := do
  let a ← st.1[i]?
  let g ← rt[i]?
  let b ← st.2[i]?
  pure (st.1.set i (a * g), st.2.set i (b * g))

/-- Body of the product loop: `polABT[2*i] = polATe[i] * polBTe[i]` and
`polABT[2*i+1] = polATodd[i] * polBTodd[i]`. -/
def productStep {R : Nat} (polATe polBTe polATodd polBTodd : List (ZMod R))
    (polABT : List (ZMod R)) (i : Nat) : Option (List (ZMod R)) := do
  let _ ← polABT[2 * i]?
  let a ← polATe[i]?
  let b ← polBTe[i]?
  let _ ← polABT[2 * i + 1]?
  let ao ← polATodd[i]?
  let bo ← polBTodd[i]?
  pure ((polABT.set (2 * i) (a * b)).set (2 * i + 1) (ao * bo))

/-- The second part of `calculateH` (from `BigIntArrayToElementArray` on), on
the dense arrays `polAT` and `polBT`. The value `int(math.Log2(float64(m)))` is
`ilog2 m`, which is what Go returns on the powers of two; the transforms return
fresh arrays. -/
def transformH (R numcpu : Nat) (eng : Engine R) (m : Nat) (polAT polBT : List Int) :
    Option (List Int) := do
  let polATe : List (ZMod R) := polAT.map (Int.cast : Int → ZMod R)
  let polBTe : List (ZMod R) := polBT.map (Int.cast : Int → ZMod R)
  let polASe := eng.ifft polATe
  let polBSe := eng.ifft polBTe
  let r := ilog2 m + 1
  let shifted ← forChunks (ranges polASe.length numcpu) (cosetStep (eng.roots r))
    (polASe, polBSe)
  let polATodd := eng.fft shifted.1
  let polBTodd := eng.fft shifted.2
  let polABT ← forChunks (ranges polASe.length numcpu)
    (productStep polATe polBTe polATodd polBTodd) (List.replicate (polASe.length * 2) 0)
  let hSeFull := eng.ifft polABT
  let hSe ← slice hSeFull m hSeFull.length
  pure (hSe.map fun (x : ZMod R) => ((x.val : Nat) : Int))

/-- Source `calculateH`, for `numcpu := runtime.NumCPU()`: the two dense arrays
are built, then transformed. -/
def calculateH {G1 G2 : Type} (R numcpu : Nat) (eng : Engine R) (pk : Pk G1 G2)
    (w : List Int) : Option (List Int) := do
  let m := pk.DomainSize
  let polAT ← buildPol R pk.NVars pk.PolsA w m
  let polBT ← buildPol R pk.NVars pk.PolsB w m
  transformH R numcpu eng m polAT polBT

/-! ## `GenerateProof` -/

/-- The four accumulator slots `proofA[cpu]`, `proofB[cpu]`, `proofC[cpu]` and
`proofBG1[cpu]` of one worker. -/
structure Slots (G1 G2 : Type) where
  a : G1
  b : G2
  c : G1
  bg1 : G1

/-- Body of the first loop (`split 1`) for the chunk `rg`. -/
def split1 {G1 G2 : Type} [AddCommGroup G1] [AddCommGroup G2] (pk : Pk G1 G2) (w : List Int)
    (rg : Nat × Nat) : Option (Slots G1 G2) := do
  let pa ← slice pk.A rg.1 rg.2
  let wa ← slice w rg.1 rg.2
  let a := scalarMultNoDouble pa wa 0 gSize
  let pb ← slice pk.B2 rg.1 rg.2
  let b := scalarMultNoDouble pb wa 0 gSize
  let pb1 ← slice pk.B1 rg.1 rg.2
  let bg1 := scalarMultNoDouble pb1 wa 0 gSize
  let minLim := if rg.1 > pk.NPublic + 1 then rg.1 else pk.NPublic + 1
  if rg.2 > pk.NPublic + 1 then do
    let pc ← slice pk.C minLim rg.2
    let wc ← slice w minLim rg.2
    pure ⟨a, b, scalarMultNoDouble pc wc 0 gSize, bg1⟩
  else
    pure ⟨a, b, 0, bg1⟩

/-- Body of the second loop (`split 2`) for the chunk `rg`. -/
def split2 {G1 G2 : Type} [AddCommGroup G1] (pk : Pk G1 G2) (h : List Int)
    (rg : Nat × Nat) : Option G1 := do
  let ph ← slice pk.HExps rg.1 rg.2
  let hh ← slice h rg.1 rg.2
  pure (scalarMultNoDouble ph hh 0 gSize)

/-- The join loops: slot 0 absorbs slot 1, then slot 2, and so on; reading slot 0
of an empty array panics. -/
def join {G : Type} [AddCommGroup G] : List G → Option G
  | [] => none
  | x :: rest => some (rest.foldl (fun acc y => acc + y) x)

/-- The scalar `rsneg` of the source: `(-(r * s)) mod R`, which multiplies `VkDelta1`. -/
def rsneg (R : Nat) (r s : Int) : Int := (-(r * s)) % (R : Int)

/-- The part of `GenerateProof` after the two blinding scalars `r` and `s` have
been sampled. -/
def assemble {G1 G2 : Type} [AddCommGroup G1] [AddCommGroup G2] (R numcpu : Nat)
    (eng : Engine R) (pk : Pk G1 G2) (w : List Int) (r s : Int) :
    Option (Proof G1 G2 × List Int) := do
  let slots ← (ranges pk.NVars numcpu).mapM (split1 pk w)
  let a0 ← join (slots.map fun x => x.a)
  let b0 ← join (slots.map fun x => x.b)
  let c0 ← join (slots.map fun x => x.c)
  let bg0 ← join (slots.map fun x => x.bg1)
  let h ← calculateH R numcpu eng pk w
  let proofA := a0 + pk.VkAlpha1 + r • pk.VkDelta1
  let proofB := b0 + pk.VkBeta2 + s • pk.VkDelta2
  let proofBG1 := bg0 + pk.VkBeta1 + s • pk.VkDelta1
  let hslots ← (ranges h.length numcpu).mapM (split2 pk h)
  let ch ← join hslots
  let proofC := c0 + ch + s • proofA + r • proofBG1 + rsneg R r s • pk.VkDelta1
  let pubSignals ← slice w 1 (pk.NPublic + 1)
  pure (⟨proofA, proofB, proofC⟩, pubSignals)

/-- Source `GenerateProof`, for `numcpu := runtime.NumCPU()`; `rand k` is the
outcome of the `k`-th call of `rand.Read`. The outer `none` is a panic. The
witness `w` is a slice without spare capacity, `cap(w) = len(w)`; a witness
with spare capacity is the subject of `GenerateProofCap`. -/
def GenerateProof {ε G1 G2 : Type} [AddCommGroup G1] [AddCommGroup G2] (R numcpu : Nat)
    (rand : Nat → Read ε) (eng : Engine R) (pk : Pk G1 G2) (w : List Int) :
    Option (Result ε G1 G2) :=
  match randBigInt R (rand 0) with
  | none => none
  | some (.error err) => some ⟨none, none, some err⟩
  | some (.ok r) =>
    match randBigInt R (rand 1) with
    | none => none
    | some (.error err) => some ⟨none, none, some err⟩
    | some (.ok s) =>
      match assemble R numcpu eng pk w r s with
      | none => none
      | some (proof, pubSignals) => some ⟨some proof, some pubSignals, none⟩

/-- The part of `GenerateProof` after the sampling, on a witness with spare
capacity: `w` holds the backing array of the witness from its first entry up to
its capacity and `len` is the length of the witness. The slice expressions
`w[a:b]` are bounded by the capacity, so they are slices of `w`; `calculateH`
reads the witness by the index expressions `w[i]` only, which are bounded by
the length, so it runs on the first `len` entries. -/
def assembleCap {G1 G2 : Type} [AddCommGroup G1] [AddCommGroup G2] (R numcpu : Nat)
    (eng : Engine R) (pk : Pk G1 G2) (w : List Int) (len : Nat) (r s : Int) :
    Option (Proof G1 G2 × List Int) := do
  let slots ← (ranges pk.NVars numcpu).mapM (split1 pk w)
  let a0 ← join (slots.map fun x => x.a)
  let b0 ← join (slots.map fun x => x.b)
  let c0 ← join (slots.map fun x => x.c)
  let bg0 ← join (slots.map fun x => x.bg1)
  let h ← calculateH R numcpu eng pk (w.take len)
  let proofA := a0 + pk.VkAlpha1 + r • pk.VkDelta1
  let proofB := b0 + pk.VkBeta2 + s • pk.VkDelta2
  let proofBG1 := bg0 + pk.VkBeta1 + s • pk.VkDelta1
  let hslots ← (ranges h.length numcpu).mapM (split2 pk h)
  let ch ← join hslots
  let proofC := c0 + ch + s • proofA + r • proofBG1 + rsneg R r s • pk.VkDelta1
  let pubSignals ← slice w 1 (pk.NPublic + 1)
  pure (⟨proofA, proofB, proofC⟩, pubSignals)

/-- Source `GenerateProof` on a witness with spare capacity: `w` holds the
backing array of the witness up to its capacity, `len` is its length. -/
def GenerateProofCap {ε G1 G2 : Type} [AddCommGroup G1] [AddCommGroup G2] (R numcpu : Nat)
    (rand : Nat → Read ε) (eng : Engine R) (pk : Pk G1 G2) (w : List Int) (len : Nat) :
    Option (Result ε G1 G2) :=
  match randBigInt R (rand 0) with
  | none => none
  | some (.error err) => some ⟨none, none, some err⟩
  | some (.ok r) =>
    match randBigInt R (rand 1) with
    | none => none
    | some (.error err) => some ⟨none, none, some err⟩
    | some (.ok s) =>
      match assembleCap R numcpu eng pk w len r s with
      | none => none
      | some (proof, pubSignals) => some ⟨some proof, some pubSignals, none⟩

/-! ## The transforms, from their specification -/

/-- Modelled from the spec: the forward transform `fft` of an array, the values
at `1, g, g^2, ...` of the polynomial whose coefficients are `xs`. -/
def dft {R : Nat} (g : ZMod R) (xs : List (ZMod R)) : List (ZMod R) :=
  (List.range xs.length).map fun k =>
    ((List.range xs.length).map fun j => xs.getD j 0 * g ^ (j * k)).sum

/-- Modelled from the spec: the inverse transform `ifft` of an array, which
recovers the coefficients from the values at `1, g, g^2, ...`: the transform
along the inverse root `g ^ (n - 1)`, divided by the length `n`. -/
def idft {R : Nat} (g : ZMod R) (xs : List (ZMod R)) : List (ZMod R) :=
  (dft (g ^ (xs.length - 1)) xs).map fun y => (xs.length : ZMod R)⁻¹ * y

/-- Modelled from the spec: the FFT engine over a root-of-unity table `omega`,
where `omega k` is a primitive root of unity of order `2 ^ k`: an array of
length `2 ^ k` is transformed along `omega k`, and `roots.roots[r][i]` is
`omega r ^ i`. -/
def specEngine {R : Nat} (omega : Nat → ZMod R) : Engine R where
  fft xs := dft (omega (ilog2 xs.length)) xs
  ifft xs := idft (omega (ilog2 xs.length)) xs
  roots r := (List.range (2 ^ r)).map fun i => omega r ^ i


/-! ## Auxiliary definitions for the statements -/

/-- The total reading of the slice `xs[c.1:c.2]`. -/
def chunk {α : Type} (xs : List α) (c : Nat × Nat) : List α := (xs.drop c.1).take (c.2 - c.1)

/-- The term `w_i * P_i` of an MSM, zero beyond the end of either array. -/
def term {G : Type} [AddCommGroup G] (pts : List G) (ks : List Int) (i : Nat) : G :=
  ks.getD i 0 • pts.getD i 0

/-- The index range of the C-key MSM of the chunk `c`: from
`max c.1 (NPublic + 1)` to `c.2`. -/
def cChunk {G1 G2 : Type} (pk : Pk G1 G2) (c : Nat × Nat) : Nat × Nat :=
  (if c.1 > pk.NPublic + 1 then c.1 else pk.NPublic + 1, c.2)

/-- The value of the slot `proofC[cpu]` after the first loop, for the chunk `c`. -/
def cSlot {G1 G2 : Type} [AddCommGroup G1] (pk : Pk G1 G2) (w : List Int) (c : Nat × Nat) : G1 :=
  if c.2 > pk.NPublic + 1 then
    scalarMultNoDouble (chunk pk.C (cChunk pk c)) (chunk w (cChunk pk c)) 0 gSize
  else 0

/-- The sum of the coefficients that the entries of the column `col` hold for
the constraint index `j`. -/
def colSum (col : List (Nat × Int)) (j : Nat) : Int :=
  ((col.filter fun jc => jc.1 = j).map Prod.snd).sum

/-- The coefficient `col[j]` of a sparse column, zero when `j` is not a key of it. -/
def coef (col : List (Nat × Int)) (j : Nat) : Int := (col.lookup j).getD 0

/-- The constraint index `j` is a key of the sparse column `col`. -/
def present (col : List (Nat × Int)) (j : Nat) : Prop := j ∈ col.map Prod.fst

instance (col : List (Nat × Int)) (j : Nat) : Decidable (present col j) := by
  unfold present; infer_instance

/-- The dense array that the specification prescribes for the columns `pols`:
entry `j` is the sum of `w[i] * pols[i][j]` over the variables `i < nVars`,
reduced modulo `R`. -/
def denseSpec (R nVars : Nat) (pols : List (List (Nat × Int))) (w : List Int) (m : Nat) :
    List Int :=
  (List.range m).map fun j =>
    (∑ i in Finset.range nVars, w.getD i 0 * colSum (pols.getD i []) j) % (R : Int)

/-! ## Polynomials and the intermediate arrays of `calculateH` -/

section
open Polynomial
variable {R : Nat}

/-- The first `n` coefficients of a polynomial. -/
def coeffs (P : (ZMod R)[X]) (n : Nat) : List (ZMod R) := (List.range n).map P.coeff

/-- The values of a polynomial at `1, g, ..., g ^ (n - 1)`. -/
def values (P : (ZMod R)[X]) (g : ZMod R) (n : Nat) : List (ZMod R) :=
  (List.range n).map fun k => P.eval (g ^ k)

/-- The array `xs` with the entries below `k` multiplied by the powers of `g`. -/
def scaleUpTo (g : ZMod R) (k : Nat) (xs : List (ZMod R)) : List (ZMod R) :=
  (List.range xs.length).map fun i => if i < k then xs.getD i 0 * g ^ i else xs.getD i 0

/-- The product array after the first `k` rounds of the product loop: entry
`2 * i` is `a[i] * b[i]` and entry `2 * i + 1` is `ao[i] * bo[i]` for `i < k`,
the other entries are zero. -/
def interleaveUpTo (k : Nat) (a b ao bo : List (ZMod R)) (n : Nat) : List (ZMod R) :=
  (List.range (n * 2)).map fun t =>
    if t < 2 * k then
      (if t % 2 = 0 then a.getD (t / 2) 0 * b.getD (t / 2) 0
        else ao.getD (t / 2) 0 * bo.getD (t / 2) 0)
    else 0

/-- The values of a polynomial at the odd powers `g, g ^ 3, ...` of `g`: its
values on the coset of the domain. -/
def cosetValues (P : (ZMod R)[X]) (g : ZMod R) (n : Nat) : List (ZMod R) :=
  (List.range n).map fun i => P.eval (g ^ (2 * i + 1))

end

/-! ## Concrete data -/

/-- The order of the groups of the curve `bn256`, the value of `types.R`: a
prime of 254 bits. -/
def bn254R : Nat :=
  21888242871839275222246405745257275088548364400416034343698204186575808495617

/-- A root-of-unity table of `ZMod 65537`: the element `2` has order `32`, so
`omega k` has order `2 ^ k` for `k ≤ 5`. -/
def omega (k : Nat) : ZMod 65537 := 2 ^ (2 ^ (5 - k))

/-- The modulus `65537` is prime. -/
instance prime65537 : Fact (Nat.Prime 65537) := ⟨by norm_num⟩

/-- An entropy source that never fails: call `k` fills the buffer with the byte `k + 1`. -/
def steadyRand : Nat → Read Unit :=
  fun k n => .ok ⟨List.replicate n (Fin.ofNat (k + 1)), List.length_replicate _ _⟩

/-- A proving key over the group of integers with fifteen variables, two of
them public, and a domain of size four. -/
def pk15 : Pk Int Int where
  NVars := 15
  NPublic := 2
  DomainSize := 4
  A := [3, 5, 7, 11, 13, 17, 19, 23, 29, 31, 37, 41, 43, 47, 53]
  B1 := [2, 4, 6, 8, 10, 12, 14, 16, 18, 20, 22, 24, 26, 28, 30]
  B2 := [1, 2, 3, 4, 5, 6, 7, 8, 9, 10, 11, 12, 13, 14, 15]
  C := [9, 8, 7, 6, 5, 4, 3, 2, 1, 2, 3, 4, 5, 6, 7]
  HExps := [13, 17, 19, 23]
  PolsA := [[], [], [], [(0, 1)], [(1, 1)], [(2, 1)], [], [], [], [], [], [], [], [], []]
  PolsB := [[], [], [], [], [(0, 1)], [(1, 1)], [(2, 1)], [], [], [], [], [], [], [], []]
  VkAlpha1 := 100
  VkBeta1 := 200
  VkBeta2 := 300
  VkDelta1 := 400
  VkDelta2 := 500

/-- The coefficient of `x ^ t` in the product of the polynomials with the
coefficient lists `a` and `b`. -/
def prodCoeff {R : Nat} (a b : List (ZMod R)) (t : Nat) : ZMod R :=
  ((List.range (t + 1)).map fun i => a.getD i 0 * b.getD (t - i) 0).sum

/-- The key of the circuit `c = a * b` over the group of integers: four
variables (the constant, the public `c`, the private `a` and `b`), one
constraint, a domain of size two. -/
def pkMul : Pk Int Int where
  NVars := 4
  NPublic := 1
  DomainSize := 2
  A := [3, 5, 7, 11]
  B1 := [2, 4, 6, 8]
  B2 := [1, 2, 3, 4]
  C := [9, 8, 7, 6]
  HExps := [13, 17]
  PolsA := [[], [], [(0, 1)], []]
  PolsB := [[], [], [], [(0, 1)]]
  VkAlpha1 := 100
  VkBeta1 := 200
  VkBeta2 := 300
  VkDelta1 := 400
  VkDelta2 := 500

/-- A key like `pkMul` whose two non-empty columns hold both constraint indices
`0` and `1`, so that the dense arrays have no zero entry. -/
def pkPair : Pk Int Int where
  NVars := 4
  NPublic := 1
  DomainSize := 2
  A := [3, 5, 7, 11]
  B1 := [2, 4, 6, 8]
  B2 := [1, 2, 3, 4]
  C := [9, 8, 7, 6]
  HExps := [13, 17]
  PolsA := [[], [], [(0, 1), (1, 1)], []]
  PolsB := [[], [], [], [(0, 1), (1, 1)]]
  VkAlpha1 := 100
  VkBeta1 := 200
  VkBeta2 := 300
  VkDelta1 := 400
  VkDelta2 := 500

/-- The witness `[1, c, a, b]` of `pkMul` for `a = 3`, `b = 4`, `c = 12`. -/
def wMul : List Int := [1, 12, 3, 4]

/-- An entropy source whose first call fails with error code `7`. -/
def brokenRand : Nat → Read Nat :=
  fun k n => if k = 0 then .error 7 else .ok ⟨List.replicate n 0, List.length_replicate _ _⟩

/-- An entropy source whose first call succeeds and whose second call fails with
error code `9`. -/
def halfBrokenRand : Nat → Read Nat :=
  fun k n => if k = 1 then .error 9 else .ok ⟨List.replicate n 0, List.length_replicate _ _⟩

/-- A witness for `pk15`. -/
def w15 : List Int := [1, 12, 7, 3, 4, 5, 6, 2, 9, 8, 1, 3, 5, 7, 11]

/-! ## Lemmas on slices, loops and sums -/

section
variable {G1 G2 : Type} [AddCommGroup G1] [AddCommGroup G2]

theorem slice_eq_some {α : Type} {xs : List α} {a b : Nat} {ys : List α}
    (h : slice xs a b = some ys) : a ≤ b ∧ b ≤ xs.length ∧ ys = chunk xs (a, b) := by
  unfold slice at h
  split at h
  · rename_i hab
    simp only [Option.some.injEq] at h
    exact ⟨hab.1, hab.2, h.symm⟩
  · simp at h

theorem mapM_option_eq_some {α β : Type} (f : α → Option β) :
    ∀ (l : List α) (ys : List β), l.mapM f = some ys → List.Forall₂ (fun x y => f x = some y) l ys := by
  intro l
  induction l with
  | nil =>
    intro ys h
    rw [List.mapM_nil] at h
    simp only [Option.pure_def, Option.some.injEq] at h
    subst h; exact List.Forall₂.nil
  | cons x xs ih =>
    intro ys h
    rw [List.mapM_cons] at h
    simp only [Option.bind_eq_bind, Option.bind_eq_some, Option.pure_def, Option.some.injEq] at h
    obtain ⟨y, hy, ys', hys', rfl⟩ := h
    exact List.Forall₂.cons hy (ih ys' hys')

theorem assemble_eq_some {R numcpu : Nat} {eng : Engine R} {pk : Pk G1 G2} {w : List Int}
    {r s : Int} {prf : Proof G1 G2} {pub : List Int}
    (h : assemble R numcpu eng pk w r s = some (prf, pub)) :
    ∃ slots a0 b0 c0 bg0 hh hslots ch,
      (ranges pk.NVars numcpu).mapM (split1 pk w) = some slots ∧
      join (slots.map fun x => x.a) = some a0 ∧
      join (slots.map fun x => x.b) = some b0 ∧
      join (slots.map fun x => x.c) = some c0 ∧
      join (slots.map fun x => x.bg1) = some bg0 ∧
      calculateH R numcpu eng pk w = some hh ∧
      (ranges hh.length numcpu).mapM (split2 pk hh) = some hslots ∧
      join hslots = some ch ∧
      slice w 1 (pk.NPublic + 1) = some pub ∧
      prf.A = a0 + pk.VkAlpha1 + r • pk.VkDelta1 ∧
      prf.B = b0 + pk.VkBeta2 + s • pk.VkDelta2 ∧
      prf.C = c0 + ch + s • prf.A + r • (bg0 + pk.VkBeta1 + s • pk.VkDelta1)
        + ((-(r * s)) % (R : Int)) • pk.VkDelta1 := by
  unfold assemble at h
  simp only [Option.bind_eq_bind, Option.bind_eq_some, Option.pure_def, Option.some.injEq,
    Prod.mk.injEq] at h
  obtain ⟨slots, h1, a0, h2, b0, h3, c0, h4, bg0, h5, hh, h6, hslots, h7, ch, h8, pub', h9,
    rfl, rfl⟩ := h
  exact ⟨slots, a0, b0, c0, bg0, hh, hslots, ch, h1, h2, h3, h4, h5, h6, h7, h8, h9, rfl, rfl, rfl⟩


theorem foldl_add_eq {G : Type} [AddCommGroup G] (rest : List G) (x : G) :
    rest.foldl (fun acc y => acc + y) x = x + rest.sum := by
  induction rest generalizing x with
  | nil => simp
  | cons y ys ih => simp [ih, add_assoc]

theorem join_eq_some {G : Type} [AddCommGroup G] {l : List G} {x : G} (h : join l = some x) :
    x = l.sum ∧ l ≠ [] := by
  cases l with
  | nil => simp [join] at h
  | cons y ys =>
    simp only [join, Option.some.injEq] at h
    rw [foldl_add_eq] at h
    simp [← h]

theorem zipWith_take_sum {G : Type} [AddCommGroup G] (d : Nat) :
    ∀ (pts : List G) (ks : List Int),
      (List.zipWith (fun p k => k • p) (pts.take d) (ks.take d)).sum
        = ∑ i in Finset.range d, term pts ks i := by
  induction d with
  | zero => intro pts ks; simp
  | succ d ih =>
    intro pts ks
    cases pts with
    | nil => simp [term]
    | cons p ps =>
      cases ks with
      | nil => simp [term]
      | cons k ks' =>
        rw [Finset.sum_range_succ']
        simp only [List.take_succ_cons, List.zipWith_cons_cons, List.sum_cons, ih ps ks']
        simp [term, add_comm]

theorem msm_chunk {G : Type} [AddCommGroup G] (pts : List G) (ks : List Int) (c : Nat × Nat)
    (g : Nat) :
    scalarMultNoDouble (chunk pts c) (chunk ks c) 0 g = ∑ i in Finset.Ico c.1 c.2, term pts ks i := by
  unfold scalarMultNoDouble chunk
  rw [zero_add, zipWith_take_sum, Finset.sum_Ico_eq_sum_range]
  apply Finset.sum_congr rfl
  intro i _
  simp [term, List.getD_eq_getElem?_getD, List.getElem?_drop]

theorem chained_le : ∀ (rs : List (Nat × Nat)) (s e : Nat), chained s rs e → s ≤ e := by
  intro rs
  induction rs with
  | nil => intro s e h; simp [chained] at h; omega
  | cons c rest ih =>
    intro s e h
    simp only [chained] at h
    have := ih c.2 e h.2.2
    omega

theorem sum_chained {G : Type} [AddCommGroup G] (f : Nat → G) :
    ∀ (rs : List (Nat × Nat)) (s e : Nat), chained s rs e →
      (rs.map fun c => ∑ i in Finset.Ico c.1 c.2, f i).sum = ∑ i in Finset.Ico s e, f i := by
  intro rs
  induction rs with
  | nil => intro s e h; simp [chained] at h; simp [h]
  | cons c rest ih =>
    intro s e h
    simp only [chained] at h
    obtain ⟨h1, h2, h3⟩ := h
    rw [List.map_cons, List.sum_cons, ih c.2 e h3, h1.symm]
    exact Finset.sum_Ico_consecutive f h2 (chained_le rest c.2 e h3)


theorem split1_eq_some {pk : Pk G1 G2} {w : List Int} {c : Nat × Nat} {sl : Slots G1 G2}
    (h : split1 pk w c = some sl) :
    sl.a = scalarMultNoDouble (chunk pk.A c) (chunk w c) 0 gSize ∧
    sl.b = scalarMultNoDouble (chunk pk.B2 c) (chunk w c) 0 gSize ∧
    sl.c = cSlot pk w c ∧
    sl.bg1 = scalarMultNoDouble (chunk pk.B1 c) (chunk w c) 0 gSize := by
  unfold split1 at h
  simp only [Option.bind_eq_bind, Option.bind_eq_some, Option.pure_def] at h
  obtain ⟨pa, hpa, wa, hwa, pb, hpb, pb1, hpb1, h⟩ := h
  obtain ⟨-, -, rfl⟩ := slice_eq_some hpa
  obtain ⟨-, -, rfl⟩ := slice_eq_some hwa
  obtain ⟨-, -, rfl⟩ := slice_eq_some hpb
  obtain ⟨-, -, rfl⟩ := slice_eq_some hpb1
  unfold cSlot cChunk
  split at h
  · rename_i hc
    simp only [Option.bind_eq_some, Option.some.injEq] at h
    obtain ⟨pc, hpc, wc, hwc, rfl⟩ := h
    obtain ⟨-, -, rfl⟩ := slice_eq_some hpc
    obtain ⟨-, -, rfl⟩ := slice_eq_some hwc
    simp [hc]
  · rename_i hc
    simp only [Option.some.injEq] at h
    subst h
    simp [hc]

omit [AddCommGroup G2] in
theorem split2_eq_some {pk : Pk G1 G2} {hh : List Int} {c : Nat × Nat} {x : G1}
    (h : split2 pk hh c = some x) :
    x = scalarMultNoDouble (chunk pk.HExps c) (chunk hh c) 0 gSize := by
  unfold split2 at h
  simp only [Option.bind_eq_bind, Option.bind_eq_some, Option.pure_def, Option.some.injEq] at h
  obtain ⟨ph, hph, hc, hhc, rfl⟩ := h
  obtain ⟨-, -, rfl⟩ := slice_eq_some hph
  obtain ⟨-, -, rfl⟩ := slice_eq_some hhc
  rfl

theorem map_of_forall2 {α β γ : Type} {f : α → Option β} {g : β → γ} {k : α → γ}
    (hfk : ∀ x y, f x = some y → g y = k x) :
    ∀ (l : List α) (ys : List β), List.Forall₂ (fun x y => f x = some y) l ys →
      ys.map g = l.map k := by
  intro l ys h
  induction h with
  | nil => rfl
  | cons hxy _ ih => simp [hfk _ _ hxy, ih]

theorem slots_of_mapM {pk : Pk G1 G2} {w : List Int} {rs : List (Nat × Nat)}
    {slots : List (Slots G1 G2)} (h : rs.mapM (split1 pk w) = some slots) :
    (slots.map fun x => x.a)
        = rs.map (fun c => scalarMultNoDouble (chunk pk.A c) (chunk w c) 0 gSize) ∧
    (slots.map fun x => x.b)
        = rs.map (fun c => scalarMultNoDouble (chunk pk.B2 c) (chunk w c) 0 gSize) ∧
    (slots.map fun x => x.c) = rs.map (cSlot pk w) ∧
    (slots.map fun x => x.bg1)
        = rs.map (fun c => scalarMultNoDouble (chunk pk.B1 c) (chunk w c) 0 gSize) := by
  have hf := mapM_option_eq_some _ _ _ h
  exact ⟨map_of_forall2 (fun x y hxy => (split1_eq_some hxy).1) _ _ hf,
    map_of_forall2 (fun x y hxy => (split1_eq_some hxy).2.1) _ _ hf,
    map_of_forall2 (fun x y hxy => (split1_eq_some hxy).2.2.1) _ _ hf,
    map_of_forall2 (fun x y hxy => (split1_eq_some hxy).2.2.2) _ _ hf⟩

omit [AddCommGroup G2] in
theorem hslots_of_mapM {pk : Pk G1 G2} {hh : List Int} {rs : List (Nat × Nat)}
    {hslots : List G1} (h : rs.mapM (split2 pk hh) = some hslots) :
    hslots = rs.map (fun c => scalarMultNoDouble (chunk pk.HExps c) (chunk hh c) 0 gSize) := by
  have hf := mapM_option_eq_some _ _ _ h
  have := map_of_forall2 (g := id) (fun x y hxy => split2_eq_some hxy) _ _ hf
  simpa using this

theorem joined_partition {G : Type} [AddCommGroup G] (pts : List G) (ks : List Int)
    (rs : List (Nat × Nat)) (n : Nat) (g : Nat) (h : IsPartition rs n) :
    (rs.map fun c => scalarMultNoDouble (chunk pts c) (chunk ks c) 0 g).sum
      = ∑ i in Finset.range n, term pts ks i := by
  simp only [msm_chunk]
  rw [sum_chained (term pts ks) rs 0 n h, Finset.range_eq_Ico]

theorem assemble_of_GenerateProof {ε : Type} {R numcpu : Nat} {rand : Nat → Read ε}
    {eng : Engine R} {pk : Pk G1 G2} {w : List Int} {res : Result ε G1 G2}
    (h : GenerateProof R numcpu rand eng pk w = some res) (herr : res.err = none) :
    ∃ r s prf pub, randBigInt R (rand 0) = some (.ok r) ∧ randBigInt R (rand 1) = some (.ok s) ∧
      assemble R numcpu eng pk w r s = some (prf, pub) ∧ res = ⟨some prf, some pub, none⟩ := by
  unfold GenerateProof at h
  split at h
  · simp at h
  · simp only [Option.some.injEq] at h; subst h; simp at herr
  · rename_i r hr
    split at h
    · simp at h
    · simp only [Option.some.injEq] at h; subst h; simp at herr
    · rename_i s hs
      split at h
      · simp at h
      · rename_i prf pub hp
        simp only [Option.some.injEq] at h
        exact ⟨r, s, prf, pub, hr, hs, hp, h.symm⟩


end

/-! ## The double-precision model on known values -/

set_option maxRecDepth 1000000 in
/-- The model of `float64` reproduces the doubles nearest to `1/3` and `1/10`
(`0x3FD5555555555555` and `0x3FB999999999999A`), rounds `2^53 + 1` down and
`2^53 + 3` up to the even neighbour, and computes `11 * (15 / 11)` as
`15 - 2^-49`, the double printed as `14.999999999999998`. -/
theorem round53_samples :
    F64.div (F64.ofInt 1) (F64.ofInt 3) = ⟨6004799503160661, 2 ^ 54⟩ ∧
      F64.div (F64.ofInt 1) (F64.ofInt 10) = ⟨7205759403792794, 2 ^ 56⟩ ∧
      F64.ofInt (2 ^ 53 + 1) = ⟨2 ^ 53, 1⟩ ∧
      F64.ofInt (2 ^ 53 + 3) = ⟨2 ^ 53 + 4, 1⟩ ∧
      F64.mul (F64.ofInt 11) (F64.div (F64.ofInt 15) (F64.ofInt 11))
        = ⟨15 * 2 ^ 49 - 1, 2 ^ 49⟩ := by
  decide!

/-! ## The claims about `ranges` -/

set_option maxRecDepth 1000000 in
/-- C1, at the failing input `n = 15`, `parts = 11`: the last range returned by
`ranges` is `[13, 14)`, so index `14` of `[0, 15)` lies in no returned range and
the ranges do not partition `[0, 15)`. -/
theorem ranges_15_11_leaves_gap :
    (ranges 15 11).getLast? = some (13, 14) ∧ (∀ c ∈ ranges 15 11, ¬ covers c 14) ∧
      ¬ IsPartition (ranges 15 11) 15 := by
  decide!

set_option maxRecDepth 1000000 in
/-- C2, at the failing inputs `n = 15`, `k = 11`, `i = 10` and `n = 30`, `k = 22`,
`i = 10`: the range returned by `ranges` ends at `14`, one below the floor
`15` of the exact quotient `(i + 1) * n / k`. -/
theorem ranges_not_floor :
    (ranges 15 11)[10]? = some (13, 14) ∧ (10 * 15 / 11, (10 + 1) * 15 / 11) = (13, 15) ∧
      (ranges 30 22)[10]? = some (13, 14) ∧ (10 * 30 / 22, (10 + 1) * 30 / 22) = (13, 15) := by
  decide!

/-! ## The claims about the assembled proof -/

/-- C4: whenever `GenerateProof` succeeds, the witness has at least
`NPublic + 1` entries and the public signals returned are the witness entries
`w[1], ..., w[NPublic]`, in order and unmodified: there are `NPublic` of them,
entry `i` is `w[i + 1]`, and for `NPublic = 0` the sequence is empty. -/
theorem GenerateProof_pubSignals {ε G1 G2 : Type} [AddCommGroup G1] [AddCommGroup G2]
    (R numcpu : Nat) (rand : Nat → Read ε) (eng : Engine R) (pk : Pk G1 G2) (w : List Int)
    (res : Result ε G1 G2) (h : GenerateProof R numcpu rand eng pk w = some res)
    (herr : res.err = none) :
    pk.NPublic + 1 ≤ w.length ∧
      res.pubSignals = some ((w.drop 1).take pk.NPublic) ∧
      ((w.drop 1).take pk.NPublic).length = pk.NPublic ∧
      (∀ i, i < pk.NPublic → ((w.drop 1).take pk.NPublic)[i]? = w[i + 1]?) ∧
      (pk.NPublic = 0 → res.pubSignals = some []) := by
  obtain ⟨r, s, prf, pub, -, -, hasm, rfl⟩ := assemble_of_GenerateProof h herr
  obtain ⟨_, _, _, _, _, _, _, _, -, -, -, -, -, -, -, -, hpub, -⟩ := assemble_eq_some hasm
  obtain ⟨_, hlen, rfl⟩ := slice_eq_some hpub
  have hchunk : chunk w (1, pk.NPublic + 1) = (w.drop 1).take pk.NPublic := by
    simp [chunk]
  refine ⟨hlen, by rw [hchunk], ?_, ?_, ?_⟩
  · rw [List.length_take, List.length_drop]; omega
  · intro i hi
    rw [List.getElem?_take_of_lt hi, List.getElem?_drop, Nat.add_comm]
  · intro h0
    rw [hchunk, h0, List.take_zero]

/-- C6: when `GenerateProof` returns a proof and `r` is the first blinding
scalar, the element `A` is `A_partial + VkAlpha1 + r * VkDelta1`, where
`A_partial` is the sequential join of the MSMs of `(pk.A[a:b], w[a:b])` over
the chunks `[a, b)` of `ranges(NVars, numcpu)`; when these chunks partition
`[0, NVars)` it is the sum of `w_i * A_i` over all `i < NVars`, plus
`VkAlpha1 + r * VkDelta1`. -/
theorem GenerateProof_A {ε G1 G2 : Type} [AddCommGroup G1] [AddCommGroup G2]
    (R numcpu : Nat) (rand : Nat → Read ε) (eng : Engine R) (pk : Pk G1 G2) (w : List Int)
    (r : Int) (prf : Proof G1 G2) (pub : List Int)
    (hr : randBigInt R (rand 0) = some (.ok r))
    (h : GenerateProof R numcpu rand eng pk w = some ⟨some prf, some pub, none⟩) :
    ∃ aPartial : G1,
      join ((ranges pk.NVars numcpu).map fun c =>
        scalarMultNoDouble (chunk pk.A c) (chunk w c) 0 gSize) = some aPartial ∧
      prf.A = aPartial + pk.VkAlpha1 + r • pk.VkDelta1 ∧
      (IsPartition (ranges pk.NVars numcpu) pk.NVars →
        prf.A = (∑ i in Finset.range pk.NVars, term pk.A w i) + pk.VkAlpha1 + r • pk.VkDelta1) := by
  obtain ⟨r', s, prf', pub', hr', -, hasm, hres⟩ := assemble_of_GenerateProof h rfl
  rw [hr] at hr'
  simp only [Option.some.injEq, Except.ok.injEq] at hr'
  subst hr'
  simp only [Result.mk.injEq, Option.some.injEq, and_true] at hres
  obtain ⟨rfl, rfl⟩ := hres
  obtain ⟨slots, a0, _, _, _, _, _, _, hslots, ha0, -, -, -, -, -, -, -, hA, -, -⟩ :=
    assemble_eq_some hasm
  rw [(slots_of_mapM hslots).1] at ha0
  refine ⟨a0, ha0, hA, fun hpart => ?_⟩
  rw [hA, (join_eq_some ha0).1, joined_partition pk.A w _ _ gSize hpart]

/-- C7: when `GenerateProof` returns a proof and `s` is the second blinding
scalar, the element `B` is `B2_partial + VkBeta2 + s * VkDelta2`, where
`B2_partial` is the sequential join of the MSMs of `(pk.B2[a:b], w[a:b])` over
the chunks of `ranges(NVars, numcpu)`; a second run with any entropy source
that yields the same `s` (and any `r`) returns the same `B`; and when the
chunks partition `[0, NVars)` the element is the sum of `w_i * B2_i` over all
`i < NVars`, plus `VkBeta2 + s * VkDelta2`. -/
theorem GenerateProof_B {ε G1 G2 : Type} [AddCommGroup G1] [AddCommGroup G2]
    (R numcpu : Nat) (rand rand2 : Nat → Read ε) (eng : Engine R) (pk : Pk G1 G2)
    (w : List Int) (s : Int) (prf prf2 : Proof G1 G2) (pub pub2 : List Int)
    (hs : randBigInt R (rand 1) = some (.ok s))
    (h : GenerateProof R numcpu rand eng pk w = some ⟨some prf, some pub, none⟩)
    (hs2 : randBigInt R (rand2 1) = some (.ok s))
    (h2 : GenerateProof R numcpu rand2 eng pk w = some ⟨some prf2, some pub2, none⟩) :
    ∃ bPartial : G2,
      join ((ranges pk.NVars numcpu).map fun c =>
        scalarMultNoDouble (chunk pk.B2 c) (chunk w c) 0 gSize) = some bPartial ∧
      prf.B = bPartial + pk.VkBeta2 + s • pk.VkDelta2 ∧
      prf2.B = prf.B ∧
      (IsPartition (ranges pk.NVars numcpu) pk.NVars →
        prf.B = (∑ i in Finset.range pk.NVars, term pk.B2 w i) + pk.VkBeta2 + s • pk.VkDelta2) := by
  have key : ∀ (rnd : Nat → Read ε) (p : Proof G1 G2) (q : List Int),
      randBigInt R (rnd 1) = some (.ok s) →
      GenerateProof R numcpu rnd eng pk w = some ⟨some p, some q, none⟩ →
      ∃ b0 : G2, join ((ranges pk.NVars numcpu).map fun c =>
        scalarMultNoDouble (chunk pk.B2 c) (chunk w c) 0 gSize) = some b0 ∧
        p.B = b0 + pk.VkBeta2 + s • pk.VkDelta2 := by
    intro rnd p q hsr hg
    obtain ⟨r', s', prf', pub', -, hs', hasm, hres⟩ := assemble_of_GenerateProof hg rfl
    rw [hsr] at hs'
    simp only [Option.some.injEq, Except.ok.injEq] at hs'
    subst hs'
    simp only [Result.mk.injEq, Option.some.injEq, and_true] at hres
    obtain ⟨rfl, rfl⟩ := hres
    obtain ⟨slots, _, b0, _, _, _, _, _, hslots, -, hb0, -, -, -, -, -, -, -, hB, -⟩ :=
      assemble_eq_some hasm
    rw [(slots_of_mapM hslots).2.1] at hb0
    exact ⟨b0, hb0, hB⟩
  obtain ⟨b0, hb0, hB⟩ := key rand prf pub hs h
  obtain ⟨b2, hb2, hB2⟩ := key rand2 prf2 pub2 hs2 h2
  rw [hb0] at hb2
  simp only [Option.some.injEq] at hb2
  subst hb2
  refine ⟨b0, hb0, hB, by rw [hB2, hB], fun hpart => ?_⟩
  rw [hB, (join_eq_some hb0).1, joined_partition pk.B2 w _ _ gSize hpart]

/-- C5: when `GenerateProof` returns a proof and `r`, `s` are the blinding
scalars, the element `C` is
`C_partial + C_H + s * A_proof + r * B_G1 + ((-(r * s)) mod R) * VkDelta1`,
where `C_partial` is the join of the first-pass slots `proofC`, `C_H` the join
of the MSMs of `(pk.HExps[a:b], h[a:b])` over the chunks of
`ranges(len(h), numcpu)` for `h = calculateH(pk, w)`, `A_proof` the returned
element `A`, and `B_G1` the join of the MSMs of `(pk.B1[a:b], w[a:b])` plus
`VkBeta1 + s * VkDelta1`. -/
theorem GenerateProof_C {ε G1 G2 : Type} [AddCommGroup G1] [AddCommGroup G2]
    (R numcpu : Nat) (rand : Nat → Read ε) (eng : Engine R) (pk : Pk G1 G2) (w : List Int)
    (r s : Int) (prf : Proof G1 G2) (pub : List Int)
    (hr : randBigInt R (rand 0) = some (.ok r)) (hs : randBigInt R (rand 1) = some (.ok s))
    (h : GenerateProof R numcpu rand eng pk w = some ⟨some prf, some pub, none⟩) :
    ∃ (hh : List Int) (cPartial cH b1Partial : G1),
      calculateH R numcpu eng pk w = some hh ∧
      join ((ranges pk.NVars numcpu).map (cSlot pk w)) = some cPartial ∧
      join ((ranges hh.length numcpu).map fun c =>
        scalarMultNoDouble (chunk pk.HExps c) (chunk hh c) 0 gSize) = some cH ∧
      join ((ranges pk.NVars numcpu).map fun c =>
        scalarMultNoDouble (chunk pk.B1 c) (chunk w c) 0 gSize) = some b1Partial ∧
      prf.C = cPartial + cH + s • prf.A + r • (b1Partial + pk.VkBeta1 + s • pk.VkDelta1)
        + ((-(r * s)) % (R : Int)) • pk.VkDelta1 := by
  obtain ⟨r', s', prf', pub', hr', hs', hasm, hres⟩ := assemble_of_GenerateProof h rfl
  rw [hr] at hr'
  rw [hs] at hs'
  simp only [Option.some.injEq, Except.ok.injEq] at hr' hs'
  subst hr' hs'
  simp only [Result.mk.injEq, Option.some.injEq, and_true] at hres
  obtain ⟨rfl, rfl⟩ := hres
  obtain ⟨slots, _, _, c0, bg0, hh, hslots2, ch, hslots, -, -, hc0, hbg0, hH, hsl2, hch, -, -, -,
    hC⟩ := assemble_eq_some hasm
  rw [(slots_of_mapM hslots).2.2.1] at hc0
  rw [(slots_of_mapM hslots).2.2.2] at hbg0
  rw [hslots_of_mapM hsl2] at hch
  exact ⟨hh, c0, ch, bg0, hH, hc0, hch, hbg0, hC⟩

/-! ## A concrete run: fifteen variables, four workers -/

set_option maxRecDepth 1000000 in
theorem steadyRand_scalars :
    randBigInt 65537 (steadyRand 0) = some (.ok 1) ∧
      randBigInt 65537 (steadyRand 1) = some (.ok 2) := by
  decide!

set_option maxRecDepth 1000000 in
theorem run_pk15_four :
    GenerateProof 65537 4 steadyRand (specEngine omega) pk15 w15
      = some ⟨some ⟨2738, 2002, 28251024⟩, some [12, 7], none⟩ := by
  decide!

set_option maxRecDepth 1000000 in
theorem partition_15_four : IsPartition (ranges pk15.NVars 4) pk15.NVars := by
  decide!

theorem GenerateProof_pubSignals_witness :
    pk15.NPublic + 1 ≤ w15.length ∧
      (some [12, 7] : Option (List Int)) = some ((w15.drop 1).take pk15.NPublic) ∧
      ((w15.drop 1).take pk15.NPublic).length = pk15.NPublic ∧
      (∀ i, i < pk15.NPublic → ((w15.drop 1).take pk15.NPublic)[i]? = w15[i + 1]?) ∧
      (pk15.NPublic = 0 → (some [12, 7] : Option (List Int)) = some []) :=
  GenerateProof_pubSignals 65537 4 steadyRand (specEngine omega) pk15 w15
    ⟨some ⟨2738, 2002, 28251024⟩, some [12, 7], none⟩ run_pk15_four rfl

theorem GenerateProof_A_witness :
    IsPartition (ranges pk15.NVars 4) pk15.NVars ∧
      (2738 : Int) = (∑ i in Finset.range pk15.NVars, term pk15.A w15 i) + pk15.VkAlpha1
        + (1 : Int) • pk15.VkDelta1 := by
  obtain ⟨_, _, _, h3⟩ := GenerateProof_A 65537 4 steadyRand (specEngine omega) pk15 w15 1
    ⟨2738, 2002, 28251024⟩ [12, 7] steadyRand_scalars.1 run_pk15_four
  exact ⟨partition_15_four, h3 partition_15_four⟩

theorem GenerateProof_B_witness :
    IsPartition (ranges pk15.NVars 4) pk15.NVars ∧
      (2002 : Int) = (∑ i in Finset.range pk15.NVars, term pk15.B2 w15 i) + pk15.VkBeta2
        + (2 : Int) • pk15.VkDelta2 := by
  obtain ⟨_, _, _, _, h4⟩ := GenerateProof_B 65537 4 steadyRand steadyRand (specEngine omega)
    pk15 w15 2 ⟨2738, 2002, 28251024⟩ ⟨2738, 2002, 28251024⟩ [12, 7] [12, 7]
    steadyRand_scalars.2 run_pk15_four steadyRand_scalars.2 run_pk15_four
  exact ⟨partition_15_four, h4 partition_15_four⟩

theorem GenerateProof_C_witness :
    ∃ (hh : List Int) (cPartial cH b1Partial : Int),
      calculateH 65537 4 (specEngine omega) pk15 w15 = some hh ∧
      join ((ranges pk15.NVars 4).map (cSlot pk15 w15)) = some cPartial ∧
      join ((ranges hh.length 4).map fun c =>
        scalarMultNoDouble (chunk pk15.HExps c) (chunk hh c) 0 gSize) = some cH ∧
      join ((ranges pk15.NVars 4).map fun c =>
        scalarMultNoDouble (chunk pk15.B1 c) (chunk w15 c) 0 gSize) = some b1Partial ∧
      (28251024 : Int) = cPartial + cH + (2 : Int) • (2738 : Int)
        + (1 : Int) • (b1Partial + pk15.VkBeta1 + (2 : Int) • pk15.VkDelta1)
        + ((-((1 : Int) * 2)) % ((65537 : Nat) : Int)) • pk15.VkDelta1 :=
  GenerateProof_C 65537 4 steadyRand (specEngine omega) pk15 w15 1 2
    ⟨2738, 2002, 28251024⟩ [12, 7] steadyRand_scalars.1 steadyRand_scalars.2 run_pk15_four

/-! ## Worker counts -/

set_option maxRecDepth 1000000 in
/-- C3, at the failing input `pk15`, `w15` with the blinding scalars `r = 1` and
`s = 2`: with one worker `GenerateProof` returns `(2738, 2002, 28251024)`, with
eleven workers it returns `(2155, 1837, 28249451)`. The eleven chunks of
`ranges(15, 11)` end at `14`, so the terms of the last variable are missing. -/
theorem GenerateProof_one_vs_eleven_workers :
    GenerateProof 65537 1 steadyRand (specEngine omega) pk15 w15
        = some ⟨some ⟨2738, 2002, 28251024⟩, some [12, 7], none⟩ ∧
      GenerateProof 65537 11 steadyRand (specEngine omega) pk15 w15
        = some ⟨some ⟨2155, 1837, 28249451⟩, some [12, 7], none⟩ := by
  decide!

/-! ## Failure of the entropy source -/

theorem randBigInt_error {ε : Type} (R : Nat) (read : Read ε) (e : ε) (hR : 8 ≤ bitLen R)
    (h : read (bitLen R / 8 - 1) = .error e) : randBigInt R read = some (.error e) := by
  have h8 : ¬ bitLen R / 8 = 0 := by omega
  simp only [randBigInt, h8, if_false, h]

theorem randBigInt_ok {ε : Type} (R : Nat) (read : Read ε)
    (b : { bs : List (Fin 256) // bs.length = bitLen R / 8 - 1 }) (hR : 8 ≤ bitLen R)
    (h : read (bitLen R / 8 - 1) = .ok b) :
    randBigInt R read = some (.ok (((setBytes b.1 : Nat) : Int) % (R : Int))) := by
  have h8 : ¬ bitLen R / 8 = 0 := by omega
  simp only [randBigInt, h8, if_false, h]

set_option maxRecDepth 1000000 in
/-- C10, counterexample to its last part: both samples succeed (`r = 1`, `s = 2`)
and `GenerateProof` returns nothing, because the witness `[1, 12, 7]`, of length
and capacity three, is shorter than the fifteen variables of the key and the
slice `w[3:7]` panics. -/
theorem GenerateProof_short_witness_panics :
    randBigInt 65537 (steadyRand 0) = some (.ok 1) ∧
      randBigInt 65537 (steadyRand 1) = some (.ok 2) ∧
      GenerateProof 65537 4 steadyRand (specEngine omega) pk15 [1, 12, 7] = none := by
  decide!

/-! ## The dense arrays of `calculateH` -/

theorem foldlM_cons_option {α σ : Type} (f : σ → α → Option σ) (x : α) (xs : List α) (init : σ) :
    (x :: xs).foldlM f init = (f init x).bind fun st => xs.foldlM f st := by
  simp [List.foldlM_cons]

theorem colSum_cons (jc : Nat × Int) (rest : List (Nat × Int)) (j : Nat) :
    colSum (jc :: rest) j = (if jc.1 = j then jc.2 else 0) + colSum rest j := by
  unfold colSum
  by_cases h : jc.1 = j <;> simp [List.filter_cons, h]

theorem addColumn_spec (R : Nat) (w : List Int) (i : Nat) (hi : i < w.length) (m : Nat) :
    ∀ (col : List (Nat × Int)) (pol : List Int) (S : Nat → Int),
      (∀ jc ∈ col, jc.1 < m) → pol.length = m →
      (∀ j, j < m → pol[j]? = some (S j % (R : Int))) →
      ∃ pol2, addColumn R w i col pol = some pol2 ∧ pol2.length = m ∧
        ∀ j, j < m → pol2[j]? = some ((S j + w.getD i 0 * colSum col j) % (R : Int)) := by
  intro col
  induction col with
  | nil =>
    intro pol S _ hlen hS
    refine ⟨pol, by simp [addColumn], hlen, fun j hj => ?_⟩
    simp [colSum, hS j hj]
  | cons jc rest ih =>
    intro pol S hkeys hlen hS
    have hj0 : jc.1 < m := hkeys jc (List.mem_cons_self _ _)
    have hwi : w[i]? = some (w.getD i 0) := by
      simp [List.getD_eq_getElem?_getD, List.getElem?_eq_getElem hi]
    obtain ⟨pol2, h2, hlen2, hS2⟩ := ih
      (pol.set jc.1 (fAdd R (S jc.1 % (R : Int)) (fMul R (w.getD i 0) jc.2)))
      (fun j => S j + (if jc.1 = j then w.getD i 0 * jc.2 else 0))
      (fun x hx => hkeys x (List.mem_cons_of_mem _ hx))
      (by simp [hlen])
      (by
        intro j hj
        by_cases hjj : jc.1 = j
        · subst hjj
          simp only [if_true]
          rw [List.getElem?_set_self (by omega)]
          simp only [fAdd, fMul, Option.some.injEq]
          rw [Int.add_emod (S jc.1) (w.getD i 0 * jc.2)]
        · rw [List.getElem?_set_ne hjj, hS j hj]
          simp [hjj])
    refine ⟨pol2, ?_, hlen2, fun j hj => ?_⟩
    · unfold addColumn at h2 ⊢
      have hstep : addEntry R w i pol jc
          = some (pol.set jc.1 (fAdd R (S jc.1 % (R : Int)) (fMul R (w.getD i 0) jc.2))) := by
        unfold addEntry
        rw [hS jc.1 hj0, hwi]
        rfl
      rw [foldlM_cons_option, hstep]
      exact h2
    · rw [hS2 j hj, colSum_cons]
      congr 2
      split <;> ring

theorem addVariables_spec (R : Nat) (pols : List (List (Nat × Int))) (w : List Int) (m : Nat) :
    ∀ (is : List Nat) (pol : List Int) (S : Nat → Int),
      (∀ i ∈ is, i < w.length ∧ i < pols.length ∧ ∀ jc ∈ pols.getD i [], jc.1 < m) →
      pol.length = m →
      (∀ j, j < m → pol[j]? = some (S j % (R : Int))) →
      ∃ pol2, is.foldlM (addVariable R pols w) pol = some pol2 ∧ pol2.length = m ∧
        ∀ j, j < m → pol2[j]? = some
          ((S j + (is.map fun i => w.getD i 0 * colSum (pols.getD i []) j).sum) % (R : Int)) := by
  intro is
  induction is with
  | nil =>
    intro pol S _ hlen hS
    exact ⟨pol, by simp, hlen, fun j hj => by simp [hS j hj]⟩
  | cons i rest ih =>
    intro pol S hall hlen hS
    obtain ⟨hiw, hip, hkeys⟩ := hall i (List.mem_cons_self _ _)
    have hcol : pols[i]? = some (pols.getD i []) := by
      simp [List.getD_eq_getElem?_getD, List.getElem?_eq_getElem hip]
    obtain ⟨pol1, h1, hlen1, hS1⟩ :=
      addColumn_spec R w i hiw m (pols.getD i []) pol S hkeys hlen hS
    obtain ⟨pol2, h2, hlen2, hS2⟩ := ih pol1
      (fun j => S j + w.getD i 0 * colSum (pols.getD i []) j)
      (fun x hx => hall x (List.mem_cons_of_mem _ hx)) hlen1 hS1
    refine ⟨pol2, ?_, hlen2, fun j hj => ?_⟩
    · have hstep : addVariable R pols w pol i = some pol1 := by
        unfold addVariable
        rw [hcol]
        exact h1
      rw [foldlM_cons_option, hstep]
      exact h2
    · rw [hS2 j hj, List.map_cons, List.sum_cons, add_assoc]

theorem sum_map_range {M : Type} [AddCommMonoid M] (f : Nat → M) (n : Nat) :
    ((List.range n).map f).sum = ∑ i in Finset.range n, f i := by
  induction n with
  | zero => simp
  | succ n ih => rw [List.range_succ, List.map_append, List.sum_append, ih, Finset.sum_range_succ]; simp

/-- The loop of `calculateH` that builds a dense array returns the array of the
specification, provided the witness has `nVars` entries, there is a column for
every variable, and every key of a column is below `m`. -/
theorem buildPol_eq (R nVars : Nat) (pols : List (List (Nat × Int))) (w : List Int) (m : Nat)
    (hw : w.length = nVars) (hp : nVars ≤ pols.length)
    (hkeys : ∀ i, i < nVars → ∀ jc ∈ pols.getD i [], jc.1 < m) :
    buildPol R nVars pols w m = some (denseSpec R nVars pols w m) := by
  obtain ⟨pol2, h2, hlen2, hS2⟩ := addVariables_spec R pols w m (List.range' 0 (nVars - 0))
    (List.replicate m 0) (fun _ => 0)
    (by
      intro i hi
      rw [List.mem_range'_1] at hi
      exact ⟨by omega, by omega, hkeys i (by omega)⟩)
    (List.length_replicate _ _)
    (by
      intro j hj
      simp [List.getElem?_replicate, hj])
  unfold buildPol forRange
  rw [h2]
  congr 1
  apply List.ext_getElem?
  intro j
  by_cases hj : j < m
  · rw [hS2 j hj]
    unfold denseSpec
    rw [List.getElem?_map, List.getElem?_range hj, Nat.sub_zero, ← List.range_eq_range',
      sum_map_range]
    simp
  · rw [List.getElem?_eq_none (by omega), List.getElem?_eq_none (by simp [denseSpec]; omega)]

theorem colSum_of_not_present (col : List (Nat × Int)) (j : Nat) (h : ¬ present col j) :
    colSum col j = 0 := by
  induction col with
  | nil => rfl
  | cons jc rest ih =>
    rw [colSum_cons]
    have h1 : jc.1 ≠ j := fun e => h (by simp [present, ← e])
    have h2 : ¬ present rest j := fun e => h (by
      unfold present at e ⊢
      rw [List.map_cons]
      exact List.mem_cons_of_mem _ e)
    rw [ih h2, if_neg h1, add_zero]

theorem coef_of_not_present (col : List (Nat × Int)) (j : Nat) (h : ¬ present col j) :
    coef col j = 0 := by
  induction col with
  | nil => rfl
  | cons jc rest ih =>
    have h1 : jc.1 ≠ j := fun e => h (by simp [present, ← e])
    have h2 : ¬ present rest j := fun e => h (by
      unfold present at e ⊢
      rw [List.map_cons]
      exact List.mem_cons_of_mem _ e)
    have hb : (j == jc.1) = false := by simpa using fun e => h1 e.symm
    have := ih h2
    unfold coef at this ⊢
    obtain ⟨k, c⟩ := jc
    rw [List.lookup_cons, hb]
    exact this

theorem colSum_eq_coef (col : List (Nat × Int)) (j : Nat) (hn : (col.map Prod.fst).Nodup) :
    colSum col j = coef col j := by
  induction col with
  | nil => rfl
  | cons jc rest ih =>
    rw [List.map_cons, List.nodup_cons] at hn
    obtain ⟨k, c⟩ := jc
    rw [colSum_cons]
    by_cases h : k = j
    · subst h
      have hnp : ¬ present rest k := hn.1
      rw [colSum_of_not_present rest k hnp]
      simp [coef, List.lookup_cons]
    · have hb : (j == k) = false := by simpa using fun e => h e.symm
      rw [ih hn.2]
      simp only [h, if_false, zero_add]
      unfold coef
      rw [List.lookup_cons, hb]

theorem colSum_perm (col col2 : List (Nat × Int)) (j : Nat) (h : col.Perm col2) :
    colSum col j = colSum col2 j := by
  unfold colSum
  exact ((h.filter _).map _).sum_eq

theorem getD_perm_of_forall2 {cols cols2 : List (List (Nat × Int))}
    (h : List.Forall₂ List.Perm cols cols2) :
    ∀ i, (cols.getD i []).Perm (cols2.getD i []) := by
  induction h with
  | nil => intro i; simp
  | cons hab _ ih =>
    intro i
    cases i with
    | zero => simpa using hab
    | succ i => simpa using ih i

theorem denseSpec_perm (R nVars : Nat) (cols cols2 : List (List (Nat × Int))) (w : List Int)
    (m : Nat) (h : List.Forall₂ List.Perm cols cols2) :
    denseSpec R nVars cols w m = denseSpec R nVars cols2 w m := by
  unfold denseSpec
  apply List.map_congr_left
  intro j _
  congr 1
  apply Finset.sum_congr rfl
  intro i _
  rw [colSum_perm _ _ j (getD_perm_of_forall2 h i)]

theorem denseSpec_getElem (R nVars : Nat) (pols : List (List (Nat × Int))) (w : List Int)
    (m j : Nat) (hj : j < m)
    (hn : ∀ i, i < nVars → ((pols.getD i []).map Prod.fst).Nodup) :
    (denseSpec R nVars pols w m)[j]? = some
      ((∑ i in (Finset.range nVars).filter (fun i => present (pols.getD i []) j),
        w.getD i 0 * coef (pols.getD i []) j) % (R : Int)) := by
  unfold denseSpec
  rw [List.getElem?_map, List.getElem?_range hj]
  simp only [Option.map_some', Option.some.injEq]
  congr 1
  rw [Finset.sum_filter_of_ne]
  · apply Finset.sum_congr rfl
    intro i hi
    rw [colSum_eq_coef _ _ (hn i (Finset.mem_range.mp hi))]
  · intro i _ hne
    by_contra hnp
    exact hne (by rw [coef_of_not_present _ _ hnp, mul_zero])

theorem buildPol_perm (R nVars : Nat) (pols cols : List (List (Nat × Int))) (w : List Int)
    (m : Nat) (hw : w.length = nVars) (hp : nVars ≤ pols.length)
    (hkeys : ∀ i, i < nVars → ∀ jc ∈ pols.getD i [], jc.1 < m)
    (h : List.Forall₂ List.Perm cols pols) :
    buildPol R nVars cols w m = some (denseSpec R nVars pols w m) := by
  rw [← denseSpec_perm R nVars cols pols w m h]
  apply buildPol_eq R nVars cols w m hw
  · rw [h.length_eq]; exact hp
  · intro i hi jc hjc
    exact hkeys i hi jc ((getD_perm_of_forall2 h i).mem_iff.mp hjc)

/-- C9: in `calculateH`, for a witness of `NVars` entries and a key that has a
column for every variable, whose columns only use constraint indices below
`DomainSize` and (being maps) hold every index once, the two loops return dense
arrays `polA` and `polB` of length `DomainSize`, handed to the transforms, with
`polA[j] = (sum over the i < NVars whose column holds j of w[i] * PolsA[i][j]) mod R`
and the same for `polB`; an entry that no column mentions is `0`; and visiting
the entries of the columns in any other order gives the same arrays. -/
theorem calculateH_dense_arrays {G1 G2 : Type} (R : Nat) (pk : Pk G1 G2) (w : List Int)
    (hw : w.length = pk.NVars)
    (hA : pk.NVars ≤ pk.PolsA.length) (hB : pk.NVars ≤ pk.PolsB.length)
    (hkA : ∀ i, i < pk.NVars → ∀ jc ∈ pk.PolsA.getD i [], jc.1 < pk.DomainSize)
    (hkB : ∀ i, i < pk.NVars → ∀ jc ∈ pk.PolsB.getD i [], jc.1 < pk.DomainSize)
    (hnA : ∀ i, i < pk.NVars → ((pk.PolsA.getD i []).map Prod.fst).Nodup)
    (hnB : ∀ i, i < pk.NVars → ((pk.PolsB.getD i []).map Prod.fst).Nodup) :
    ∃ polA polB : List Int,
      buildPol R pk.NVars pk.PolsA w pk.DomainSize = some polA ∧
      buildPol R pk.NVars pk.PolsB w pk.DomainSize = some polB ∧
      (∀ (numcpu : Nat) (eng : Engine R),
        calculateH R numcpu eng pk w = transformH R numcpu eng pk.DomainSize polA polB) ∧
      polA.length = pk.DomainSize ∧ polB.length = pk.DomainSize ∧
      (∀ j, j < pk.DomainSize →
        polA[j]? = some
          ((∑ i in (Finset.range pk.NVars).filter (fun i => present (pk.PolsA.getD i []) j),
            w.getD i 0 * coef (pk.PolsA.getD i []) j) % (R : Int)) ∧
        polB[j]? = some
          ((∑ i in (Finset.range pk.NVars).filter (fun i => present (pk.PolsB.getD i []) j),
            w.getD i 0 * coef (pk.PolsB.getD i []) j) % (R : Int))) ∧
      (∀ j, j < pk.DomainSize →
        ((∀ i, i < pk.NVars → ¬ present (pk.PolsA.getD i []) j) → polA[j]? = some 0) ∧
        ((∀ i, i < pk.NVars → ¬ present (pk.PolsB.getD i []) j) → polB[j]? = some 0)) ∧
      (∀ colsA colsB : List (List (Nat × Int)),
        List.Forall₂ List.Perm colsA pk.PolsA → List.Forall₂ List.Perm colsB pk.PolsB →
        buildPol R pk.NVars colsA w pk.DomainSize = some polA ∧
        buildPol R pk.NVars colsB w pk.DomainSize = some polB) := by
  have eA := buildPol_eq R pk.NVars pk.PolsA w pk.DomainSize hw hA hkA
  have eB := buildPol_eq R pk.NVars pk.PolsB w pk.DomainSize hw hB hkB
  have zero : ∀ (pols : List (List (Nat × Int))) (j : Nat), j < pk.DomainSize →
      (∀ i, i < pk.NVars → ((pols.getD i []).map Prod.fst).Nodup) →
      (∀ i, i < pk.NVars → ¬ present (pols.getD i []) j) →
      (denseSpec R pk.NVars pols w pk.DomainSize)[j]? = some 0 := by
    intro pols j hj hn hnone
    rw [denseSpec_getElem R pk.NVars pols w pk.DomainSize j hj hn]
    have hempty : (Finset.range pk.NVars).filter (fun i => present (pols.getD i []) j) = ∅ := by
      apply Finset.filter_false_of_mem
      intro i hi
      exact hnone i (Finset.mem_range.mp hi)
    rw [hempty, Finset.sum_empty, Int.zero_emod]
  refine ⟨denseSpec R pk.NVars pk.PolsA w pk.DomainSize,
    denseSpec R pk.NVars pk.PolsB w pk.DomainSize, eA, eB, ?_, by simp [denseSpec],
    by simp [denseSpec], ?_, ?_, ?_⟩
  · intro numcpu eng
    unfold calculateH
    simp only [eA, eB]
    rfl
  · intro j hj
    exact ⟨denseSpec_getElem R pk.NVars pk.PolsA w pk.DomainSize j hj hnA,
      denseSpec_getElem R pk.NVars pk.PolsB w pk.DomainSize j hj hnB⟩
  · intro j hj
    exact ⟨zero pk.PolsA j hj hnA, zero pk.PolsB j hj hnB⟩
  · intro colsA colsB hpA hpB
    exact ⟨buildPol_perm R pk.NVars pk.PolsA colsA w pk.DomainSize hw hA hkA hpA,
      buildPol_perm R pk.NVars pk.PolsB colsB w pk.DomainSize hw hB hkB hpB⟩


set_option maxRecDepth 1000000 in
theorem calculateH_dense_arrays_witness :
    w15.length = pk15.NVars ∧
      ∃ polA polB : List Int,
        buildPol 65537 pk15.NVars pk15.PolsA w15 pk15.DomainSize = some polA ∧
        buildPol 65537 pk15.NVars pk15.PolsB w15 pk15.DomainSize = some polB ∧
        polA.length = pk15.DomainSize ∧ polB.length = pk15.DomainSize ∧
        polA[3]? = some 0 ∧ polB[3]? = some 0 := by
  obtain ⟨polA, polB, eA, eB, -, lA, lB, -, hz, -⟩ :=
    calculateH_dense_arrays 65537 pk15 w15 (by decide) (by decide) (by decide)
      (by decide!) (by decide!) (by decide!) (by decide!)
  exact ⟨by decide, polA, polB, eA, eB, lA, lB, (hz 3 (by decide)).1 (by decide!),
    (hz 3 (by decide)).2 (by decide!)⟩

/-! ## The quotient polynomial -/

set_option maxRecDepth 1000000 in
/-- C8, at the failing input `pkMul`, `wMul` (domain size `2`) with 49 workers:
the dense arrays are `[3, 0]` and `[4, 0]`, the interpolating polynomials have
the coefficients `[32770, 32770]` and `[2, 2]`, the coefficients of `x^2` and
`x^3` in their product are `[3, 0]`, which is what `calculateH` returns with one
worker; with 49 workers it returns `[0, 771]`, because `ranges(2, 49)` ends at
`1` and index `1` is skipped by the coset loop and by the product loop. -/
theorem calculateH_49_workers :
    buildPol 65537 pkMul.NVars pkMul.PolsA wMul pkMul.DomainSize = some [3, 0] ∧
      buildPol 65537 pkMul.NVars pkMul.PolsB wMul pkMul.DomainSize = some [4, 0] ∧
      idft (omega 1) [3, 0] = [32770, 32770] ∧ idft (omega 1) [4, 0] = [2, 2] ∧
      ((List.range 2).map fun t =>
        ((prodCoeff [32770, 32770] ([2, 2] : List (ZMod 65537)) (2 + t)).val : Int)) = [3, 0] ∧
      calculateH 65537 1 (specEngine omega) pkMul wMul = some [3, 0] ∧
      (ranges 2 49).getLast? = some (1, 1) ∧
      calculateH 65537 49 (specEngine omega) pkMul wMul = some [0, 771] := by
  decide!


/-! ## The transforms and polynomials -/

section Transforms
open Polynomial

variable {R : Nat}

theorem dft_length (g : ZMod R) (xs : List (ZMod R)) : (dft g xs).length = xs.length := by
  simp [dft]

theorem idft_length (g : ZMod R) (xs : List (ZMod R)) : (idft g xs).length = xs.length := by
  simp [idft, dft_length]

theorem dft_getElem (g : ZMod R) (xs : List (ZMod R)) (k : Nat) (hk : k < xs.length) :
    (dft g xs)[k]? = some (∑ j in Finset.range xs.length, xs.getD j 0 * g ^ (j * k)) := by
  unfold dft
  rw [List.getElem?_map, List.getElem?_range hk, Option.map_some', sum_map_range]

theorem coeffs_getD (P : (ZMod R)[X]) (n j : Nat) (hj : j < n) :
    (coeffs P n).getD j 0 = P.coeff j := by
  simp [coeffs, List.getD_eq_getElem?_getD, List.getElem?_range hj]

theorem values_getD (P : (ZMod R)[X]) (g : ZMod R) (n k : Nat) (hk : k < n) :
    (values P g n).getD k 0 = P.eval (g ^ k) := by
  simp [values, List.getD_eq_getElem?_getD, List.getElem?_range hk]

theorem dft_coeffs (P : (ZMod R)[X]) (g : ZMod R) (n : Nat) (hP : P.natDegree < n) :
    dft g (coeffs P n) = values P g n := by
  apply List.ext_getElem?
  intro k
  by_cases hk : k < n
  · rw [dft_getElem g _ k (by simpa [coeffs] using hk)]
    simp only [values, coeffs, List.length_map, List.length_range, List.getElem?_map,
      List.getElem?_range hk, Option.map_some', Option.some.injEq]
    rw [eval_eq_sum_range' hP]
    apply Finset.sum_congr rfl
    intro j hj
    have := coeffs_getD P n j (Finset.mem_range.mp hj)
    simp only [coeffs] at this
    rw [this, ← pow_mul, mul_comm k j]
  · rw [List.getElem?_eq_none (by simp [dft_length, coeffs]; omega),
      List.getElem?_eq_none (by simp [values]; omega)]

theorem root_sum [Fact R.Prime] (g : ZMod R) (n : Nat) (hg : IsPrimitiveRoot g n) (e : Nat) :
    ∑ k in Finset.range n, (g ^ e) ^ k = if n ∣ e then (n : ZMod R) else 0 := by
  split
  · rename_i hd
    rw [(hg.pow_eq_one_iff_dvd e).mpr hd]
    simp
  · rename_i hd
    have hne : g ^ e - 1 ≠ 0 := by
      intro h0
      exact hd ((hg.pow_eq_one_iff_dvd e).mp (sub_eq_zero.mp h0))
    have hmul := geom_sum_mul (g ^ e) n
    rw [← pow_mul, mul_comm e n, pow_mul, hg.pow_eq_one, one_pow, sub_self] at hmul
    exact (mul_eq_zero.mp hmul).resolve_right hne

theorem dvd_shift_iff (n l j : Nat) (hl : l < n) (hj : j < n) :
    n ∣ l + (n - 1) * j ↔ l = j := by
  constructor
  · rintro ⟨c, hc⟩
    have h1 : l + n * j = n * c + j := by
      have : n * j = (n - 1) * j + j := by
        conv_lhs => rw [show n = (n - 1) + 1 by omega]
        rw [Nat.add_mul, Nat.one_mul]
      omega
    have h2 : (l + n * j) % n = l := by
      rw [Nat.add_mul_mod_self_left, Nat.mod_eq_of_lt hl]
    have h3 : (n * c + j) % n = j := by
      rw [Nat.mul_add_mod, Nat.mod_eq_of_lt hj]
    rw [h1, h3] at h2
    exact h2.symm
  · rintro rfl
    refine ⟨l, ?_⟩
    have : n * l = (n - 1) * l + l := by
      conv_lhs => rw [show n = (n - 1) + 1 by omega]
      rw [Nat.add_mul, Nat.one_mul]
    omega

theorem idft_values [Fact R.Prime] (P : (ZMod R)[X]) (g : ZMod R) (n : Nat)
    (hg : IsPrimitiveRoot g n) (hn : (n : ZMod R) ≠ 0) (hP : P.natDegree < n) :
    idft g (values P g n) = coeffs P n := by
  apply List.ext_getElem?
  intro j
  have hlen : (values P g n).length = n := by simp [values]
  by_cases hj : j < n
  · unfold idft
    rw [List.getElem?_map, dft_getElem _ _ j (by rw [hlen]; exact hj), hlen]
    simp only [coeffs, List.getElem?_map, List.getElem?_range hj, Option.map_some',
      Option.some.injEq]
    have hsum : ∑ k in Finset.range n, (values P g n).getD k 0 * (g ^ (n - 1)) ^ (k * j)
        = P.coeff j * (n : ZMod R) := by
      have h1 : ∀ k ∈ Finset.range n, (values P g n).getD k 0 * (g ^ (n - 1)) ^ (k * j)
          = ∑ l in Finset.range n, P.coeff l * (g ^ (l + (n - 1) * j)) ^ k := by
        intro k hk
        rw [values_getD P g n k (Finset.mem_range.mp hk), eval_eq_sum_range' hP,
          Finset.sum_mul]
        apply Finset.sum_congr rfl
        intro l _
        rw [mul_assoc]
        congr 1
        rw [← pow_mul, ← pow_mul, ← pow_mul, ← pow_add]
        congr 1
        ring
      rw [Finset.sum_congr rfl h1, Finset.sum_comm]
      have h2 : ∀ l ∈ Finset.range n,
          ∑ k in Finset.range n, P.coeff l * (g ^ (l + (n - 1) * j)) ^ k
            = if l = j then P.coeff j * (n : ZMod R) else 0 := by
        intro l hl
        rw [← Finset.mul_sum, root_sum g n hg]
        by_cases hlj : l = j
        · subst hlj
          simp [(dvd_shift_iff n l l (Finset.mem_range.mp hl) hj).mpr rfl]
        · have : ¬ n ∣ l + (n - 1) * j := fun h =>
            hlj ((dvd_shift_iff n l j (Finset.mem_range.mp hl) hj).mp h)
          simp [this, hlj]
      rw [Finset.sum_congr rfl h2, Finset.sum_ite_eq' (Finset.range n) j]
      simp [hj]
    rw [hsum, mul_comm (P.coeff j), ← mul_assoc, inv_mul_cancel₀ hn, one_mul]
  · rw [List.getElem?_eq_none (by simp [idft_length, values]; omega),
      List.getElem?_eq_none (by simp [coeffs]; omega)]

theorem forRange_split {σ : Type} (a b c : Nat) (hab : a ≤ b) (hbc : b ≤ c)
    (body : σ → Nat → Option σ) (init : σ) :
    forRange a c body init = (forRange a b body init).bind fun st => forRange b c body st := by
  unfold forRange
  have h : List.range' a (c - a) = List.range' a (b - a) ++ List.range' b (c - b) := by
    have := List.range'_append_1 a (b - a) (c - b)
    rw [show a + (b - a) = b by omega, show c - b + (b - a) = c - a by omega] at this
    exact this.symm
  rw [h, List.foldlM_append]
  rfl

theorem forChunks_chained {σ : Type} (body : σ → Nat → Option σ) :
    ∀ (rs : List (Nat × Nat)) (s e : Nat) (init : σ), chained s rs e →
      forChunks rs body init = forRange s e body init := by
  intro rs
  induction rs with
  | nil =>
    intro s e init h
    simp only [chained] at h
    subst h
    simp [forChunks, forRange]
  | cons c rest ih =>
    intro s e init h
    simp only [chained] at h
    obtain ⟨h1, h2, h3⟩ := h
    subst h1
    rw [forRange_split c.1 c.2 e h2 (chained_le rest c.2 e h3)]
    unfold forChunks
    rw [foldlM_cons_option]
    cases hst : forRange c.1 c.2 body init with
    | none => rfl
    | some st =>
      simp only [Option.some_bind]
      exact ih c.2 e st h3

theorem forRange_succ {σ : Type} (k : Nat) (body : σ → Nat → Option σ) (init : σ) :
    forRange 0 (k + 1) body init = (forRange 0 k body init).bind fun st => body st k := by
  rw [forRange_split 0 k (k + 1) (by omega) (by omega)]
  congr 1
  funext st
  unfold forRange
  rw [show k + 1 - k = 1 by omega]
  simp [List.range', foldlM_cons_option]

theorem scaleUpTo_length (g : ZMod R) (k : Nat) (xs : List (ZMod R)) :
    (scaleUpTo g k xs).length = xs.length := by
  simp [scaleUpTo]

theorem scaleUpTo_zero (g : ZMod R) (xs : List (ZMod R)) : scaleUpTo g 0 xs = xs := by
  apply List.ext_getElem?
  intro i
  by_cases hi : i < xs.length
  · simp [scaleUpTo, List.getElem?_range hi, List.getD_eq_getElem?_getD,
      List.getElem?_eq_getElem hi]
  · rw [List.getElem?_eq_none (by simp [scaleUpTo]; omega), List.getElem?_eq_none (by omega)]

theorem scaleUpTo_getElem (g : ZMod R) (k : Nat) (xs : List (ZMod R)) (hk : k < xs.length) :
    (scaleUpTo g k xs)[k]? = some (xs.getD k 0) := by
  simp [scaleUpTo, List.getElem?_range hk]

theorem scaleUpTo_set (g : ZMod R) (k : Nat) (xs : List (ZMod R)) (hk : k < xs.length) :
    (scaleUpTo g k xs).set k (xs.getD k 0 * g ^ k) = scaleUpTo g (k + 1) xs := by
  apply List.ext_getElem?
  intro i
  by_cases hi : i < xs.length
  · by_cases hik : k = i
    · subst hik
      rw [List.getElem?_set_self (by rw [scaleUpTo_length]; exact hk)]
      simp [scaleUpTo, List.getElem?_range hk]
    · rw [List.getElem?_set_ne hik]
      simp only [scaleUpTo, List.getElem?_map, List.getElem?_range hi, Option.map_some',
        Option.some.injEq]
      by_cases h1 : i < k
      · rw [if_pos h1, if_pos (by omega)]
      · rw [if_neg h1, if_neg (by omega)]
  · rw [List.getElem?_eq_none (by simp [scaleUpTo]; omega),
      List.getElem?_eq_none (by simp [scaleUpTo]; omega)]

theorem coset_loop (g : ZMod R) (rt : List (ZMod R)) (xs ys : List (ZMod R)) (m : Nat)
    (hx : xs.length = m) (hy : ys.length = m) (hrt : ∀ i, i < m → rt[i]? = some (g ^ i)) :
    ∀ k, k ≤ m →
      forRange 0 k (cosetStep rt) (xs, ys) = some (scaleUpTo g k xs, scaleUpTo g k ys) := by
  intro k
  induction k with
  | zero =>
    intro _
    simp [forRange, scaleUpTo_zero]
  | succ k ih =>
    intro hk
    rw [forRange_succ, ih (by omega), Option.some_bind]
    unfold cosetStep
    simp only [scaleUpTo_getElem g k xs (by omega), scaleUpTo_getElem g k ys (by omega),
      hrt k (by omega), Option.bind_eq_bind, Option.some_bind, Option.pure_def,
      scaleUpTo_set g k xs (by omega), scaleUpTo_set g k ys (by omega)]

theorem interleaveUpTo_zero (a b ao bo : List (ZMod R)) (n : Nat) :
    interleaveUpTo 0 a b ao bo n = List.replicate (n * 2) 0 := by
  apply List.ext_getElem?
  intro t
  by_cases ht : t < n * 2
  · simp [interleaveUpTo, List.getElem?_range ht, List.getElem?_replicate, ht]
  · rw [List.getElem?_eq_none (by simp [interleaveUpTo]; omega),
      List.getElem?_eq_none (by simp; omega)]

theorem getElem?_of_lt {α : Type} [Zero α] (xs : List α) (i : Nat) (hi : i < xs.length) :
    xs[i]? = some (xs.getD i 0) := by
  simp [List.getD_eq_getElem?_getD, List.getElem?_eq_getElem hi]

theorem productStep_interleave (a b ao bo : List (ZMod R)) (n k : Nat) (hk : k < n)
    (ha : a.length = n) (hb : b.length = n) (hao : ao.length = n) (hbo : bo.length = n) :
    productStep a b ao bo (interleaveUpTo k a b ao bo n) k
      = some (interleaveUpTo (k + 1) a b ao bo n) := by
  have hlen : (interleaveUpTo k a b ao bo n).length = n * 2 := by simp [interleaveUpTo]
  unfold productStep
  rw [getElem?_of_lt _ (2 * k) (by omega), getElem?_of_lt a k (by omega),
    getElem?_of_lt b k (by omega), getElem?_of_lt _ (2 * k + 1) (by omega),
    getElem?_of_lt ao k (by omega), getElem?_of_lt bo k (by omega)]
  simp only [Option.bind_eq_bind, Option.some_bind, Option.pure_def, Option.some.injEq]
  apply List.ext_getElem?
  intro t
  by_cases ht : t < n * 2
  · by_cases h1 : t = 2 * k + 1
    · subst h1
      rw [List.getElem?_set_self (by rw [List.length_set, hlen]; exact ht)]
      simp only [interleaveUpTo, List.getElem?_map, List.getElem?_range ht, Option.map_some',
        Option.some.injEq]
      rw [if_pos (by omega), if_neg (by omega), show (2 * k + 1) / 2 = k by omega]
    · rw [List.getElem?_set_ne (fun h => h1 h.symm)]
      by_cases h0 : t = 2 * k
      · subst h0
        rw [List.getElem?_set_self (by rw [hlen]; exact ht)]
        simp only [interleaveUpTo, List.getElem?_map, List.getElem?_range ht, Option.map_some',
          Option.some.injEq]
        rw [if_pos (by omega), if_pos (by omega), show (2 * k) / 2 = k by omega]
      · rw [List.getElem?_set_ne (fun h => h0 h.symm)]
        simp only [interleaveUpTo, List.getElem?_map, List.getElem?_range ht, Option.map_some',
          Option.some.injEq]
        by_cases h2 : t < 2 * k
        · have h3 : t < 2 * (k + 1) := by omega
          simp only [h2, h3, if_true]
        · have h3 : ¬ t < 2 * (k + 1) := by omega
          simp only [h2, h3, if_false]
  · rw [List.getElem?_eq_none (by simp [interleaveUpTo]; omega),
      List.getElem?_eq_none (by simp [interleaveUpTo]; omega)]

theorem product_loop (a b ao bo : List (ZMod R)) (n : Nat)
    (ha : a.length = n) (hb : b.length = n) (hao : ao.length = n) (hbo : bo.length = n) :
    ∀ k, k ≤ n →
      forRange 0 k (productStep a b ao bo) (List.replicate (n * 2) 0)
        = some (interleaveUpTo k a b ao bo n) := by
  intro k
  induction k with
  | zero =>
    intro _
    simp [forRange, interleaveUpTo_zero]
  | succ k ih =>
    intro hk
    rw [forRange_succ, ih (by omega), Option.some_bind]
    exact productStep_interleave a b ao bo n k (by omega) ha hb hao hbo

theorem scaleUpTo_coeffs_getD (P : (ZMod R)[X]) (g : ZMod R) (n j : Nat) (hj : j < n) :
    (scaleUpTo g n (coeffs P n)).getD j 0 = P.coeff j * g ^ j := by
  have hlen : (coeffs P n).length = n := by simp [coeffs]
  rw [List.getD_eq_getElem?_getD]
  simp only [scaleUpTo, hlen, List.getElem?_map, List.getElem?_range hj, Option.map_some',
    Option.getD_some, if_pos hj]
  rw [coeffs_getD P n j hj]

theorem dft_scaled_coeffs (P : (ZMod R)[X]) (g : ZMod R) (n : Nat) (hP : P.natDegree < n) :
    dft (g ^ 2) (scaleUpTo g n (coeffs P n)) = cosetValues P g n := by
  have hlen : (scaleUpTo g n (coeffs P n)).length = n := by simp [scaleUpTo, coeffs]
  apply List.ext_getElem?
  intro i
  by_cases hi : i < n
  · rw [dft_getElem _ _ i (by rw [hlen]; exact hi), hlen]
    simp only [cosetValues, List.getElem?_map, List.getElem?_range hi, Option.map_some',
      Option.some.injEq]
    rw [eval_eq_sum_range' hP]
    apply Finset.sum_congr rfl
    intro j hj
    rw [scaleUpTo_coeffs_getD P g n j (Finset.mem_range.mp hj), mul_assoc]
    congr 1
    rw [← pow_mul, ← pow_mul, ← pow_add]
    congr 1
    ring
  · rw [List.getElem?_eq_none (by rw [dft_length, hlen]; omega),
      List.getElem?_eq_none (by simp [cosetValues]; omega)]

theorem interleave_values (A B : (ZMod R)[X]) (g : ZMod R) (n : Nat) :
    interleaveUpTo n (values A (g ^ 2) n) (values B (g ^ 2) n) (cosetValues A g n)
      (cosetValues B g n) n = values (A * B) g (n * 2) := by
  apply List.ext_getElem?
  intro t
  by_cases ht : t < n * 2
  · have h2 : t / 2 < n := by omega
    simp only [interleaveUpTo, values, List.getElem?_map, List.getElem?_range ht,
      Option.map_some', Option.some.injEq]
    rw [if_pos (by omega)]
    have hv : ∀ P : (ZMod R)[X], (values P (g ^ 2) n).getD (t / 2) 0 = P.eval ((g ^ 2) ^ (t / 2)) :=
      fun P => values_getD P (g ^ 2) n (t / 2) h2
    have hc : ∀ P : (ZMod R)[X], (cosetValues P g n).getD (t / 2) 0
        = P.eval (g ^ (2 * (t / 2) + 1)) := by
      intro P
      simp [cosetValues, List.getD_eq_getElem?_getD, List.getElem?_range h2]
    simp only [values] at hv
    rw [hv A, hv B, hc A, hc B, eval_mul]
    split
    · rename_i h0
      rw [← pow_mul, show 2 * (t / 2) = t by omega]
    · rename_i h0
      rw [show 2 * (t / 2) + 1 = t by omega]
  · rw [List.getElem?_eq_none (by simp [interleaveUpTo]; omega),
      List.getElem?_eq_none (by simp [values]; omega)]

theorem slice_coeffs (P : (ZMod R)[X]) (m : Nat) :
    slice (coeffs P (m * 2)) m (m * 2)
      = some ((List.range m).map fun t => P.coeff (m + t)) := by
  have hlen : (coeffs P (m * 2)).length = m * 2 := by simp [coeffs]
  unfold slice
  rw [if_pos (by rw [hlen]; omega)]
  congr 1
  apply List.ext_getElem?
  intro t
  by_cases ht : t < m
  · rw [List.getElem?_take_of_lt (by omega), List.getElem?_drop]
    simp [coeffs, List.getElem?_range ht, List.getElem?_range (show m + t < m * 2 by omega)]
  · rw [List.getElem?_eq_none (by simp [coeffs]; omega),
      List.getElem?_eq_none (by simp; omega)]

theorem coeffs_length (P : (ZMod R)[X]) (n : Nat) : (coeffs P n).length = n := by
  simp [coeffs]

theorem values_length (P : (ZMod R)[X]) (g : ZMod R) (n : Nat) : (values P g n).length = n := by
  simp [values]

theorem cosetValues_length (P : (ZMod R)[X]) (g : ZMod R) (n : Nat) :
    (cosetValues P g n).length = n := by
  simp [cosetValues]

/-- The second part of `calculateH` returns the upper half of the coefficients
of `A * B`, when the chunks of `ranges(m, numcpu)` partition `[0, m)`, the
transforms are the exact ones along a primitive root `g` of order `2 * m` and
its square, the table holds the powers of `g`, and the dense arrays are the
values on the domain of the polynomials `A` and `B` of degree below `m`. -/
theorem transformH_eq [Fact R.Prime] (numcpu m : Nat) (eng : Engine R) (g : ZMod R)
    (polAT polBT : List Int) (A B : (ZMod R)[X])
    (hm : 0 < m) (hg : IsPrimitiveRoot g (m * 2))
    (hifft : ∀ xs, xs.length = m → eng.ifft xs = idft (g ^ 2) xs)
    (hfft : ∀ xs, xs.length = m → eng.fft xs = dft (g ^ 2) xs)
    (hifft2 : ∀ xs, xs.length = m * 2 → eng.ifft xs = idft g xs)
    (hroots : ∀ i, i < m → (eng.roots (ilog2 m + 1))[i]? = some (g ^ i))
    (hpart : IsPartition (ranges m numcpu) m)
    (hA : A.natDegree < m) (hB : B.natDegree < m)
    (hvA : polAT.map (Int.cast : Int → ZMod R) = values A (g ^ 2) m)
    (hvB : polBT.map (Int.cast : Int → ZMod R) = values B (g ^ 2) m) :
    transformH R numcpu eng m polAT polBT
      = some ((List.range m).map fun t => ((((A * B).coeff (m + t)).val : Nat) : Int)) := by
  have h2m : ((m * 2 : Nat) : ZMod R) ≠ 0 := by
    haveI : NeZero (m * 2) := ⟨by omega⟩
    exact (hg.neZero').out
  have hmne : ((m : Nat) : ZMod R) ≠ 0 := by
    intro h0
    apply h2m
    rw [Nat.cast_mul, h0, zero_mul]
  have hw : IsPrimitiveRoot (g ^ 2) m :=
    IsPrimitiveRoot.pow (by omega) hg (Nat.mul_comm m 2)
  have hAB : (A * B).natDegree < m * 2 := by
    have := natDegree_mul_le (p := A) (q := B)
    omega
  have eA : eng.ifft (values A (g ^ 2) m) = coeffs A m := by
    rw [hifft _ (values_length A _ m), idft_values A (g ^ 2) m hw hmne hA]
  have eB : eng.ifft (values B (g ^ 2) m) = coeffs B m := by
    rw [hifft _ (values_length B _ m), idft_values B (g ^ 2) m hw hmne hB]
  have hcoset : forChunks (ranges m numcpu) (cosetStep (eng.roots (ilog2 m + 1)))
      (coeffs A m, coeffs B m)
      = some (scaleUpTo g m (coeffs A m), scaleUpTo g m (coeffs B m)) := by
    rw [forChunks_chained _ _ 0 m _ hpart]
    exact coset_loop g _ _ _ m (coeffs_length A m) (coeffs_length B m) hroots m (le_refl m)
  have oA : eng.fft (scaleUpTo g m (coeffs A m)) = cosetValues A g m := by
    rw [hfft _ (by rw [scaleUpTo_length, coeffs_length]), dft_scaled_coeffs A g m hA]
  have oB : eng.fft (scaleUpTo g m (coeffs B m)) = cosetValues B g m := by
    rw [hfft _ (by rw [scaleUpTo_length, coeffs_length]), dft_scaled_coeffs B g m hB]
  have hprod : forChunks (ranges m numcpu)
      (productStep (values A (g ^ 2) m) (values B (g ^ 2) m) (cosetValues A g m)
        (cosetValues B g m)) (List.replicate (m * 2) 0)
      = some (values (A * B) g (m * 2)) := by
    rw [forChunks_chained _ _ 0 m _ hpart, product_loop _ _ _ _ m (values_length A _ m)
      (values_length B _ m) (cosetValues_length A g m) (cosetValues_length B g m) m (le_refl m),
      interleave_values]
  have hfull : eng.ifft (values (A * B) g (m * 2)) = coeffs (A * B) (m * 2) := by
    rw [hifft2 _ (values_length _ _ _), idft_values (A * B) g (m * 2) hg h2m hAB]
  unfold transformH
  simp only [hvA, hvB, eA, eB, coeffs_length, hcoset, oA, oB, hprod, hfull, slice_coeffs,
    Option.bind_eq_bind, Option.some_bind, Option.pure_def, List.map_map]
  rfl

theorem natDegree_lt_of_degree_lt (P : (ZMod R)[X]) (m : Nat) (hm : 0 < m)
    (h : P.degree < (m : WithBot Nat)) : P.natDegree < m := by
  by_cases hP : P = 0
  · subst hP
    simpa using hm
  · exact (natDegree_lt_iff_degree_lt hP).mpr h

/-- Division by the vanishing polynomial `X ^ m - 1`: for a polynomial `P` of
degree below `2 * m`, the polynomial `H` whose coefficients are the upper half
of those of `P` is the quotient, with a remainder of degree below `m`. -/
theorem upper_half_quotient (P : (ZMod R)[X]) (m : Nat) (hP : P.natDegree < m * 2) :
    ∃ H C : (ZMod R)[X], (∀ t, t < m → H.coeff t = P.coeff (m + t)) ∧
      H.degree < (m : WithBot Nat) ∧ C.degree < (m : WithBot Nat) ∧
      P - C = H * (X ^ m - 1) := by
  have hcoef : ∀ (f : Nat → ZMod R) (n : Nat),
      (∑ t in Finset.range m, monomial t (f t)).coeff n = if n < m then f n else 0 := by
    intro f n
    rw [finset_sum_coeff]
    simp only [coeff_monomial]
    rw [Finset.sum_ite_eq' (Finset.range m) n]
    simp
  have hdeg : ∀ f : Nat → ZMod R,
      (∑ t in Finset.range m, monomial t (f t)).degree < (m : WithBot Nat) := by
    intro f
    rw [degree_lt_iff_coeff_zero]
    intro n hn
    rw [hcoef, if_neg (by omega)]
  refine ⟨∑ t in Finset.range m, monomial t (P.coeff (m + t)),
    (∑ t in Finset.range m, monomial t (P.coeff t))
      + ∑ t in Finset.range m, monomial t (P.coeff (m + t)), ?_, hdeg _, ?_, ?_⟩
  · intro t ht
    rw [hcoef, if_pos ht]
  · exact lt_of_le_of_lt (degree_add_le _ _) (max_lt (hdeg _) (hdeg _))
  · have hsplit : P = (∑ t in Finset.range m, monomial t (P.coeff t))
        + X ^ m * ∑ t in Finset.range m, monomial t (P.coeff (m + t)) := by
      ext n
      rw [coeff_add, coeff_X_pow_mul', hcoef, hcoef]
      by_cases h1 : n < m
      · rw [if_pos h1, if_neg (by omega), add_zero]
      · rw [if_neg h1, if_pos (by omega), zero_add]
        by_cases h2 : n - m < m
        · rw [if_pos h2, show m + (n - m) = n by omega]
        · rw [if_neg h2]
          exact coeff_eq_zero_of_natDegree_lt (by omega)
    generalize (∑ t in Finset.range m, monomial t (P.coeff t)) = L at hsplit ⊢
    generalize (∑ t in Finset.range m, monomial t (P.coeff (m + t))) = H at hsplit ⊢
    rw [hsplit]
    ring

/-- The quotient polynomial, when the chunks partition the domain: for a key
and a witness as in C9, a worker count for which the chunks of
`ranges(m, numcpu)` partition `[0, m)`, the exact transforms along a primitive
root `g` of order `2 * m` and its square, and polynomials `A`, `B` of degree
below `m` that interpolate the dense arrays on the domain, `calculateH` returns
the coefficients of `x ^ (m + t)` of `A * B` for `t < m`; they are the
coefficients of a polynomial `H` with `A * B - C = H * (X ^ m - 1)` for a
remainder `C` of degree below `m`. -/
theorem calculateH_quotient [Fact R.Prime] {G1 G2 : Type} (numcpu : Nat) (eng : Engine R)
    (pk : Pk G1 G2) (w : List Int) (g : ZMod R) (A B : (ZMod R)[X])
    (hw : w.length = pk.NVars)
    (hPA : pk.NVars ≤ pk.PolsA.length) (hPB : pk.NVars ≤ pk.PolsB.length)
    (hkA : ∀ i, i < pk.NVars → ∀ jc ∈ pk.PolsA.getD i [], jc.1 < pk.DomainSize)
    (hkB : ∀ i, i < pk.NVars → ∀ jc ∈ pk.PolsB.getD i [], jc.1 < pk.DomainSize)
    (hm : 0 < pk.DomainSize) (hg : IsPrimitiveRoot g (pk.DomainSize * 2))
    (hifft : ∀ xs, xs.length = pk.DomainSize → eng.ifft xs = idft (g ^ 2) xs)
    (hfft : ∀ xs, xs.length = pk.DomainSize → eng.fft xs = dft (g ^ 2) xs)
    (hifft2 : ∀ xs, xs.length = pk.DomainSize * 2 → eng.ifft xs = idft g xs)
    (hroots : ∀ i, i < pk.DomainSize →
      (eng.roots (ilog2 pk.DomainSize + 1))[i]? = some (g ^ i))
    (hpart : IsPartition (ranges pk.DomainSize numcpu) pk.DomainSize)
    (hA : A.degree < (pk.DomainSize : WithBot Nat))
    (hB : B.degree < (pk.DomainSize : WithBot Nat))
    (hvA : ∀ i, i < pk.DomainSize → A.eval ((g ^ 2) ^ i)
      = (((denseSpec R pk.NVars pk.PolsA w pk.DomainSize).getD i 0 : Int) : ZMod R))
    (hvB : ∀ i, i < pk.DomainSize → B.eval ((g ^ 2) ^ i)
      = (((denseSpec R pk.NVars pk.PolsB w pk.DomainSize).getD i 0 : Int) : ZMod R)) :
    calculateH R numcpu eng pk w
        = some ((List.range pk.DomainSize).map fun t =>
            ((((A * B).coeff (pk.DomainSize + t)).val : Nat) : Int)) ∧
      ∃ H C : (ZMod R)[X],
        (∀ t, t < pk.DomainSize → H.coeff t = (A * B).coeff (pk.DomainSize + t)) ∧
        H.degree < (pk.DomainSize : WithBot Nat) ∧ C.degree < (pk.DomainSize : WithBot Nat) ∧
        A * B - C = H * (X ^ pk.DomainSize - 1) := by
  have hA2 := natDegree_lt_of_degree_lt A _ hm hA
  have hB2 := natDegree_lt_of_degree_lt B _ hm hB
  have hAB : (A * B).natDegree < pk.DomainSize * 2 := by
    have := natDegree_mul_le (p := A) (q := B)
    omega
  have hvals : ∀ (P : (ZMod R)[X]) (pols : List (List (Nat × Int))),
      (∀ i, i < pk.DomainSize → P.eval ((g ^ 2) ^ i)
        = (((denseSpec R pk.NVars pols w pk.DomainSize).getD i 0 : Int) : ZMod R)) →
      (denseSpec R pk.NVars pols w pk.DomainSize).map (Int.cast : Int → ZMod R)
        = values P (g ^ 2) pk.DomainSize := by
    intro P pols hv
    have hlen : (denseSpec R pk.NVars pols w pk.DomainSize).length = pk.DomainSize := by
      simp [denseSpec]
    apply List.ext_getElem?
    intro i
    by_cases hi : i < pk.DomainSize
    · rw [List.getElem?_map, getElem?_of_lt _ i (by rw [hlen]; exact hi)]
      simp only [values, List.getElem?_map, List.getElem?_range hi, Option.map_some',
        Option.some.injEq]
      exact (hv i hi).symm
    · rw [List.getElem?_eq_none (by rw [List.length_map, hlen]; omega),
        List.getElem?_eq_none (by simp [values]; omega)]
  refine ⟨?_, upper_half_quotient (A * B) pk.DomainSize hAB⟩
  unfold calculateH
  simp only [buildPol_eq R pk.NVars pk.PolsA w pk.DomainSize hw hPA hkA,
    buildPol_eq R pk.NVars pk.PolsB w pk.DomainSize hw hPB hkB, Option.bind_eq_bind,
    Option.some_bind]
  exact transformH_eq numcpu pk.DomainSize eng g _ _ A B hm hg hifft hfft hifft2 hroots hpart
    hA2 hB2 (hvals A pk.PolsA hvA) (hvals B pk.PolsB hvB)

end Transforms

section Example
open Polynomial

set_option maxRecDepth 1000000 in
theorem omega_two_primitive : IsPrimitiveRoot (omega 2) (pkMul.DomainSize * 2) := by
  refine IsPrimitiveRoot.mk_of_lt (omega 2) (by decide) (by decide!) ?_
  intro l h0 h4
  have h4b : l < 4 := h4
  interval_cases l <;> decide!

set_option maxRecDepth 1000000 in
theorem denseSpec_pkMul :
    denseSpec 65537 pkMul.NVars pkMul.PolsA wMul pkMul.DomainSize = [3, 0] ∧
      denseSpec 65537 pkMul.NVars pkMul.PolsB wMul pkMul.DomainSize = [4, 0] := by
  have hA := buildPol_eq 65537 pkMul.NVars pkMul.PolsA wMul pkMul.DomainSize (by decide)
    (by decide) (by decide!)
  have hB := buildPol_eq 65537 pkMul.NVars pkMul.PolsB wMul pkMul.DomainSize (by decide)
    (by decide) (by decide!)
  have eA : buildPol 65537 pkMul.NVars pkMul.PolsA wMul pkMul.DomainSize = some [3, 0] := by
    decide!
  have eB : buildPol 65537 pkMul.NVars pkMul.PolsB wMul pkMul.DomainSize = some [4, 0] := by
    decide!
  rw [eA] at hA
  rw [eB] at hB
  exact ⟨(Option.some.inj hA).symm, (Option.some.inj hB).symm⟩

set_option maxRecDepth 1000000 in
/-- The quotient theorem applies to the circuit `c = a * b` with one worker:
`A = 32770 X + 32770` and `B = 2 X + 2` interpolate the dense arrays. -/
theorem calculateH_quotient_pkMul :
    calculateH 65537 1 (specEngine omega) pkMul wMul
      = some ((List.range pkMul.DomainSize).map fun t =>
          (((((C 32770 * X + C 32770 : (ZMod 65537)[X]) * (C 2 * X + C 2)).coeff
            (pkMul.DomainSize + t)).val : Nat) : Int)) := by
  have hw2 : omega 2 ^ 2 = omega 1 := by decide!
  refine (calculateH_quotient 1 (specEngine omega) pkMul wMul (omega 2)
    (C 32770 * X + C 32770) (C 2 * X + C 2) (by decide) (by decide) (by decide)
    (by decide!) (by decide!) (by decide) omega_two_primitive ?_ ?_ ?_ (by decide!)
    (by decide!) (degree_linear_lt) (degree_linear_lt) ?_ ?_).1
  · intro xs hxs
    show idft (omega (ilog2 xs.length)) xs = _
    rw [hxs, hw2]
    rfl
  · intro xs hxs
    show dft (omega (ilog2 xs.length)) xs = _
    rw [hxs, hw2]
    rfl
  · intro xs hxs
    show idft (omega (ilog2 xs.length)) xs = _
    rw [hxs]
    rfl
  · intro i hi
    have hi2 : i < 2 := hi
    rw [denseSpec_pkMul.1, hw2]
    interval_cases i
    · simp only [eval_add, eval_mul, eval_C, eval_X]
      decide!
    · simp only [eval_add, eval_mul, eval_C, eval_X]
      decide!
  · intro i hi
    have hi2 : i < 2 := hi
    rw [denseSpec_pkMul.2, hw2]
    interval_cases i
    · simp only [eval_add, eval_mul, eval_C, eval_X]
      decide!
    · simp only [eval_add, eval_mul, eval_C, eval_X]
      decide!

end Example

/-! ## Worker counts whose chunks partition -/

section Workers
variable {G1 G2 : Type} [AddCommGroup G1] [AddCommGroup G2]

omit [AddCommGroup G2] in
theorem cSlot_eq (pk : Pk G1 G2) (w : List Int) (c : Nat × Nat) (hc : c.1 ≤ c.2) :
    cSlot pk w c = ∑ i in Finset.Ico (max c.1 (pk.NPublic + 1)) (max c.2 (pk.NPublic + 1)),
      term pk.C w i := by
  unfold cSlot
  split
  · rename_i h
    rw [msm_chunk]
    have h1 : (cChunk pk c).1 = max c.1 (pk.NPublic + 1) := by
      unfold cChunk
      by_cases h2 : c.1 > pk.NPublic + 1
      · simp only [h2, if_true]; omega
      · simp only [h2, if_false]; omega
    have h3 : (cChunk pk c).2 = max c.2 (pk.NPublic + 1) := by
      unfold cChunk
      simp only
      omega
    rw [h1, h3]
  · rename_i h
    have h1 : max c.1 (pk.NPublic + 1) = pk.NPublic + 1 := by omega
    have h2 : max c.2 (pk.NPublic + 1) = pk.NPublic + 1 := by omega
    rw [h1, h2, Finset.Ico_self, Finset.sum_empty]

omit [AddCommGroup G2] in
/-- Over chunks that are contiguous from `s` to `e`, the slots `proofC` of the
first pass add up to the sum of `w_i * C_i` over the indices `i` with
`max s (NPublic + 1) ≤ i < e`. -/
theorem cSlot_sum_chained (pk : Pk G1 G2) (w : List Int) :
    ∀ (rs : List (Nat × Nat)) (s e : Nat), chained s rs e →
      (rs.map (cSlot pk w)).sum
        = ∑ i in Finset.Ico (max s (pk.NPublic + 1)) (max e (pk.NPublic + 1)), term pk.C w i := by
  intro rs
  induction rs with
  | nil =>
    intro s e h
    simp only [chained] at h
    subst h
    simp
  | cons c rest ih =>
    intro s e h
    simp only [chained] at h
    obtain ⟨h1, h2, h3⟩ := h
    subst h1
    have h4 := chained_le rest c.2 e h3
    rw [List.map_cons, List.sum_cons, ih c.2 e h3, cSlot_eq pk w c h2]
    exact Finset.sum_Ico_consecutive _ (max_le_max h2 (le_refl _)) (max_le_max h4 (le_refl _))

theorem transformH_workers (R k1 k2 : Nat) (eng : Engine R) (m : Nat) (polAT polBT : List Int)
    (h1 : IsPartition (ranges (eng.ifft (polAT.map (Int.cast : Int → ZMod R))).length k1)
      (eng.ifft (polAT.map (Int.cast : Int → ZMod R))).length)
    (h2 : IsPartition (ranges (eng.ifft (polAT.map (Int.cast : Int → ZMod R))).length k2)
      (eng.ifft (polAT.map (Int.cast : Int → ZMod R))).length) :
    transformH R k1 eng m polAT polBT = transformH R k2 eng m polAT polBT := by
  unfold transformH
  simp only [forChunks_chained _ _ 0 _ _ h1, forChunks_chained _ _ 0 _ _ h2]

/-- Two runs of `GenerateProof` on the same inputs with the worker counts `k1`
and `k2` return the same proof and the same public signals, provided the chunks
of both worker counts partition the three index ranges that are split: the
variables, the array returned by the first inverse transform, and the
coefficients of H. So a difference between two worker counts can only
come from chunks that do not partition. -/
theorem GenerateProof_workers {ε : Type} (R k1 k2 : Nat) (rand : Nat → Read ε)
    (eng : Engine R) (pk : Pk G1 G2) (w : List Int) (prf1 prf2 : Proof G1 G2)
    (pub1 pub2 : List Int)
    (hN1 : IsPartition (ranges pk.NVars k1) pk.NVars)
    (hN2 : IsPartition (ranges pk.NVars k2) pk.NVars)
    (hL1 : ∀ polAT : List Int, buildPol R pk.NVars pk.PolsA w pk.DomainSize = some polAT →
      IsPartition (ranges (eng.ifft (polAT.map (Int.cast : Int → ZMod R))).length k1)
        (eng.ifft (polAT.map (Int.cast : Int → ZMod R))).length)
    (hL2 : ∀ polAT : List Int, buildPol R pk.NVars pk.PolsA w pk.DomainSize = some polAT →
      IsPartition (ranges (eng.ifft (polAT.map (Int.cast : Int → ZMod R))).length k2)
        (eng.ifft (polAT.map (Int.cast : Int → ZMod R))).length)
    (hH1 : ∀ hh, calculateH R k1 eng pk w = some hh → IsPartition (ranges hh.length k1) hh.length)
    (hH2 : ∀ hh, calculateH R k2 eng pk w = some hh → IsPartition (ranges hh.length k2) hh.length)
    (h1 : GenerateProof R k1 rand eng pk w = some ⟨some prf1, some pub1, none⟩)
    (h2 : GenerateProof R k2 rand eng pk w = some ⟨some prf2, some pub2, none⟩) :
    prf1 = prf2 ∧ pub1 = pub2 := by
  obtain ⟨r, s, p1, q1, hr, hs, hasm1, hres1⟩ := assemble_of_GenerateProof h1 rfl
  obtain ⟨r', s', p2, q2, hr', hs', hasm2, hres2⟩ := assemble_of_GenerateProof h2 rfl
  rw [hr] at hr'
  rw [hs] at hs'
  simp only [Option.some.injEq, Except.ok.injEq] at hr' hs'
  subst hr' hs'
  simp only [Result.mk.injEq, Option.some.injEq, and_true] at hres1 hres2
  obtain ⟨rfl, rfl⟩ := hres1
  obtain ⟨rfl, rfl⟩ := hres2
  obtain ⟨sl1, a1, b1, c1, g1, hh1, hs1, ch1, hsl1, ha1, hb1, hc1, hg1, hH1e, hsl21, hch1, hp1,
    hA1, hB1, hC1⟩ := assemble_eq_some hasm1
  obtain ⟨sl2, a2, b2, c2, g2, hh2, hs2, ch2, hsl2, ha2, hb2, hc2, hg2, hH2e, hsl22, hch2, hp2,
    hA2, hB2, hC2⟩ := assemble_eq_some hasm2
  have hcalc : calculateH R k1 eng pk w = calculateH R k2 eng pk w := by
    have hdef : ∀ k, calculateH R k eng pk w
        = (buildPol R pk.NVars pk.PolsA w pk.DomainSize).bind fun polAT =>
            (buildPol R pk.NVars pk.PolsB w pk.DomainSize).bind fun polBT =>
              transformH R k eng pk.DomainSize polAT polBT := fun _ => rfl
    rw [hdef k1, hdef k2]
    cases hbA : buildPol R pk.NVars pk.PolsA w pk.DomainSize with
    | none => rfl
    | some polAT =>
      simp only [Option.some_bind]
      congr 1
      funext polBT
      exact transformH_workers R k1 k2 eng pk.DomainSize polAT polBT (hL1 polAT hbA)
        (hL2 polAT hbA)
  rw [hcalc, hH2e] at hH1e
  simp only [Option.some.injEq] at hH1e
  subst hH1e
  have hHp1 := hH1 hh2 (by rw [hcalc]; exact hH2e)
  have hHp2 := hH2 hh2 hH2e
  rw [(slots_of_mapM hsl1).1] at ha1
  rw [(slots_of_mapM hsl2).1] at ha2
  rw [(slots_of_mapM hsl1).2.1] at hb1
  rw [(slots_of_mapM hsl2).2.1] at hb2
  rw [(slots_of_mapM hsl1).2.2.1] at hc1
  rw [(slots_of_mapM hsl2).2.2.1] at hc2
  rw [(slots_of_mapM hsl1).2.2.2] at hg1
  rw [(slots_of_mapM hsl2).2.2.2] at hg2
  rw [hslots_of_mapM hsl21] at hch1
  rw [hslots_of_mapM hsl22] at hch2
  have ea : a1 = a2 := by
    rw [(join_eq_some ha1).1, (join_eq_some ha2).1, joined_partition _ _ _ _ _ hN1,
      joined_partition _ _ _ _ _ hN2]
  have eb : b1 = b2 := by
    rw [(join_eq_some hb1).1, (join_eq_some hb2).1, joined_partition _ _ _ _ _ hN1,
      joined_partition _ _ _ _ _ hN2]
  have eg : g1 = g2 := by
    rw [(join_eq_some hg1).1, (join_eq_some hg2).1, joined_partition _ _ _ _ _ hN1,
      joined_partition _ _ _ _ _ hN2]
  have ec : c1 = c2 := by
    rw [(join_eq_some hc1).1, (join_eq_some hc2).1, cSlot_sum_chained pk w _ 0 _ hN1,
      cSlot_sum_chained pk w _ 0 _ hN2]
  have eh : ch1 = ch2 := by
    rw [(join_eq_some hch1).1, (join_eq_some hch2).1, joined_partition _ _ _ _ _ hHp1,
      joined_partition _ _ _ _ _ hHp2]
  subst ea eb eg ec eh
  have hq : pub1 = pub2 := by
    rw [hp1] at hp2
    exact Option.some.inj hp2
  refine ⟨?_, hq⟩
  have hAe : prf1.A = prf2.A := by rw [hA1, hA2]
  have hBe : prf1.B = prf2.B := by rw [hB1, hB2]
  have hCe : prf1.C = prf2.C := by rw [hC1, hC2, hAe]
  cases prf1
  cases prf2
  simp only at hAe hBe hCe
  rw [hAe, hBe, hCe]

end Workers

set_option maxRecDepth 1000000 in
/-- The run of `pk15` with one worker returns what the run with four workers
returns: the chunks of both worker counts partition. -/
theorem GenerateProof_workers_pk15 (prf : Proof Int Int) (pub : List Int)
    (h : GenerateProof 65537 1 steadyRand (specEngine omega) pk15 w15
      = some ⟨some prf, some pub, none⟩) :
    prf = ⟨2738, 2002, 28251024⟩ ∧ pub = [12, 7] := by
  have hb : buildPol 65537 pk15.NVars pk15.PolsA w15 pk15.DomainSize = some [3, 4, 5, 0] := by
    decide!
  have hlen : ∀ polAT : List Int,
      buildPol 65537 pk15.NVars pk15.PolsA w15 pk15.DomainSize = some polAT →
      ((specEngine omega).ifft (polAT.map (Int.cast : Int → ZMod 65537))).length = 4 := by
    intro polAT hp
    rw [hb] at hp
    rw [← Option.some.inj hp]
    show (idft _ _).length = 4
    rw [idft_length]
    rfl
  have hc1 : calculateH 65537 1 (specEngine omega) pk15 w15 = some [49157, 8831, 65248, 0] := by
    decide!
  have hc4 : calculateH 65537 4 (specEngine omega) pk15 w15 = some [49157, 8831, 65248, 0] := by
    decide!
  exact GenerateProof_workers 65537 1 4 steadyRand (specEngine omega) pk15 w15 prf
    ⟨2738, 2002, 28251024⟩ pub [12, 7] (by decide!) (by decide!)
    (fun polAT hp => by rw [hlen polAT hp]; decide!)
    (fun polAT hp => by rw [hlen polAT hp]; decide!)
    (fun hh hhe => by
      rw [hc1] at hhe
      rw [← Option.some.inj hhe]
      decide!)
    (fun hh hhe => by
      rw [hc4] at hhe
      rw [← Option.some.inj hhe]
      decide!)
    h run_pk15_four

/-! ## The scalars sampled by `randBigInt` -/

theorem ilog2Aux_spec : ∀ (fuel n : Nat), 0 < n → n ≤ fuel →
    2 ^ ilog2Aux fuel n ≤ n ∧ n < 2 ^ (ilog2Aux fuel n + 1) := by
  intro fuel
  induction fuel with
  | zero => intro n h0 h1; omega
  | succ fuel ih =>
    intro n h0 h1
    unfold ilog2Aux
    by_cases h2 : n < 2
    · rw [if_pos h2]
      constructor
      · simpa using h0
      · simpa using h2
    · rw [if_neg h2]
      obtain ⟨ih1, ih2⟩ := ih (n / 2) (by omega) (by omega)
      constructor
      · rw [pow_succ]
        omega
      · rw [pow_succ]
        omega

theorem ilog2_spec (n : Nat) (h : 0 < n) : 2 ^ ilog2 n ≤ n ∧ n < 2 ^ (ilog2 n + 1) :=
  ilog2Aux_spec n n h (le_refl n)

theorem bitLen_spec (n : Nat) (h : 0 < n) : 2 ^ (bitLen n - 1) ≤ n ∧ n < 2 ^ bitLen n := by
  unfold bitLen
  rw [if_neg (by omega)]
  exact ilog2_spec n h

theorem pos_of_bitLen (R : Nat) (hR : 8 ≤ bitLen R) : 0 < R := by
  by_contra h
  have h0 : R = 0 := by omega
  subst h0
  simp [bitLen] at hR

theorem setBytes_append (xs : List (Fin 256)) (b : Fin 256) :
    setBytes (xs ++ [b]) = 256 * setBytes xs + b.val := by
  simp [setBytes, List.foldl_append]

theorem setBytes_lt : ∀ (n : Nat) (bs : List (Fin 256)), bs.length = n → setBytes bs < 256 ^ n := by
  intro n
  induction n with
  | zero =>
    intro bs h
    rw [List.length_eq_zero] at h
    subst h
    simp [setBytes]
  | succ n ih =>
    intro bs h
    obtain ⟨xs, b, rfl⟩ : ∃ xs b, bs = xs ++ [b] := by
      have hne : bs ≠ [] := by
        intro h0
        subst h0
        simp at h
      exact ⟨bs.dropLast, bs.getLast hne, (List.dropLast_append_getLast hne).symm⟩
    rw [setBytes_append]
    have hx : xs.length = n := by simpa using h
    have := ih xs hx
    have hb := b.isLt
    rw [pow_succ]
    omega

theorem setBytes_injective : ∀ (n : Nat) (bs cs : List (Fin 256)), bs.length = n →
    cs.length = n → setBytes bs = setBytes cs → bs = cs := by
  intro n
  induction n with
  | zero =>
    intro bs cs h1 h2 _
    rw [List.length_eq_zero] at h1 h2
    rw [h1, h2]
  | succ n ih =>
    intro bs cs h1 h2 he
    have split : ∀ ds : List (Fin 256), ds.length = n + 1 →
        ∃ xs b, ds = xs ++ [b] ∧ xs.length = n := by
      intro ds hd
      have hne : ds ≠ [] := by
        intro h0
        subst h0
        simp at hd
      refine ⟨ds.dropLast, ds.getLast hne, (List.dropLast_append_getLast hne).symm, ?_⟩
      simp [hd]
    obtain ⟨xs, b, rfl, hx⟩ := split bs h1
    obtain ⟨ys, c, rfl, hy⟩ := split cs h2
    rw [setBytes_append, setBytes_append] at he
    have hb := b.isLt
    have hc := c.isLt
    have e1 : setBytes xs = setBytes ys := by omega
    have e2 : b.val = c.val := by omega
    rw [ih xs ys hx hy e1, Fin.ext e2]

theorem setBytes_surjective : ∀ (n v : Nat), v < 256 ^ n →
    ∃ bs : List (Fin 256), bs.length = n ∧ setBytes bs = v := by
  intro n
  induction n with
  | zero =>
    intro v hv
    refine ⟨[], rfl, ?_⟩
    simp at hv
    simp [setBytes, hv]
  | succ n ih =>
    intro v hv
    obtain ⟨xs, hx, hxs⟩ := ih (v / 256) (by
      rw [pow_succ] at hv
      exact Nat.div_lt_of_lt_mul (by rw [Nat.mul_comm]; exact hv))
    refine ⟨xs ++ [⟨v % 256, Nat.mod_lt _ (by decide)⟩], by simp [hx], ?_⟩
    rw [setBytes_append, hxs]
    exact Nat.div_add_mod v 256

theorem bytes_bound (R : Nat) (hR : 8 ≤ bitLen R) : 256 ^ (bitLen R / 8 - 1) < R := by
  have hpos := pos_of_bitLen R hR
  have h1 := (bitLen_spec R hpos).1
  have h2 : 256 ^ (bitLen R / 8 - 1) = 2 ^ (8 * (bitLen R / 8 - 1)) := by
    rw [pow_mul]
    norm_num
  have h3 : 2 ^ (8 * (bitLen R / 8 - 1)) < 2 ^ (bitLen R - 1) :=
    Nat.pow_lt_pow_right (by decide) (by omega)
  omega

/-- C14: for a group order of at least eight bits, every scalar returned by
`randBigInt` lies in `[0, R)`, whatever bytes the entropy source delivers, and
for all `r`, `s` in `[0, R)` the scalar `rsneg` that multiplies `VkDelta1` lies
in `[0, R)` and satisfies `(rsneg + r * s) mod R = 0`. -/
theorem scalars_reduced {ε : Type} (R : Nat) (hR : 8 ≤ bitLen R) :
    (∀ (read : Read ε) (b : { bs : List (Fin 256) // bs.length = bitLen R / 8 - 1 }),
      read (bitLen R / 8 - 1) = .ok b →
        ∃ v : Int, randBigInt R read = some (.ok v) ∧ 0 ≤ v ∧ v < (R : Int)) ∧
    (∀ r s : Int, 0 ≤ r → r < (R : Int) → 0 ≤ s → s < (R : Int) →
      0 ≤ rsneg R r s ∧ rsneg R r s < (R : Int) ∧ (rsneg R r s + r * s) % (R : Int) = 0) := by
  have hpos : (0 : Int) < (R : Int) := by exact_mod_cast pos_of_bitLen R hR
  constructor
  · intro read b hb
    refine ⟨_, randBigInt_ok R read b hR hb, Int.emod_nonneg _ (ne_of_gt hpos),
      Int.emod_lt_of_pos _ hpos⟩
  · intro r s _ _ _ _
    refine ⟨Int.emod_nonneg _ (ne_of_gt hpos), Int.emod_lt_of_pos _ hpos, ?_⟩
    unfold rsneg
    rw [Int.emod_add_emod, neg_add_cancel, Int.zero_emod]

set_option maxRecDepth 1000000 in
theorem scalars_reduced_witness :
    8 ≤ bitLen bn254R ∧
      ∃ v : Int, randBigInt bn254R (steadyRand 0) = some (.ok v) ∧ 0 ≤ v ∧ v < (bn254R : Int) :=
  ⟨by decide!, (scalars_reduced bn254R (by decide!)).1 (steadyRand 0)
    ⟨List.replicate (bitLen bn254R / 8 - 1) (Fin.ofNat (0 + 1)), List.length_replicate _ _⟩ rfl⟩

/-- C17: for a group order of at least eight bits, `randBigInt` reads
`bitLen R / 8 - 1` bytes and the reduction modulo `R` does not change the value
read: the scalar returned is the big-endian value of the bytes, it is below
`2 ^ (8 * (bitLen R / 8 - 1))`, which is below `R`, and two byte strings with
the same scalar are equal; for a 254-bit order there are 30 bytes and the bound
is `2 ^ 240`. -/
theorem randBigInt_no_reduction {ε : Type} (R : Nat) (hR : 8 ≤ bitLen R) :
    (∀ (read : Read ε) (b : { bs : List (Fin 256) // bs.length = bitLen R / 8 - 1 }),
      read (bitLen R / 8 - 1) = .ok b →
        randBigInt R read = some (.ok ((setBytes b.1 : Nat) : Int)) ∧
        setBytes b.1 < 2 ^ (8 * (bitLen R / 8 - 1))) ∧
    2 ^ (8 * (bitLen R / 8 - 1)) < R ∧
    (∀ b c : { bs : List (Fin 256) // bs.length = bitLen R / 8 - 1 },
      setBytes b.1 = setBytes c.1 → b = c) ∧
    (bitLen R = 254 → bitLen R / 8 - 1 = 30 ∧ 2 ^ 240 < R) := by
  have hpow : 256 ^ (bitLen R / 8 - 1) = 2 ^ (8 * (bitLen R / 8 - 1)) := by
    rw [pow_mul]
    norm_num
  have hlt := bytes_bound R hR
  refine ⟨?_, by omega, ?_, ?_⟩
  · intro read b hb
    have hb2 := setBytes_lt _ b.1 b.2
    refine ⟨?_, by omega⟩
    rw [randBigInt_ok R read b hR hb]
    congr 2
    apply Int.emod_eq_of_lt
    · exact Int.ofNat_nonneg _
    · exact_mod_cast (by omega : setBytes b.1 < R)
  · intro b c h
    exact Subtype.ext (setBytes_injective _ b.1 c.1 b.2 c.2 h)
  · intro h254
    rw [h254] at hlt hpow
    have h30 : 254 / 8 - 1 = 30 := by decide
    rw [h254]
    refine ⟨h30, ?_⟩
    rw [h30] at hlt hpow
    omega

set_option maxRecDepth 1000000 in
theorem randBigInt_no_reduction_witness :
    8 ≤ bitLen bn254R ∧ bitLen bn254R = 254 ∧ 2 ^ 240 < bn254R ∧
      randBigInt bn254R (steadyRand 1)
        = some (.ok ((setBytes (List.replicate 30 (2 : Fin 256)) : Nat) : Int)) := by
  have h := @randBigInt_no_reduction Unit bn254R (by decide!)
  have h254 : bitLen bn254R = 254 := by decide!
  refine ⟨by decide!, h254, (h.2.2.2 h254).2, ?_⟩
  have h2 := (h.1 (steadyRand 1)
    ⟨List.replicate (bitLen bn254R / 8 - 1) (Fin.ofNat (1 + 1)), List.length_replicate _ _⟩
    rfl).1
  rw [h2]
  simp only [h254]
  rfl

theorem randBigInt_value {ε : Type} (R : Nat) (hR : 8 ≤ bitLen R) (n : Nat)
    (hn : bitLen R / 8 - 1 = n) (read : Read ε) (v : Int)
    (h : randBigInt R read = some (.ok v)) :
    ∃ bs : List (Fin 256), bs.length = n ∧ v = ((setBytes bs : Nat) : Int) := by
  cases hread : read (bitLen R / 8 - 1) with
  | error e =>
    rw [randBigInt_error R read e hR hread] at h
    simp at h
  | ok b =>
    have hb := setBytes_lt _ b.1 b.2
    have hlt : setBytes b.1 < R := lt_trans hb (bytes_bound R hR)
    rw [randBigInt_ok R read b hR hread] at h
    simp only [Option.some.injEq, Except.ok.injEq] at h
    rw [Int.emod_eq_of_lt (Int.ofNat_nonneg _) (by exact_mod_cast hlt)] at h
    exact ⟨b.1, by rw [b.2, hn], h.symm⟩

set_option maxRecDepth 1000000 in
/-- C12, counterexample: the value `2 ^ 240` lies in `[0, R)` for the order `R`
of the curve, and no outcome of the entropy source makes `randBigInt` return it. -/
theorem randBigInt_misses_value :
    (2 : Int) ^ 240 < (bn254R : Int) ∧
      ¬ ∃ read : Read Unit, randBigInt bn254R read = some (.ok ((2 : Int) ^ 240)) := by
  refine ⟨by decide!, ?_⟩
  rintro ⟨read, h⟩
  obtain ⟨bs, hlen, hv⟩ := randBigInt_value bn254R (by decide!) 30 (by decide!) read _ h
  have hb := setBytes_lt 30 bs hlen
  have h3 : (256 : Nat) ^ 30 = 2 ^ 240 := by norm_num
  rw [h3] at hb
  have h2 : ((setBytes bs : Nat) : Int) < (2 : Int) ^ 240 := by exact_mod_cast hb
  omega

/-- C12, amended: for a group order of 254 bits `randBigInt` reads 30 bytes and
returns their big-endian value, so it draws from `[0, 2 ^ 240)` and not from all
of `[0, R)`: every scalar returned is below `2 ^ 240`, and every value below
`2 ^ 240` is the value of exactly one string of 30 bytes, so uniformly
distributed bytes give a scalar uniformly distributed in `[0, 2 ^ 240)`. -/
theorem randBigInt_uniform_240 {ε : Type} (R : Nat) (hR : bitLen R = 254) :
    (∀ (read : Read ε) (b : { bs : List (Fin 256) // bs.length = bitLen R / 8 - 1 }),
      read (bitLen R / 8 - 1) = .ok b →
        b.1.length = 30 ∧ randBigInt R read = some (.ok ((setBytes b.1 : Nat) : Int)) ∧
        setBytes b.1 < 2 ^ 240) ∧
    (∀ v : Nat, v < 2 ^ 240 → ∃! bs : List (Fin 256), bs.length = 30 ∧ setBytes bs = v) ∧
    2 ^ 240 < R := by
  have h8 : 8 ≤ bitLen R := by omega
  have hn : bitLen R / 8 - 1 = 30 := by rw [hR]
  have h3 : (256 : Nat) ^ 30 = 2 ^ 240 := by norm_num
  have hlt := bytes_bound R h8
  rw [hn, h3] at hlt
  refine ⟨?_, ?_, hlt⟩
  · intro read b hb
    have hb2 := setBytes_lt 30 b.1 (by rw [b.2, hn])
    rw [h3] at hb2
    refine ⟨by rw [b.2, hn], ?_, hb2⟩
    rw [randBigInt_ok R read b h8 hb]
    congr 2
    exact Int.emod_eq_of_lt (Int.ofNat_nonneg _) (by exact_mod_cast (by omega : setBytes b.1 < R))
  · intro v hv
    rw [← h3] at hv
    obtain ⟨bs, hlen, hval⟩ := setBytes_surjective 30 v hv
    refine ⟨bs, ⟨hlen, hval⟩, ?_⟩
    rintro cs ⟨hc, hcv⟩
    exact setBytes_injective 30 cs bs hc hlen (by rw [hcv, hval])

set_option maxRecDepth 1000000 in
theorem randBigInt_uniform_240_witness :
    bitLen bn254R = 254 ∧
      (∃! bs : List (Fin 256), bs.length = 30 ∧ setBytes bs = 12345) ∧ 2 ^ 240 < bn254R :=
  ⟨by decide!, (@randBigInt_uniform_240 Unit bn254R (by decide!)).2.1 12345 (by norm_num),
    (@randBigInt_uniform_240 Unit bn254R (by decide!)).2.2⟩

/-! ## The shape of `ranges` -/

theorem ranges_length (n parts : Nat) : (ranges n parts).length = parts := by
  simp [ranges]

theorem ranges_getElem (n parts i : Nat) (hi : i < parts) :
    (ranges n parts)[i]? = some (splitPoint n parts i, splitPoint n parts (i + 1)) := by
  simp [ranges, splitPoint, List.getElem?_range hi]

theorem splitPoint_zero (n parts : Nat) : splitPoint n parts 0 = 0 := by
  simp [splitPoint, F64.mul, F64.ofInt, round53, F64.toInt]

/-- C15: for `parts ≥ 1`, `ranges(n, parts)` returns exactly `parts` ranges, the
first range starts at `0`, and for every `i < parts - 1` the end of range `i` is
the start of range `i + 1` (both are the split point `i + 1`), so no index lies
in both of two consecutive ranges and none is left out between them. -/
theorem ranges_consecutive (n parts : Nat) (hp : 1 ≤ parts) :
    (ranges n parts).length = parts ∧
      (∃ b, (ranges n parts)[0]? = some (0, b)) ∧
      (∀ i, i + 1 < parts → ∃ a b c,
        (ranges n parts)[i]? = some (a, b) ∧ (ranges n parts)[i + 1]? = some (b, c) ∧
        (∀ x, ¬ (covers (a, b) x ∧ covers (b, c) x)) ∧
        (∀ x, a ≤ x → x < c → covers (a, b) x ∨ covers (b, c) x)) := by
  refine ⟨ranges_length n parts, ⟨splitPoint n parts 1, ?_⟩, ?_⟩
  · rw [ranges_getElem n parts 0 (by omega), splitPoint_zero]
  · intro i hi
    refine ⟨splitPoint n parts i, splitPoint n parts (i + 1), splitPoint n parts (i + 2),
      ranges_getElem n parts i (by omega), ranges_getElem n parts (i + 1) hi, ?_, ?_⟩
    · intro x hx
      unfold covers at hx
      simp only at hx
      omega
    · intro x h1 h2
      unfold covers
      simp only
      omega

set_option maxRecDepth 1000000 in
theorem ranges_consecutive_witness :
    1 ≤ 11 ∧ (ranges 15 11).length = 11 ∧ (∃ b, (ranges 15 11)[0]? = some (0, b)) :=
  ⟨by decide, (ranges_consecutive 15 11 (by decide)).1, (ranges_consecutive 15 11 (by decide)).2.1⟩

/-! ## The index ranges of the C-key MSM -/

theorem chained_mem : ∀ (rs : List (Nat × Nat)) (s e : Nat), chained s rs e →
    ∀ c ∈ rs, s ≤ c.1 ∧ c.1 ≤ c.2 ∧ c.2 ≤ e := by
  intro rs
  induction rs with
  | nil => intro s e _ c hc; simp at hc
  | cons d rest ih =>
    intro s e h c hc
    simp only [chained] at h
    obtain ⟨h1, h2, h3⟩ := h
    have h4 := chained_le rest d.2 e h3
    rcases List.mem_cons.mp hc with rfl | hmem
    · omega
    · have := ih d.2 e h3 c hmem
      omega

theorem chained_cover : ∀ (rs : List (Nat × Nat)) (s e : Nat), chained s rs e →
    ∀ i, s ≤ i → i < e → ∃ c ∈ rs, covers c i := by
  intro rs
  induction rs with
  | nil =>
    intro s e h i h1 h2
    simp only [chained] at h
    omega
  | cons d rest ih =>
    intro s e h i h1 h2
    simp only [chained] at h
    obtain ⟨h3, h4, h5⟩ := h
    by_cases hi : i < d.2
    · exact ⟨d, List.mem_cons_self _ _, by unfold covers; omega⟩
    · obtain ⟨c, hc, hcov⟩ := ih d.2 e h5 i (by omega) h2
      exact ⟨c, List.mem_cons_of_mem _ hc, hcov⟩

theorem chained_pairwise : ∀ (rs : List (Nat × Nat)) (s e : Nat), chained s rs e →
    rs.Pairwise (fun c d => c.2 ≤ d.1) := by
  intro rs
  induction rs with
  | nil => intro s e _; exact List.Pairwise.nil
  | cons d rest ih =>
    intro s e h
    simp only [chained] at h
    obtain ⟨_, _, h3⟩ := h
    refine List.Pairwise.cons ?_ (ih d.2 e h3)
    intro c hc
    exact (chained_mem rest d.2 e h3 c hc).1

/-- C13: for chunks `rs` that partition `[0, NVars)` into contiguous ranges, the
index ranges of the C-key MSM (for a chunk `[a, b)` with `b > NPublic + 1` the
range `[max a (NPublic + 1), b)`, nothing for the other chunks) are pairwise
disjoint and cover exactly the indices `i` with `NPublic < i < NVars`; hence
the slots `proofC` of the first pass join to the sum of `w_i * C_i` over these
indices, no index up to `NPublic` contributes, and the sum is the identity when
`NVars ≤ NPublic + 1`. -/
theorem cKey_ranges {G1 G2 : Type} [AddCommGroup G1] (pk : Pk G1 G2) (w : List Int)
    (rs : List (Nat × Nat)) (h : IsPartition rs pk.NVars) :
    (∀ i, (∃ c ∈ rs, c.2 > pk.NPublic + 1 ∧ covers (cChunk pk c) i)
      ↔ (pk.NPublic < i ∧ i < pk.NVars)) ∧
    rs.Pairwise (fun c d => ∀ i, ¬ (covers (cChunk pk c) i ∧ covers (cChunk pk d) i)) ∧
    (rs.map (cSlot pk w)).sum
      = ∑ i in Finset.Ico (pk.NPublic + 1) pk.NVars, term pk.C w i ∧
    (rs ≠ [] → join (rs.map (cSlot pk w))
      = some (∑ i in Finset.Ico (pk.NPublic + 1) pk.NVars, term pk.C w i)) ∧
    (pk.NVars ≤ pk.NPublic + 1 → (rs.map (cSlot pk w)).sum = 0) := by
  have hc1 : ∀ c : Nat × Nat, (cChunk pk c).1 = max c.1 (pk.NPublic + 1) := by
    intro c
    unfold cChunk
    by_cases h2 : c.1 > pk.NPublic + 1
    · simp only [h2, if_true]; omega
    · simp only [h2, if_false]; omega
  have hc2 : ∀ c : Nat × Nat, (cChunk pk c).2 = c.2 := fun c => rfl
  have hsum : (rs.map (cSlot pk w)).sum
      = ∑ i in Finset.Ico (pk.NPublic + 1) pk.NVars, term pk.C w i := by
    rw [cSlot_sum_chained pk w rs 0 pk.NVars h]
    by_cases hn : pk.NVars ≤ pk.NPublic + 1
    · rw [show max 0 (pk.NPublic + 1) = pk.NPublic + 1 by omega,
        show max pk.NVars (pk.NPublic + 1) = pk.NPublic + 1 by omega, Finset.Ico_self,
        Finset.Ico_eq_empty (by omega)]
    · rw [show max 0 (pk.NPublic + 1) = pk.NPublic + 1 by omega,
        show max pk.NVars (pk.NPublic + 1) = pk.NVars by omega]
  refine ⟨?_, ?_, hsum, ?_, ?_⟩
  · intro i
    constructor
    · rintro ⟨c, hc, _, hcov⟩
      have hm := chained_mem rs 0 pk.NVars h c hc
      unfold covers at hcov
      rw [hc1, hc2] at hcov
      omega
    · rintro ⟨h1, h2⟩
      obtain ⟨c, hc, hcov⟩ := chained_cover rs 0 pk.NVars h i (by omega) h2
      unfold covers at hcov
      refine ⟨c, hc, by omega, ?_⟩
      unfold covers
      rw [hc1, hc2]
      omega
  · refine (chained_pairwise rs 0 pk.NVars h).imp ?_
    intro c d hcd i hi
    unfold covers at hi
    rw [hc1, hc2, hc1, hc2] at hi
    omega
  · intro hne
    cases hrs : rs with
    | nil => exact absurd hrs hne
    | cons c rest =>
      rw [← hrs]
      have : join (rs.map (cSlot pk w)) = some ((rs.map (cSlot pk w)).sum) := by
        rw [hrs]
        simp only [List.map_cons, join, foldl_add_eq, List.sum_cons]
      rw [this, hsum]
  · intro hn
    rw [hsum, Finset.Ico_eq_empty (by omega), Finset.sum_empty]

set_option maxRecDepth 1000000 in
theorem cKey_ranges_witness :
    IsPartition (ranges pk15.NVars 4) pk15.NVars ∧
      ((ranges pk15.NVars 4).map (cSlot pk15 w15)).sum
        = ∑ i in Finset.Ico (pk15.NPublic + 1) pk15.NVars, term pk15.C w15 i :=
  ⟨partition_15_four, (cKey_ranges pk15 w15 (ranges pk15.NVars 4) partition_15_four).2.2.1⟩

/-! ## The length of the witness -/

section WitnessLength
variable {G1 G2 : Type} [AddCommGroup G1] [AddCommGroup G2]

theorem slice_take {α : Type} (w : List α) (n a b : Nat) (hb : b ≤ n) (hn : n ≤ w.length) :
    slice (w.take n) a b = slice w a b := by
  unfold slice
  have hlen : (w.take n).length = n := by rw [List.length_take]; omega
  by_cases h : a ≤ b
  · rw [if_pos ⟨h, by omega⟩, if_pos ⟨h, by omega⟩]
    congr 1
    apply List.ext_getElem?
    intro i
    by_cases hi : i < b - a
    · rw [List.getElem?_take_of_lt hi, List.getElem?_take_of_lt hi, List.getElem?_drop,
        List.getElem?_drop, List.getElem?_take_of_lt (by omega)]
    · rw [List.getElem?_eq_none (by rw [List.length_take]; omega),
        List.getElem?_eq_none (by rw [List.length_take]; omega)]
  · rw [if_neg (fun hh => h hh.1), if_neg (fun hh => h hh.1)]

theorem split1_take (pk : Pk G1 G2) (w : List Int) (n : Nat) (c : Nat × Nat) (hc : c.2 ≤ n)
    (hn : n ≤ w.length) : split1 pk (w.take n) c = split1 pk w c := by
  unfold split1
  simp only [slice_take w n _ c.2 hc hn]

theorem mapM_congr_option {α β : Type} (f g : α → Option β) :
    ∀ rs : List α, (∀ c ∈ rs, f c = g c) → rs.mapM f = rs.mapM g := by
  intro rs
  induction rs with
  | nil => intro _; rfl
  | cons c rest ih =>
    intro h
    rw [List.mapM_cons, List.mapM_cons, h c (List.mem_cons_self _ _),
      ih (fun d hd => h d (List.mem_cons_of_mem _ hd))]

theorem foldlM_congr_option {α σ : Type} (f g : σ → α → Option σ) :
    ∀ (xs : List α) (init : σ), (∀ x ∈ xs, ∀ st, f st x = g st x) →
      xs.foldlM f init = xs.foldlM g init := by
  intro xs
  induction xs with
  | nil => intro _ _; rfl
  | cons x rest ih =>
    intro init h
    rw [foldlM_cons_option, foldlM_cons_option, h x (List.mem_cons_self _ _) init]
    congr 1
    funext st
    exact ih st (fun y hy => h y (List.mem_cons_of_mem _ hy))

theorem buildPol_take (R nVars : Nat) (pols : List (List (Nat × Int))) (w : List Int)
    (m n : Nat) (hn : nVars ≤ n) :
    buildPol R nVars pols (w.take n) m = buildPol R nVars pols w m := by
  unfold buildPol forRange
  apply foldlM_congr_option
  intro i hi pol
  rw [List.mem_range'_1] at hi
  unfold addVariable
  congr 1
  funext col
  unfold addColumn
  apply foldlM_congr_option
  intro jc _ st
  unfold addEntry
  rw [List.getElem?_take_of_lt (by omega)]

omit [AddCommGroup G1] [AddCommGroup G2] in
theorem calculateH_take (R numcpu : Nat) (eng : Engine R) (pk : Pk G1 G2) (w : List Int) :
    calculateH R numcpu eng pk (w.take pk.NVars) = calculateH R numcpu eng pk w := by
  unfold calculateH
  simp only [buildPol_take R pk.NVars _ w pk.DomainSize pk.NVars (le_refl _)]

theorem assemble_take (R numcpu : Nat) (eng : Engine R) (pk : Pk G1 G2) (w : List Int)
    (r s : Int) (hpart : IsPartition (ranges pk.NVars numcpu) pk.NVars)
    (hw : pk.NVars ≤ w.length) (hpub : pk.NPublic + 1 ≤ pk.NVars) :
    assemble R numcpu eng pk (w.take pk.NVars) r s = assemble R numcpu eng pk w r s := by
  unfold assemble
  have h1 : (ranges pk.NVars numcpu).mapM (split1 pk (w.take pk.NVars))
      = (ranges pk.NVars numcpu).mapM (split1 pk w) := by
    apply mapM_congr_option
    intro c hc
    exact split1_take pk w pk.NVars c (chained_mem _ 0 _ hpart c hc).2.2 hw
  simp only [h1, calculateH_take, slice_take w pk.NVars 1 (pk.NPublic + 1) hpub hw]

theorem split1_bound {pk : Pk G1 G2} {w : List Int} {c : Nat × Nat} {sl : Slots G1 G2}
    (h : split1 pk w c = some sl) : c.2 ≤ w.length := by
  unfold split1 at h
  simp only [Option.bind_eq_bind, Option.bind_eq_some, Option.pure_def] at h
  obtain ⟨pa, _, wa, hwa, _⟩ := h
  exact (slice_eq_some hwa).2.1

theorem forall2_exists {α β : Type} {f : α → Option β} :
    ∀ (l : List α) (ys : List β), List.Forall₂ (fun x y => f x = some y) l ys →
      ∀ x ∈ l, ∃ y, f x = some y := by
  intro l ys h
  induction h with
  | nil => intro x hx; simp at hx
  | cons hxy _ ih =>
    intro x hx
    rcases List.mem_cons.mp hx with rfl | hmem
    · exact ⟨_, hxy⟩
    · exact ih x hmem

end WitnessLength

set_option maxRecDepth 1000000 in
/-- C11, counterexample: the witness `w15 ++ [99]` has sixteen entries, the key
`pk15` has fifteen variables, and `GenerateProof` returns a proof with a nil
error, the proof of the first fifteen entries. The same proof is returned for
the witness of length fourteen and capacity fifteen over the backing array
`w15`. -/
theorem GenerateProof_accepts_long_witness :
    (w15 ++ [99]).length ≠ pk15.NVars ∧
      GenerateProof 65537 4 steadyRand (specEngine omega) pk15 (w15 ++ [99])
        = some ⟨some ⟨2738, 2002, 28251024⟩, some [12, 7], none⟩ ∧
      14 ≠ pk15.NVars ∧
      GenerateProofCap 65537 4 steadyRand (specEngine omega) pk15 w15 14
        = some ⟨some ⟨2738, 2002, 28251024⟩, some [12, 7], none⟩ := by
  decide!

/-! ## The number of coefficients returned by `calculateH` -/

theorem foldlM_invariant {α σ : Type} (P : σ → Prop) (f : σ → α → Option σ)
    (hf : ∀ st x st2, P st → f st x = some st2 → P st2) :
    ∀ (xs : List α) (init st : σ), P init → xs.foldlM f init = some st → P st := by
  intro xs
  induction xs with
  | nil =>
    intro init st h0 h
    simp only [List.foldlM_nil, Option.pure_def, Option.some.injEq] at h
    subst h
    exact h0
  | cons x rest ih =>
    intro init st h0 h
    rw [foldlM_cons_option] at h
    cases hx : f init x with
    | none => rw [hx] at h; simp at h
    | some st1 =>
      rw [hx, Option.some_bind] at h
      exact ih st1 st (hf init x st1 h0 hx) h

theorem forChunks_invariant {σ : Type} (P : σ → Prop) (body : σ → Nat → Option σ)
    (hf : ∀ st i st2, P st → body st i = some st2 → P st2)
    (rs : List (Nat × Nat)) (init st : σ) (h0 : P init)
    (h : forChunks rs body init = some st) : P st := by
  unfold forChunks at h
  refine foldlM_invariant P _ ?_ rs init st h0 h
  intro st1 c st2 h1 h2
  unfold forRange at h2
  exact foldlM_invariant P body hf _ st1 st2 h1 h2

theorem buildPol_length (R nVars : Nat) (pols : List (List (Nat × Int))) (w : List Int)
    (m : Nat) (pol : List Int) (h : buildPol R nVars pols w m = some pol) : pol.length = m := by
  unfold buildPol forRange at h
  refine foldlM_invariant (fun p : List Int => p.length = m) _ ?_ _ _ pol
    (List.length_replicate _ _) h
  intro st i st2 h1 h2
  unfold addVariable at h2
  simp only [Option.bind_eq_bind, Option.bind_eq_some] at h2
  obtain ⟨col, _, h3⟩ := h2
  unfold addColumn at h3
  refine foldlM_invariant (fun p : List Int => p.length = m) _ ?_ _ _ st2 h1 h3
  intro p jc p2 hp hstep
  unfold addEntry at hstep
  simp only [Option.bind_eq_bind, Option.bind_eq_some, Option.pure_def, Option.some.injEq] at hstep
  obtain ⟨_, _, _, _, rfl⟩ := hstep
  rw [List.length_set]
  exact hp

theorem productStep_length {R : Nat} (a b ao bo st st2 : List (ZMod R)) (i : Nat)
    (h : productStep a b ao bo st i = some st2) : st2.length = st.length := by
  unfold productStep at h
  simp only [Option.bind_eq_bind, Option.bind_eq_some, Option.pure_def, Option.some.injEq] at h
  obtain ⟨_, _, _, _, _, _, _, _, _, _, _, _, rfl⟩ := h
  rw [List.length_set, List.length_set]

/-- Whenever `calculateH` returns, for a domain size that is a power of two and
an inverse transform that keeps the length of the arrays whose length is a
power of two, it returns `DomainSize` scalars, for every worker count. -/
theorem calculateH_length {G1 G2 : Type} (R numcpu : Nat) (eng : Engine R) (pk : Pk G1 G2)
    (w : List Int) (k : Nat) (hh : List Int) (hm : pk.DomainSize = 2 ^ k)
    (hifft : ∀ (xs : List (ZMod R)) (j : Nat), xs.length = 2 ^ j →
      (eng.ifft xs).length = xs.length)
    (h : calculateH R numcpu eng pk w = some hh) : hh.length = pk.DomainSize := by
  unfold calculateH at h
  simp only [Option.bind_eq_bind, Option.bind_eq_some] at h
  obtain ⟨polAT, hA, polBT, _, ht⟩ := h
  have hlenA := buildPol_length R pk.NVars pk.PolsA w pk.DomainSize polAT hA
  have hL : (eng.ifft (polAT.map (Int.cast : Int → ZMod R))).length = pk.DomainSize := by
    rw [hifft _ k (by rw [List.length_map, hlenA, hm]), List.length_map, hlenA]
  unfold transformH at ht
  simp only [Option.bind_eq_bind, Option.bind_eq_some, Option.pure_def, Option.some.injEq] at ht
  obtain ⟨shifted, _, polABT, hprod, hSe, hslice, rfl⟩ := ht
  have hlenP : polABT.length = pk.DomainSize * 2 := by
    have := forChunks_invariant (fun p : List (ZMod R) => p.length = pk.DomainSize * 2) _
      (fun st i st2 hst hstep => by
        show st2.length = pk.DomainSize * 2
        rw [productStep_length _ _ _ _ st st2 i hstep]
        exact hst)
      _ _ polABT (by
        show (List.replicate _ (0 : ZMod R)).length = pk.DomainSize * 2
        rw [List.length_replicate, hL]) hprod
    exact this
  have hfull : (eng.ifft polABT).length = pk.DomainSize * 2 := by
    rw [hifft _ (k + 1) (by rw [hlenP, hm, pow_succ]), hlenP]
  obtain ⟨_, _, rfl⟩ := slice_eq_some hslice
  rw [List.length_map]
  unfold chunk
  rw [List.length_take, List.length_drop, hfull]
  omega

set_option maxRecDepth 1000000 in
/-- C18, at the failing input `pkPair`, `wMul` (domain size `2`) with 49 workers:
`calculateH` returns two scalars, `[0, 771]`, but the dense arrays are `[3, 3]`
and `[4, 4]` and the product array is `[12, 12, 0, 0]` instead of
`[12, 12, 12, 12]` (entry `2` is not `polA[1] * polB[1]`), and no chunk of
`ranges(2, 49)` covers index `1`: the second pass joins to `0`, it never reads
`HExps[1]`, while the MSM over `HExps[0:2]` is `13107`. -/
theorem calculateH_49_workers_arrays :
    calculateH 65537 49 (specEngine omega) pkPair wMul = some [0, 771] ∧
      buildPol 65537 pkPair.NVars pkPair.PolsA wMul pkPair.DomainSize = some [3, 3] ∧
      buildPol 65537 pkPair.NVars pkPair.PolsB wMul pkPair.DomainSize = some [4, 4] ∧
      (specEngine omega).ifft [3, 3] = [3, 0] ∧ (specEngine omega).ifft [4, 4] = [4, 0] ∧
      forChunks (ranges 2 49) (cosetStep ((specEngine omega).roots 2))
        (([3, 0], [4, 0]) : List (ZMod 65537) × List (ZMod 65537)) = some ([3, 0], [4, 0]) ∧
      (specEngine omega).fft [3, 0] = [3, 3] ∧ (specEngine omega).fft [4, 0] = [4, 4] ∧
      forChunks (ranges 2 49) (productStep ([3, 3] : List (ZMod 65537)) [4, 4] [3, 3] [4, 4])
        (List.replicate 4 0) = some [12, 12, 0, 0] ∧
      forChunks (ranges 2 1) (productStep ([3, 3] : List (ZMod 65537)) [4, 4] [3, 3] [4, 4])
        (List.replicate 4 0) = some [12, 12, 12, 12] ∧
      (∀ c ∈ ranges 2 49, ¬ covers c 1) ∧
      ((ranges 2 49).mapM (split2 pkPair [0, 771])).bind join = some 0 ∧
      scalarMultNoDouble pkPair.HExps [0, 771] 0 gSize = 13107 := by
  decide!

/-! ## Rounding to the nearest double -/

theorem roundHalfEven_ge (A B : Nat) : A / B ≤ roundHalfEven A B := by
  unfold roundHalfEven
  split <;> omega

theorem roundHalfEven_le (A B : Nat) : roundHalfEven A B ≤ A / B + 1 := by
  unfold roundHalfEven
  split <;> omega

theorem roundHalfEven_exact (Y B : Nat) (hB : 0 < B) : roundHalfEven (Y * B) B = Y := by
  unfold roundHalfEven
  rw [Nat.mul_mod_left, Nat.mul_div_cancel _ hB, if_neg]
  omega

theorem roundHalfEven_half (A B : Nat) (hB : 0 < B) :
    2 * (roundHalfEven A B * B) ≤ 2 * A + B := by
  have h1 := Nat.div_add_mod A B
  have h2 := Nat.mod_lt A hB
  unfold roundHalfEven
  split
  · rename_i h
    have : B ≤ 2 * (A % B) := by omega
    calc 2 * ((A / B + 1) * B) = 2 * (B * (A / B)) + 2 * B := by ring
      _ ≤ 2 * (B * (A / B)) + (2 * (A % B) + B) := by omega
      _ = 2 * (B * (A / B) + A % B) + B := by ring
      _ = 2 * A + B := by rw [h1]
  · calc 2 * (A / B * B) = 2 * (B * (A / B)) := by ring
      _ ≤ 2 * (B * (A / B) + A % B) + B := by omega
      _ = 2 * A + B := by rw [h1]

theorem div_le_div_of_cross (A1 B1 A2 B2 : Nat) (h1 : 0 < B1) (h2 : 0 < B2)
    (h : A1 * B2 ≤ A2 * B1) : A1 / B1 ≤ A2 / B2 := by
  rw [Nat.le_div_iff_mul_le h2]
  have h3 : A1 / B1 * B1 ≤ A1 := Nat.div_mul_le_self A1 B1
  have h4 : A1 / B1 * B2 * B1 ≤ A2 * B1 := by
    calc A1 / B1 * B2 * B1 = A1 / B1 * B1 * B2 := by ring
      _ ≤ A1 * B2 := Nat.mul_le_mul_right _ h3
      _ ≤ A2 * B1 := h
  exact Nat.le_of_mul_le_mul_right h4 h1

theorem roundHalfEven_mono (A1 B1 A2 B2 : Nat) (h1 : 0 < B1) (h2 : 0 < B2)
    (h : A1 * B2 ≤ A2 * B1) : roundHalfEven A1 B1 ≤ roundHalfEven A2 B2 := by
  have hdiv := div_le_div_of_cross A1 B1 A2 B2 h1 h2 h
  rcases Nat.lt_or_ge (A1 / B1) (A2 / B2) with hlt | hge
  · exact le_trans (roundHalfEven_le A1 B1) (le_trans hlt (roundHalfEven_ge A2 B2))
  · have hm : A1 / B1 = A2 / B2 := le_antisymm hdiv hge
    have e1 := Nat.div_add_mod A1 B1
    have e2 := Nat.div_add_mod A2 B2
    have hr : A1 % B1 * B2 ≤ A2 % B2 * B1 := by
      have h5 : (B1 * (A1 / B1) + A1 % B1) * B2 ≤ (B2 * (A2 / B2) + A2 % B2) * B1 := by
        rw [e1, e2]; exact h
      rw [hm] at h5
      have h6 : (B1 * (A2 / B2) + A1 % B1) * B2 = B1 * B2 * (A2 / B2) + A1 % B1 * B2 := by ring
      have h7 : (B2 * (A2 / B2) + A2 % B2) * B1 = B1 * B2 * (A2 / B2) + A2 % B2 * B1 := by ring
      rw [h6, h7] at h5
      omega
    unfold roundHalfEven
    rw [hm]
    by_cases c1 : B1 < 2 * (A1 % B1) ∨ (2 * (A1 % B1) = B1 ∧ (A2 / B2) % 2 = 1)
    · have c2 : B2 < 2 * (A2 % B2) ∨ (2 * (A2 % B2) = B2 ∧ (A2 / B2) % 2 = 1) := by
        rcases c1 with c | ⟨c, codd⟩
        · left
          have h8 : B1 * B2 < 2 * (A2 % B2) * B1 := by
            calc B1 * B2 < 2 * (A1 % B1) * B2 := Nat.mul_lt_mul_of_pos_right c h2
              _ = 2 * (A1 % B1 * B2) := by ring
              _ ≤ 2 * (A2 % B2 * B1) := by omega
              _ = 2 * (A2 % B2) * B1 := by ring
          rw [Nat.mul_comm B1 B2] at h8
          exact Nat.lt_of_mul_lt_mul_right h8
        · have h8 : B2 * B1 ≤ 2 * (A2 % B2) * B1 := by
            calc B2 * B1 = 2 * (A1 % B1) * B2 := by rw [c]; ring
              _ = 2 * (A1 % B1 * B2) := by ring
              _ ≤ 2 * (A2 % B2 * B1) := by omega
              _ = 2 * (A2 % B2) * B1 := by ring
          have h9 : B2 ≤ 2 * (A2 % B2) := Nat.le_of_mul_le_mul_right h8 h1
          rcases Nat.lt_or_ge B2 (2 * (A2 % B2)) with c3 | c3
          · left; exact c3
          · right; exact ⟨by omega, codd⟩
      rw [if_pos c1, if_pos c2]
    · rw [if_neg c1]
      split <;> omega

/-- The scaled quotient of `round53` lies in `[2 ^ 52, 2 ^ 53)`. -/
theorem round53_bracket (N D : Nat) (hN : 0 < N) (hD : 0 < D) :
    2 ^ 52 * (D * 2 ^ (if D * 2 ^ ilog2 N ≤ N * 2 ^ ilog2 D then ilog2 N + 1 else ilog2 N))
        ≤ N * 2 ^ (53 + ilog2 D) ∧
      N * 2 ^ (53 + ilog2 D)
        < 2 ^ 53 * (D * 2 ^ (if D * 2 ^ ilog2 N ≤ N * 2 ^ ilog2 D then ilog2 N + 1 else ilog2 N)) := by
  obtain ⟨n1, n2⟩ := ilog2_spec N hN
  obtain ⟨d1, d2⟩ := ilog2_spec D hD
  rw [pow_succ] at n2 d2
  have ha : 0 < 2 ^ ilog2 N := Nat.two_pow_pos _
  have hb : 0 < 2 ^ ilog2 D := Nat.two_pow_pos _
  by_cases c : D * 2 ^ ilog2 N ≤ N * 2 ^ ilog2 D
  · rw [if_pos c, pow_add 2 53, pow_succ 2 (ilog2 N)]
    generalize 2 ^ ilog2 N = a at *
    generalize 2 ^ ilog2 D = b at *
    have h1 : N * b < a * 2 * D :=
      lt_of_lt_of_le (Nat.mul_lt_mul_of_pos_right n2 hb) (Nat.mul_le_mul_left _ d1)
    norm_num
    constructor <;> nlinarith
  · rw [if_neg c, pow_add 2 53]
    generalize 2 ^ ilog2 N = a at *
    generalize 2 ^ ilog2 D = b at *
    have h1 : D * a ≤ b * 2 * N :=
      le_trans (Nat.mul_le_mul_right _ (le_of_lt d2)) (Nat.mul_le_mul_left _ n1)
    norm_num
    constructor <;> nlinarith

theorem zpow_natsub (a b : Nat) :
    ((2 ^ (a - b) : Nat) : ℚ) / ((2 ^ (b - a) : Nat) : ℚ) = (2 : ℚ) ^ ((a : ℤ) - (b : ℤ)) := by
  rw [zpow_sub₀ (two_ne_zero), zpow_natCast, zpow_natCast]
  push_cast
  rcases le_total a b with h | h
  · rw [Nat.sub_eq_zero_of_le h, pow_zero, pow_sub₀ _ (two_ne_zero) h]
    field_simp
  · rw [Nat.sub_eq_zero_of_le h, pow_zero, pow_sub₀ _ (two_ne_zero) h]
    field_simp

theorem F64.toRat_nonneg (a : F64) : 0 ≤ a.toRat := by
  unfold F64.toRat
  positivity

theorem round53_zero (D : Nat) : round53 0 D = ⟨0, 1⟩ := by
  unfold round53
  rw [if_pos rfl]

theorem round53_den_pos (N D : Nat) : 0 < (round53 N D).den := by
  unfold round53
  split
  · exact Nat.one_pos
  · exact Nat.two_pow_pos _

/-- The value of `round53 N D`: for some scale `2 ^ k` the scaled quotient
`A / B = (N / D) * 2 ^ (-k)` lies in `[2 ^ 52, 2 ^ 53)` and the value is that
quotient rounded to the nearest integer, ties to even, times `2 ^ k`. -/
theorem round53_spec (N D : Nat) (hN : 0 < N) (hD : 0 < D) :
    ∃ (k : ℤ) (A B : Nat), 0 < B ∧ (A : ℚ) / B = (N : ℚ) / D * 2 ^ (-k) ∧
      2 ^ 52 * B ≤ A ∧ A < 2 ^ 53 * B ∧
      (round53 N D).toRat = (roundHalfEven A B : ℚ) * 2 ^ k := by
  obtain ⟨hb1, hb2⟩ := round53_bracket N D hN hD
  have hval : round53 N D =
      ⟨roundHalfEven (N * 2 ^ (53 + ilog2 D))
          (D * 2 ^ (if D * 2 ^ ilog2 N ≤ N * 2 ^ ilog2 D then ilog2 N + 1 else ilog2 N))
        * 2 ^ ((if D * 2 ^ ilog2 N ≤ N * 2 ^ ilog2 D then ilog2 N + 1 else ilog2 N)
          - (53 + ilog2 D)),
        2 ^ ((53 + ilog2 D)
          - (if D * 2 ^ ilog2 N ≤ N * 2 ^ ilog2 D then ilog2 N + 1 else ilog2 N))⟩ := by
    unfold round53
    rw [if_neg (by omega)]
    rfl
  rw [hval]
  generalize (if D * 2 ^ ilog2 N ≤ N * 2 ^ ilog2 D then ilog2 N + 1 else ilog2 N) = dn at *
  generalize 53 + ilog2 D = up at *
  refine ⟨(dn : ℤ) - (up : ℤ), N * 2 ^ up, D * 2 ^ dn, by positivity, ?_, hb1, hb2, ?_⟩
  · rw [neg_sub, zpow_sub₀ (two_ne_zero), zpow_natCast, zpow_natCast]
    push_cast
    have hD2 : (D : ℚ) ≠ 0 := by positivity
    field_simp
  · unfold F64.toRat
    simp only
    rw [← zpow_natsub, Nat.cast_mul, mul_div_assoc]

theorem round53_rat (N D : Nat) (hN : 0 < N) (hD : 0 < D) :
    ∃ (k : ℤ) (A B : Nat), 0 < B ∧ (N : ℚ) / D = (A : ℚ) / B * 2 ^ k ∧
      (2 : ℚ) ^ 52 ≤ (A : ℚ) / B ∧ (A : ℚ) / B < 2 ^ 53 ∧
      2 ^ 52 ≤ roundHalfEven A B ∧ roundHalfEven A B ≤ 2 ^ 53 ∧
      (round53 N D).toRat = (roundHalfEven A B : ℚ) * 2 ^ k := by
  obtain ⟨k, A, B, hB, hx, hl, hu, hv⟩ := round53_spec N D hN hD
  have hBq : (0 : ℚ) < B := by exact_mod_cast hB
  refine ⟨k, A, B, hB, ?_, ?_, ?_, ?_, ?_, hv⟩
  · rw [hx, mul_assoc, ← zpow_add₀ (two_ne_zero), neg_add_cancel, zpow_zero, mul_one]
  · rw [le_div_iff₀ hBq]
    exact_mod_cast hl
  · rw [div_lt_iff₀ hBq]
    exact_mod_cast hu
  · exact le_trans ((Nat.le_div_iff_mul_le hB).mpr hl) (roundHalfEven_ge A B)
  · have : A / B < 2 ^ 53 := (Nat.div_lt_iff_lt_mul hB).mpr hu
    exact le_trans (roundHalfEven_le A B) this

/-- Rounding is monotone: a smaller quotient rounds to a smaller or equal double. -/
theorem round53_mono (N1 D1 N2 D2 : Nat) (hD1 : 0 < D1) (hD2 : 0 < D2)
    (h : (N1 : ℚ) / D1 ≤ (N2 : ℚ) / D2) :
    (round53 N1 D1).toRat ≤ (round53 N2 D2).toRat := by
  rcases Nat.eq_zero_or_pos N1 with h1 | h1
  · subst h1
    rw [round53_zero]
    have : (⟨0, 1⟩ : F64).toRat = 0 := by simp [F64.toRat]
    rw [this]
    exact F64.toRat_nonneg _
  have hD1q : (0 : ℚ) < D1 := by exact_mod_cast hD1
  have hN1q : (0 : ℚ) < N1 := by exact_mod_cast h1
  have h2 : 0 < N2 := by
    rcases Nat.eq_zero_or_pos N2 with h0 | h0
    · subst h0
      have : 0 < (N1 : ℚ) / D1 := div_pos hN1q hD1q
      simp only [Nat.cast_zero, zero_div] at h
      linarith
    · exact h0
  obtain ⟨k1, A1, B1, hB1, hq1, hl1, hu1, hm1, hM1, hv1⟩ := round53_rat N1 D1 h1 hD1
  obtain ⟨k2, A2, B2, hB2, hq2, hl2, hu2, hm2, hM2, hv2⟩ := round53_rat N2 D2 h2 hD2
  rw [hv1, hv2]
  rw [hq1, hq2] at h
  have hp1 : (0 : ℚ) < 2 ^ k1 := zpow_pos (by norm_num) _
  have hp2 : (0 : ℚ) < 2 ^ k2 := zpow_pos (by norm_num) _
  have hM1q : (roundHalfEven A1 B1 : ℚ) ≤ 2 ^ 53 := by exact_mod_cast hM1
  have hm2q : (2 : ℚ) ^ 52 ≤ (roundHalfEven A2 B2 : ℚ) := by exact_mod_cast hm2
  rcases lt_trichotomy k1 k2 with hk | hk | hk
  · have hstep : (2 : ℚ) ^ (k1 + 1) ≤ 2 ^ k2 := zpow_le_zpow_right₀ (by norm_num) (by omega)
    rw [zpow_add_one₀ (two_ne_zero)] at hstep
    calc (roundHalfEven A1 B1 : ℚ) * 2 ^ k1 ≤ 2 ^ 53 * 2 ^ k1 :=
          mul_le_mul_of_nonneg_right hM1q (le_of_lt hp1)
      _ = 2 ^ 52 * (2 ^ k1 * 2) := by ring
      _ ≤ 2 ^ 52 * 2 ^ k2 := mul_le_mul_of_nonneg_left hstep (by positivity)
      _ ≤ (roundHalfEven A2 B2 : ℚ) * 2 ^ k2 := mul_le_mul_of_nonneg_right hm2q (le_of_lt hp2)
  · subst hk
    have hx : (A1 : ℚ) / B1 ≤ (A2 : ℚ) / B2 := le_of_mul_le_mul_right h hp1
    rw [div_le_div_iff₀ (by exact_mod_cast hB1) (by exact_mod_cast hB2)] at hx
    have hx2 : A1 * B2 ≤ A2 * B1 := by exact_mod_cast hx
    have := roundHalfEven_mono A1 B1 A2 B2 hB1 hB2 hx2
    exact mul_le_mul_of_nonneg_right (by exact_mod_cast this) (le_of_lt hp1)
  · exfalso
    have hstep : (2 : ℚ) ^ (k2 + 1) ≤ 2 ^ k1 := zpow_le_zpow_right₀ (by norm_num) (by omega)
    rw [zpow_add_one₀ (two_ne_zero)] at hstep
    have c1 : (A2 : ℚ) / B2 * 2 ^ k2 < 2 ^ 53 * 2 ^ k2 := mul_lt_mul_of_pos_right hu2 hp2
    have c2 : (2 : ℚ) ^ 52 * 2 ^ k1 ≤ (A1 : ℚ) / B1 * 2 ^ k1 :=
      mul_le_mul_of_nonneg_right hl1 (le_of_lt hp1)
    have c3 : (2 : ℚ) ^ 52 * (2 ^ k2 * 2) ≤ 2 ^ 52 * 2 ^ k1 :=
      mul_le_mul_of_nonneg_left hstep (by positivity)
    have c4 : (2 : ℚ) ^ 52 * (2 ^ k2 * 2) = 2 ^ 53 * 2 ^ k2 := by ring
    linarith

/-- Rounding never exceeds the quotient by more than the factor `1 + 2 ^ (-53)`. -/
theorem round53_upper (N D : Nat) (hD : 0 < D) :
    (round53 N D).toRat ≤ (N : ℚ) / D * (1 + 1 / 2 ^ 53) := by
  rcases Nat.eq_zero_or_pos N with h1 | h1
  · subst h1
    rw [round53_zero]
    simp [F64.toRat]
  obtain ⟨k, A, B, hB, hq, hl, hu, hm, hM, hv⟩ := round53_rat N D h1 hD
  rw [hv, hq]
  have hp : (0 : ℚ) < 2 ^ k := zpow_pos (by norm_num) _
  have hBq : (0 : ℚ) < B := by exact_mod_cast hB
  have hhalf : (roundHalfEven A B : ℚ) ≤ (A : ℚ) / B + 1 / 2 := by
    have h2 := roundHalfEven_half A B hB
    have h3 : (2 : ℚ) * (roundHalfEven A B * B) ≤ 2 * A + B := by exact_mod_cast h2
    rw [div_add_div _ _ (ne_of_gt hBq) (by norm_num), le_div_iff₀ (by positivity)]
    linarith
  have hx : (roundHalfEven A B : ℚ) ≤ (A : ℚ) / B * (1 + 1 / 2 ^ 53) := by
    have : (1 : ℚ) / 2 ≤ (A : ℚ) / B * (1 / 2 ^ 53) := by
      have e : (1 : ℚ) / 2 = 2 ^ 52 * (1 / 2 ^ 53) := by norm_num
      rw [e]
      exact mul_le_mul_of_nonneg_right hl (by positivity)
    linarith
  calc (roundHalfEven A B : ℚ) * 2 ^ k ≤ (A : ℚ) / B * (1 + 1 / 2 ^ 53) * 2 ^ k :=
        mul_le_mul_of_nonneg_right hx (le_of_lt hp)
    _ = (A : ℚ) / B * 2 ^ k * (1 + 1 / 2 ^ 53) := by ring

/-- Rounding is exact on the quotients `J / 2 ^ t` with `J < 2 ^ 53`. -/
theorem round53_exact (N D J t : Nat) (hD : 0 < D) (hJ : J < 2 ^ 53)
    (h : (N : ℚ) / D = (J : ℚ) / 2 ^ t) : (round53 N D).toRat = (N : ℚ) / D := by
  rcases Nat.eq_zero_or_pos N with h1 | h1
  · subst h1
    rw [round53_zero]
    simp [F64.toRat]
  obtain ⟨k, A, B, hB, hq, hl, hu, hm, hM, hv⟩ := round53_rat N D h1 hD
  have hp : (0 : ℚ) < 2 ^ k := zpow_pos (by norm_num) _
  have hBq : (0 : ℚ) < B := by exact_mod_cast hB
  have hJq : (J : ℚ) < 2 ^ 53 := by exact_mod_cast hJ
  -- the scaled quotient is `J * 2 ^ (-k - t)`, at least `2 ^ 52`, so `-k - t ≥ 0`
  have hx : (A : ℚ) / B = J * 2 ^ (-k - (t : ℤ)) := by
    have e1 : (A : ℚ) / B = (N : ℚ) / D * 2 ^ (-k) := by
      rw [hq, mul_assoc, ← zpow_add₀ (two_ne_zero), add_neg_cancel, zpow_zero, mul_one]
    rw [e1, h, zpow_sub₀ (two_ne_zero), zpow_natCast]
    ring
  have hexp : 0 ≤ -k - (t : ℤ) := by
    by_contra hneg
    have h3 : (2 : ℚ) ^ (-k - (t : ℤ)) ≤ 2 ^ (-1 : ℤ) :=
      zpow_le_zpow_right₀ (by norm_num) (by omega)
    have h4 : (2 : ℚ) ^ (-1 : ℤ) = 1 / 2 := by norm_num
    have h5 : (J : ℚ) * 2 ^ (-k - (t : ℤ)) ≤ J * (1 / 2) := by
      rw [← h4]
      exact mul_le_mul_of_nonneg_left h3 (by positivity)
    rw [hx] at hl
    have e : (2 : ℚ) ^ 53 = 2 * 2 ^ 52 := by norm_num
    linarith
  obtain ⟨j, hj⟩ := Int.eq_ofNat_of_zero_le hexp
  rw [hj, zpow_natCast] at hx
  have hA : A = J * 2 ^ j * B := by
    have : (A : ℚ) = (J * 2 ^ j * B : Nat) := by
      push_cast
      rw [div_eq_iff (ne_of_gt hBq)] at hx
      exact hx
    exact_mod_cast this
  rw [hv, hq, hA, roundHalfEven_exact _ _ hB]
  push_cast
  field_simp

theorem round53_pos (N D : Nat) (hN : 0 < N) (hD : 0 < D) : 0 < (round53 N D).toRat := by
  obtain ⟨k, A, B, hB, hq, hl, hu, hm, hM, hv⟩ := round53_rat N D hN hD
  rw [hv]
  have hp : (0 : ℚ) < 2 ^ k := zpow_pos (by norm_num) _
  have : (0 : ℚ) < (roundHalfEven A B : ℚ) := by
    have : 0 < roundHalfEven A B := lt_of_lt_of_le (Nat.two_pow_pos 52) hm
    exact_mod_cast this
  positivity

theorem F64.toInt_eq_floor (a : F64) : a.toInt = ⌊a.toRat⌋₊ := by
  unfold F64.toInt F64.toRat
  rw [Nat.floor_div_eq_div]

theorem F64.ofInt_den_pos (n : Nat) : 0 < (F64.ofInt n).den := round53_den_pos n 1

theorem F64.div_den_pos (a b : F64) : 0 < (F64.div a b).den := round53_den_pos _ _

theorem F64.ofInt_mono (i j : Nat) (h : i ≤ j) :
    (F64.ofInt i).toRat ≤ (F64.ofInt j).toRat := by
  unfold F64.ofInt
  apply round53_mono i 1 j 1 Nat.one_pos Nat.one_pos
  rw [Nat.cast_one, div_one, div_one]
  exact_mod_cast h

theorem F64.ofInt_exact (n : Nat) (h : n < 2 ^ 53) : (F64.ofInt n).toRat = n := by
  unfold F64.ofInt
  rw [round53_exact n 1 n 0 Nat.one_pos h (by rw [Nat.cast_one, pow_zero]), Nat.cast_one,
    div_one]

theorem F64.mul_mono (a b p : F64) (ha : 0 < a.den) (hb : 0 < b.den) (hp : 0 < p.den)
    (h : a.toRat ≤ b.toRat) : (F64.mul a p).toRat ≤ (F64.mul b p).toRat := by
  unfold F64.mul
  apply round53_mono _ _ _ _ (Nat.mul_pos ha hp) (Nat.mul_pos hb hp)
  push_cast
  rw [mul_div_mul_comm, mul_div_mul_comm]
  exact mul_le_mul_of_nonneg_right h (F64.toRat_nonneg p)

/-- The split points of `ranges` are monotone in the index, for every size and
every number of parts. -/
theorem splitPoint_mono (n parts i j : Nat) (h : i ≤ j) :
    splitPoint n parts i ≤ splitPoint n parts j := by
  unfold splitPoint
  rw [F64.toInt_eq_floor, F64.toInt_eq_floor]
  apply Nat.floor_mono
  exact F64.mul_mono _ _ _ (F64.ofInt_den_pos i) (F64.ofInt_den_pos j) (F64.div_den_pos _ _)
    (F64.ofInt_mono i j h)

/-- For a size below `2 ^ 52` no split point of `ranges` exceeds the size. -/
theorem splitPoint_le (n parts i : Nat) (hn : n < 2 ^ 52) (hp : 0 < parts) (hi : i ≤ parts) :
    splitPoint n parts i ≤ n := by
  unfold splitPoint
  rw [F64.toInt_eq_floor]
  have hPpos : 0 < (F64.ofInt parts).toRat := round53_pos parts 1 hp Nat.one_pos
  have hPnum : 0 < (F64.ofInt parts).num := by
    rcases Nat.eq_zero_or_pos (F64.ofInt parts).num with h0 | h0
    · unfold F64.toRat at hPpos
      rw [h0, Nat.cast_zero, zero_div] at hPpos
      exact absurd hPpos (lt_irrefl _)
    · exact h0
  have hn53 : n < 2 ^ 53 := lt_trans hn (by norm_num)
  have hnq : (n : ℚ) < 2 ^ 52 := by exact_mod_cast hn
  -- the quotient `p` is at most `(n / P) * (1 + 2 ^ (-53))`
  have hp1 : (F64.div (F64.ofInt n) (F64.ofInt parts)).toRat
      ≤ (n : ℚ) / (F64.ofInt parts).toRat * (1 + 1 / 2 ^ 53) := by
    unfold F64.div
    refine le_trans (round53_upper _ _ (Nat.mul_pos (F64.ofInt_den_pos n) hPnum)) ?_
    apply le_of_eq
    congr 1
    push_cast
    have e : ((F64.ofInt n).num : ℚ) / (F64.ofInt n).den = n := F64.ofInt_exact n hn53
    rw [mul_div_mul_comm, e]
    unfold F64.toRat
    rw [div_div_eq_mul_div, mul_div_assoc]
  -- the product `float64(i) * p` is at most `n + 1 / 2`
  have hprod : (F64.ofInt i).toRat * (F64.div (F64.ofInt n) (F64.ofInt parts)).toRat
      ≤ ((2 * n + 1 : Nat) : ℚ) / ((2 : Nat) : ℚ) := by
    have h1 : (F64.ofInt i).toRat * (F64.div (F64.ofInt n) (F64.ofInt parts)).toRat
        ≤ (F64.ofInt parts).toRat
          * ((n : ℚ) / (F64.ofInt parts).toRat * (1 + 1 / 2 ^ 53)) :=
      mul_le_mul (F64.ofInt_mono i parts hi) hp1 (F64.toRat_nonneg _) (le_of_lt hPpos)
    have h2 : (F64.ofInt parts).toRat * ((n : ℚ) / (F64.ofInt parts).toRat * (1 + 1 / 2 ^ 53))
        = (n : ℚ) * (1 + 1 / 2 ^ 53) := by
      field_simp
      ring
    rw [h2] at h1
    refine le_trans h1 ?_
    push_cast
    have e : (n : ℚ) * (1 / 2 ^ 53) ≤ 1 / 2 := by
      have : (n : ℚ) * (1 / 2 ^ 53) ≤ 2 ^ 52 * (1 / 2 ^ 53) :=
        mul_le_mul_of_nonneg_right (le_of_lt hnq) (by positivity)
      have e2 : (2 : ℚ) ^ 52 * (1 / 2 ^ 53) = 1 / 2 := by norm_num
      linarith
    have e3 : (2 * (n : ℚ) + 1) / 2 = n + 1 / 2 := by ring
    rw [e3]
    linarith
  have hval : (F64.mul (F64.ofInt i) (F64.div (F64.ofInt n) (F64.ofInt parts))).toRat
      ≤ ((2 * n + 1 : Nat) : ℚ) / ((2 : Nat) : ℚ) := by
    have hJ : 2 * n + 1 < 2 ^ 53 := by
      have : (2 : Nat) ^ 53 = 2 * 2 ^ 52 := by norm_num
      omega
    rw [← round53_exact (2 * n + 1) 2 (2 * n + 1) 1 (by decide) hJ
      (by rw [pow_one, Nat.cast_ofNat])]
    unfold F64.mul
    apply round53_mono _ _ _ _ (Nat.mul_pos (F64.ofInt_den_pos i) (F64.div_den_pos _ _))
      (by decide)
    rw [Nat.cast_mul, Nat.cast_mul, mul_div_mul_comm]
    exact hprod
  have hlt : (F64.mul (F64.ofInt i) (F64.div (F64.ofInt n) (F64.ofInt parts))).toRat
      < ((n + 1 : Nat) : ℚ) := by
    refine lt_of_le_of_lt hval ?_
    push_cast
    have e3 : (2 * (n : ℚ) + 1) / 2 = n + 1 / 2 := by ring
    rw [e3]
    linarith
  exact Nat.lt_succ_iff.mp ((Nat.floor_lt (F64.toRat_nonneg _)).mpr hlt)

theorem ranges_mem (n parts : Nat) (c : Nat × Nat) (hc : c ∈ ranges n parts) :
    ∃ i, i < parts ∧ c = (splitPoint n parts i, splitPoint n parts (i + 1)) := by
  unfold ranges at hc
  simp only [List.mem_map, List.mem_range] at hc
  obtain ⟨i, hi, rfl⟩ := hc
  exact ⟨i, hi, rfl⟩

theorem ranges_bounds (n parts : Nat) (hn : n < 2 ^ 52) (c : Nat × Nat)
    (hc : c ∈ ranges n parts) : c.1 ≤ c.2 ∧ c.2 ≤ n := by
  obtain ⟨i, hi, rfl⟩ := ranges_mem n parts c hc
  exact ⟨splitPoint_mono n parts i (i + 1) (Nat.le_succ i),
    splitPoint_le n parts (i + 1) hn (by omega) hi⟩

/-! ## Slices and index loops over `ranges` stay within bounds -/

theorem slice_some {α : Type} (xs : List α) (a b : Nat) (h1 : a ≤ b) (h2 : b ≤ xs.length) :
    slice xs a b = some ((xs.drop a).take (b - a)) := by
  unfold slice
  rw [if_pos ⟨h1, h2⟩]

theorem mapM_some {α β : Type} (f : α → Option β) :
    ∀ rs : List α, (∀ c ∈ rs, ∃ y, f c = some y) → ∃ ys, rs.mapM f = some ys := by
  intro rs
  induction rs with
  | nil => intro _; exact ⟨[], by rw [List.mapM_nil]; rfl⟩
  | cons c rest ih =>
    intro h
    obtain ⟨y, hy⟩ := h c (List.mem_cons_self _ _)
    obtain ⟨ys, hys⟩ := ih (fun d hd => h d (List.mem_cons_of_mem _ hd))
    exact ⟨y :: ys, by rw [List.mapM_cons, hy, hys]; rfl⟩

theorem split1_some {G1 G2 : Type} [AddCommGroup G1] [AddCommGroup G2] (pk : Pk G1 G2)
    (w : List Int) (c : Nat × Nat) (h1 : c.1 ≤ c.2) (hA : c.2 ≤ pk.A.length)
    (hB1 : c.2 ≤ pk.B1.length) (hB2 : c.2 ≤ pk.B2.length) (hC : c.2 ≤ pk.C.length)
    (hw : c.2 ≤ w.length) : ∃ sl, split1 pk w c = some sl := by
  unfold split1
  rw [slice_some _ _ _ h1 hA, slice_some _ _ _ h1 hw, slice_some _ _ _ h1 hB2,
    slice_some _ _ _ h1 hB1]
  by_cases hc : c.2 > pk.NPublic + 1
  · have hmin : (if c.1 > pk.NPublic + 1 then c.1 else pk.NPublic + 1) ≤ c.2 := by
      split <;> omega
    simp only [Option.bind_eq_bind, Option.some_bind, hc, if_true, slice_some _ _ _ hmin hC,
      slice_some _ _ _ hmin hw, Option.pure_def]
    exact ⟨_, rfl⟩
  · simp only [Option.bind_eq_bind, Option.some_bind, hc, if_false, Option.pure_def]
    exact ⟨_, rfl⟩

theorem split2_some {G1 G2 : Type} [AddCommGroup G1] (pk : Pk G1 G2) (h : List Int)
    (c : Nat × Nat) (h1 : c.1 ≤ c.2) (hH : c.2 ≤ pk.HExps.length) (hh : c.2 ≤ h.length) :
    ∃ y, split2 pk h c = some y := by
  unfold split2
  rw [slice_some _ _ _ h1 hH, slice_some _ _ _ h1 hh]
  exact ⟨_, rfl⟩

theorem foldlM_some {σ : Type} (P : σ → Prop) (body : σ → Nat → Option σ) (n : Nat)
    (hbody : ∀ st i, P st → i < n → ∃ st2, body st i = some st2 ∧ P st2) :
    ∀ (xs : List Nat), (∀ x ∈ xs, x < n) → ∀ init, P init →
      ∃ st, xs.foldlM body init = some st ∧ P st := by
  intro xs
  induction xs with
  | nil => intro _ init h0; exact ⟨init, rfl, h0⟩
  | cons x rest ih =>
    intro hx init h0
    obtain ⟨st1, h1, hP1⟩ := hbody init x h0 (hx x (List.mem_cons_self _ _))
    obtain ⟨st, h2, hP⟩ := ih (fun y hy => hx y (List.mem_cons_of_mem _ hy)) st1 hP1
    exact ⟨st, by rw [foldlM_cons_option, h1, Option.some_bind, h2], hP⟩

theorem forChunks_some {σ : Type} (P : σ → Prop) (body : σ → Nat → Option σ) (n : Nat)
    (hbody : ∀ st i, P st → i < n → ∃ st2, body st i = some st2 ∧ P st2) :
    ∀ (rs : List (Nat × Nat)), (∀ c ∈ rs, c.2 ≤ n) → ∀ init, P init →
      ∃ st, forChunks rs body init = some st ∧ P st := by
  intro rs
  induction rs with
  | nil => intro _ init h0; exact ⟨init, rfl, h0⟩
  | cons c rest ih =>
    intro hrs init h0
    have hc := hrs c (List.mem_cons_self _ _)
    obtain ⟨st1, h1, hP1⟩ := foldlM_some P body n hbody (List.range' c.1 (c.2 - c.1))
      (fun x hx => by rw [List.mem_range'_1] at hx; omega) init h0
    obtain ⟨st, h2, hP⟩ := ih (fun d hd => hrs d (List.mem_cons_of_mem _ hd)) st1 hP1
    refine ⟨st, ?_, hP⟩
    unfold forChunks at h2 ⊢
    rw [foldlM_cons_option]
    unfold forRange at h2 ⊢
    rw [h1, Option.some_bind, h2]

theorem cosetStep_some {R : Nat} (rt : List (ZMod R)) (n : Nat) (hrt : n ≤ rt.length)
    (st : List (ZMod R) × List (ZMod R)) (i : Nat) (hst : st.1.length = n ∧ st.2.length = n)
    (hi : i < n) :
    ∃ st2, cosetStep rt st i = some st2 ∧ (st2.1.length = n ∧ st2.2.length = n) := by
  unfold cosetStep
  rw [List.getElem?_eq_getElem (by omega : i < st.1.length),
    List.getElem?_eq_getElem (by omega : i < rt.length),
    List.getElem?_eq_getElem (by omega : i < st.2.length)]
  refine ⟨_, rfl, ?_, ?_⟩
  · rw [List.length_set]; exact hst.1
  · rw [List.length_set]; exact hst.2

theorem productStep_some {R : Nat} (pa pb oa ob : List (ZMod R)) (n : Nat)
    (ha : n ≤ pa.length) (hb : n ≤ pb.length) (hoa : n ≤ oa.length) (hob : n ≤ ob.length)
    (st : List (ZMod R)) (i : Nat) (hst : st.length = n * 2) (hi : i < n) :
    ∃ st2, productStep pa pb oa ob st i = some st2 ∧ st2.length = n * 2 := by
  unfold productStep
  rw [List.getElem?_eq_getElem (by omega : 2 * i < st.length),
    List.getElem?_eq_getElem (by omega : i < pa.length),
    List.getElem?_eq_getElem (by omega : i < pb.length),
    List.getElem?_eq_getElem (by omega : 2 * i + 1 < st.length),
    List.getElem?_eq_getElem (by omega : i < oa.length),
    List.getElem?_eq_getElem (by omega : i < ob.length)]
  refine ⟨_, rfl, ?_⟩
  rw [List.length_set, List.length_set]
  exact hst

/-- C16, amended: for every size `n < 2 ^ 52` and every number of parts, each
range `[a, b)` of `ranges(n, parts)` has `a ≤ b ≤ n`. Hence, for such a size,
the slices of the first pass (key vectors and witness of length `n = NVars`)
and of the second pass (`h` of length `n`, `HExps` at least as long) are within
bounds: both passes return their slots; and the index loops of `calculateH`
over arrays of length `n` (roots table at least as long) read and write within
bounds: the coset loop and the product loop return. -/
theorem ranges_within_bounds {G1 G2 : Type} [AddCommGroup G1] [AddCommGroup G2]
    (n parts : Nat) (hn : n < 2 ^ 52) :
    (∀ c ∈ ranges n parts, c.1 ≤ c.2 ∧ c.2 ≤ n) ∧
    (∀ (pk : Pk G1 G2) (w : List Int), pk.NVars = n → w.length = n → pk.A.length = n →
      pk.B1.length = n → pk.B2.length = n → pk.C.length = n →
      ∃ slots, (ranges pk.NVars parts).mapM (split1 pk w) = some slots) ∧
    (∀ (pk : Pk G1 G2) (h : List Int), h.length = n → h.length ≤ pk.HExps.length →
      ∃ hs, (ranges h.length parts).mapM (split2 pk h) = some hs) ∧
    (∀ (R : Nat) (rt a b : List (ZMod R)), a.length = n → b.length = n → n ≤ rt.length →
      ∃ st, forChunks (ranges a.length parts) (cosetStep rt) (a, b) = some st) ∧
    (∀ (R : Nat) (pa pb oa ob : List (ZMod R)), pa.length = n → pb.length = n →
      oa.length = n → ob.length = n →
      ∃ st, forChunks (ranges pa.length parts) (productStep pa pb oa ob)
        (List.replicate (pa.length * 2) 0) = some st) := by
  have hb := ranges_bounds n parts hn
  refine ⟨hb, ?_, ?_, ?_, ?_⟩
  · intro pk w hv hw hA hB1 hB2 hC
    rw [hv]
    apply mapM_some
    intro c hc
    obtain ⟨h1, h2⟩ := hb c hc
    exact split1_some pk w c h1 (by omega) (by omega) (by omega) (by omega) (by omega)
  · intro pk h hh hH
    rw [hh]
    apply mapM_some
    intro c hc
    obtain ⟨h1, h2⟩ := hb c hc
    exact split2_some pk h c h1 (by omega) (by omega)
  · intro R rt a b ha hbl hrt
    rw [ha]
    obtain ⟨st, hst, _⟩ := forChunks_some
      (fun st : List (ZMod R) × List (ZMod R) => st.1.length = n ∧ st.2.length = n)
      (cosetStep rt) n (fun st i hP hi => cosetStep_some rt n hrt st i hP hi)
      (ranges n parts) (fun c hc => (hb c hc).2) (a, b) ⟨ha, hbl⟩
    exact ⟨st, hst⟩
  · intro R pa pb oa ob ha hpb hoa hob
    rw [ha]
    obtain ⟨st, hst, _⟩ := forChunks_some (fun st : List (ZMod R) => st.length = n * 2)
      (productStep pa pb oa ob) n
      (fun st i hP hi => productStep_some pa pb oa ob n (by omega) (by omega) (by omega)
        (by omega) st i hP hi)
      (ranges n parts) (fun c hc => (hb c hc).2) (List.replicate (n * 2) 0)
      (List.length_replicate _ _)
    exact ⟨st, hst⟩

set_option maxRecDepth 1000000 in
/-- C16, counterexample: for `n = 7113724062485239` and three parts the last
range of `ranges` ends at `n + 1`, beyond the size; and for `n = 2 ^ 53 + 3`
and one part the only range ends at `n + 1`. -/
theorem ranges_exceeds_size :
    ranges 7113724062485239 3
        = [(0, 2371241354161746), (2371241354161746, 4742482708323493),
            (4742482708323493, 7113724062485240)] ∧
      ¬ (7113724062485240 ≤ 7113724062485239) ∧
      ranges (2 ^ 53 + 3) 1 = [(0, 2 ^ 53 + 4)] := by
  decide!

set_option maxRecDepth 1000000 in
theorem ranges_within_bounds_witness :
    15 < 2 ^ 52 ∧ (∀ c ∈ ranges 15 11, c.1 ≤ c.2 ∧ c.2 ≤ 15) ∧
      (∃ slots, (ranges pk15.NVars 11).mapM (split1 pk15 w15) = some slots) :=
  ⟨by decide, (@ranges_within_bounds Int Int _ _ 15 11 (by decide)).1,
    (@ranges_within_bounds Int Int _ _ 15 11 (by decide)).2.1 pk15 w15 (by decide) (by decide)
      (by decide) (by decide) (by decide) (by decide)⟩

/-! ## A witness with spare capacity -/

section Capacity
variable {G1 G2 : Type} [AddCommGroup G1] [AddCommGroup G2]

theorem assembleCap_length (R numcpu : Nat) (eng : Engine R) (pk : Pk G1 G2) (w : List Int)
    (r s : Int) :
    assembleCap R numcpu eng pk w w.length r s = assemble R numcpu eng pk w r s := by
  unfold assembleCap assemble
  rw [List.take_length]

/-- On a witness without spare capacity `GenerateProofCap` is `GenerateProof`. -/
theorem GenerateProofCap_length {ε : Type} (R numcpu : Nat) (rand : Nat → Read ε)
    (eng : Engine R) (pk : Pk G1 G2) (w : List Int) :
    GenerateProofCap R numcpu rand eng pk w w.length = GenerateProof R numcpu rand eng pk w := by
  unfold GenerateProofCap GenerateProof
  simp only [assembleCap_length]

theorem GenerateProofCap_of_none {ε : Type} (R numcpu : Nat) (rand : Nat → Read ε)
    (eng : Engine R) (pk : Pk G1 G2) (w : List Int) (len : Nat)
    (h : ∀ r s, assembleCap R numcpu eng pk w len r s = none)
    (res : Result ε G1 G2) (hres : GenerateProofCap R numcpu rand eng pk w len = some res) :
    res.proof = none := by
  unfold GenerateProofCap at hres
  split at hres
  · simp at hres
  · simp only [Option.some.injEq] at hres; subst hres; rfl
  · rename_i r _
    split at hres
    · simp at hres
    · simp only [Option.some.injEq] at hres; subst hres; rfl
    · rename_i s _
      rw [h r s] at hres
      simp at hres

omit [AddCommGroup G1] [AddCommGroup G2] in
theorem foldlM_none {α σ : Type} (f : σ → α → Option σ) (x : α) (hx : ∀ st, f st x = none) :
    ∀ (xs : List α), x ∈ xs → ∀ init, xs.foldlM f init = none := by
  intro xs
  induction xs with
  | nil => intro h; simp at h
  | cons y rest ih =>
    intro h init
    rw [foldlM_cons_option]
    rcases List.mem_cons.mp h with rfl | hmem
    · rw [hx init]; rfl
    · cases f init y with
      | none => rfl
      | some st => exact ih hmem st

omit [AddCommGroup G1] [AddCommGroup G2] in
theorem addVariable_none (R : Nat) (pols : List (List (Nat × Int))) (w : List Int)
    (len i : Nat) (col : List (Nat × Int)) (hi : len ≤ i) (hcol : pols[i]? = some col)
    (hne : col ≠ []) (pol : List Int) : addVariable R pols (w.take len) pol i = none := by
  unfold addVariable
  rw [hcol]
  cases col with
  | nil => exact absurd rfl hne
  | cons jc rest =>
    show addColumn R (w.take len) i (jc :: rest) pol = none
    unfold addColumn
    rw [foldlM_cons_option]
    have hw : (w.take len)[i]? = none :=
      List.getElem?_eq_none (le_trans (List.length_take_le _ _) hi)
    have : addEntry R (w.take len) i pol jc = none := by
      unfold addEntry
      rw [hw]
      cases pol[jc.1]? <;> rfl
    rw [this]
    rfl

omit [AddCommGroup G1] [AddCommGroup G2] in
theorem buildPol_none (R nVars : Nat) (pols : List (List (Nat × Int))) (w : List Int)
    (m len i : Nat) (col : List (Nat × Int)) (hi : len ≤ i) (hin : i < nVars)
    (hcol : pols[i]? = some col) (hne : col ≠ []) :
    buildPol R nVars pols (w.take len) m = none := by
  unfold buildPol forRange
  exact foldlM_none _ i (fun st => addVariable_none R pols w len i col hi hcol hne st) _
    (by rw [List.mem_range'_1]; omega) _

omit [AddCommGroup G1] [AddCommGroup G2] in
theorem buildPol_take_len (R nVars : Nat) (pols : List (List (Nat × Int))) (w : List Int)
    (m len : Nat)
    (hempty : ∀ i col, len ≤ i → i < nVars → pols[i]? = some col → col = []) :
    buildPol R nVars pols (w.take len) m = buildPol R nVars pols w m := by
  unfold buildPol forRange
  apply foldlM_congr_option
  intro i hi pol
  rw [List.mem_range'_1] at hi
  unfold addVariable
  cases hcol : pols[i]? with
  | none => rfl
  | some col =>
    show addColumn R (w.take len) i col pol = addColumn R w i col pol
    by_cases hlt : i < len
    · unfold addColumn
      apply foldlM_congr_option
      intro jc _ st
      unfold addEntry
      rw [List.getElem?_take_of_lt hlt]
    · rw [hempty i col (by omega) (by omega) hcol]
      rfl

/-- C11, amended: `GenerateProof` never compares the length of the witness with
`NVars`. For a witness with backing array `w` (its capacity is `w.length`) and
length `len`, when the chunks of `ranges(NVars, numcpu)` partition `[0, NVars)`:
a capacity below `NVars` never gives a successful result (a slice of the witness
panics); a variable `i` with `len ≤ i < NVars` and a non-empty column `PolsA[i]`
or `PolsB[i]` never gives a successful result (the index `w[i]` of `calculateH`
panics); and otherwise, for a capacity of at least `NVars` and `NPublic + 1 ≤
NVars`, the witness is accepted whatever its length is: the result is the result
of the witness made of the first `NVars` entries of the backing array, so a
longer witness is cut and a shorter one is filled from its spare capacity. -/
theorem GenerateProof_witness_length {ε : Type} (R numcpu : Nat) (rand : Nat → Read ε)
    (eng : Engine R) (pk : Pk G1 G2) (w : List Int) (len : Nat)
    (hpart : IsPartition (ranges pk.NVars numcpu) pk.NVars) :
    (w.length < pk.NVars →
      ∀ res, GenerateProofCap R numcpu rand eng pk w len = some res → res.proof = none) ∧
    (∀ i col, len ≤ i → i < pk.NVars → col ≠ [] →
      (pk.PolsA[i]? = some col ∨ pk.PolsB[i]? = some col) →
      ∀ res, GenerateProofCap R numcpu rand eng pk w len = some res → res.proof = none) ∧
    (pk.NVars ≤ w.length → pk.NPublic + 1 ≤ pk.NVars →
      (∀ i col, len ≤ i → i < pk.NVars →
        (pk.PolsA[i]? = some col ∨ pk.PolsB[i]? = some col) → col = []) →
      GenerateProofCap R numcpu rand eng pk w len
        = GenerateProof R numcpu rand eng pk (w.take pk.NVars)) := by
  refine ⟨?_, ?_, ?_⟩
  · intro hshort
    apply GenerateProofCap_of_none
    intro r s
    have hnone : (ranges pk.NVars numcpu).mapM (split1 pk w) = none := by
      cases hslots : (ranges pk.NVars numcpu).mapM (split1 pk w) with
      | none => rfl
      | some slots =>
        exfalso
        obtain ⟨c, hc, hcov⟩ := chained_cover _ 0 _ hpart w.length (by omega) hshort
        obtain ⟨sl, hsl⟩ := forall2_exists _ _ (mapM_option_eq_some _ _ _ hslots) c hc
        have := split1_bound hsl
        unfold covers at hcov
        omega
    unfold assembleCap
    rw [hnone]
    rfl
  · intro i col hi hin hne hcol
    apply GenerateProofCap_of_none
    intro r s
    have hnone : calculateH R numcpu eng pk (w.take len) = none := by
      rcases hcol with hA | hB
      · simp only [calculateH, Option.bind_eq_bind, Option.none_bind,
          buildPol_none R pk.NVars pk.PolsA w pk.DomainSize len i col hi hin hA hne]
      · cases hAT : buildPol R pk.NVars pk.PolsA (w.take len) pk.DomainSize with
        | none => simp only [calculateH, hAT, Option.bind_eq_bind, Option.none_bind]
        | some polAT =>
          simp only [calculateH, hAT, Option.bind_eq_bind, Option.some_bind, Option.none_bind,
            buildPol_none R pk.NVars pk.PolsB w pk.DomainSize len i col hi hin hB hne]
    unfold assembleCap
    rw [hnone]
    cases (ranges pk.NVars numcpu).mapM (split1 pk w) with
    | none => rfl
    | some slots =>
      simp only [Option.bind_eq_bind, Option.some_bind]
      cases join (slots.map fun x => x.a) with
      | none => rfl
      | some a0 =>
        cases join (slots.map fun x => x.b) with
        | none => rfl
        | some b0 =>
          cases join (slots.map fun x => x.c) with
          | none => rfl
          | some c0 =>
            cases join (slots.map fun x => x.bg1) <;> rfl
  · intro hw hpub hempty
    have hH : calculateH R numcpu eng pk (w.take len) = calculateH R numcpu eng pk w := by
      unfold calculateH
      simp only [buildPol_take_len R pk.NVars pk.PolsA w pk.DomainSize len
          (fun i col h1 h2 h3 => hempty i col h1 h2 (Or.inl h3)),
        buildPol_take_len R pk.NVars pk.PolsB w pk.DomainSize len
          (fun i col h1 h2 h3 => hempty i col h1 h2 (Or.inr h3))]
    have hasm : ∀ r s, assembleCap R numcpu eng pk w len r s
        = assemble R numcpu eng pk (w.take pk.NVars) r s := by
      intro r s
      rw [assemble_take R numcpu eng pk w r s hpart hw hpub]
      unfold assembleCap assemble
      rw [hH]
    unfold GenerateProofCap GenerateProof
    simp only [hasm]

end Capacity

set_option maxRecDepth 1000000 in
theorem GenerateProof_witness_length_witness :
    IsPartition (ranges pk15.NVars 4) pk15.NVars ∧
      (∀ res, GenerateProofCap 65537 4 steadyRand (specEngine omega) pk15 [1, 12, 7] 3 = some res →
        res.proof = none) ∧
      (∀ res, GenerateProofCap 65537 4 steadyRand (specEngine omega) pk15 w15 5 = some res →
        res.proof = none) ∧
      GenerateProofCap 65537 4 steadyRand (specEngine omega) pk15 w15 14
        = GenerateProof 65537 4 steadyRand (specEngine omega) pk15 (w15.take pk15.NVars) ∧
      GenerateProofCap 65537 4 steadyRand (specEngine omega) pk15 (w15 ++ [99]) 16
        = GenerateProof 65537 4 steadyRand (specEngine omega) pk15
            ((w15 ++ [99]).take pk15.NVars) :=
  ⟨partition_15_four,
    (GenerateProof_witness_length 65537 4 steadyRand (specEngine omega) pk15 [1, 12, 7] 3
      partition_15_four).1 (by decide),
    (GenerateProof_witness_length 65537 4 steadyRand (specEngine omega) pk15 w15 5
      partition_15_four).2.1 5 [(2, 1)] (by decide) (by decide) (by decide) (Or.inl rfl),
    (GenerateProof_witness_length 65537 4 steadyRand (specEngine omega) pk15 w15 14
      partition_15_four).2.2 (by decide) (by decide) (by
        intro i col h1 h2 h
        have h3 : i < 15 := h2
        have hi : i = 14 := by omega
        subst hi
        have hA : pk15.PolsA[14]? = some [] := rfl
        have hB : pk15.PolsB[14]? = some [] := rfl
        rw [hA, hB] at h
        rcases h with h | h <;> exact (Option.some.inj h).symm),
    (GenerateProof_witness_length 65537 4 steadyRand (specEngine omega) pk15 (w15 ++ [99]) 16
      partition_15_four).2.2 (by decide) (by decide) (by
        intro i col h1 h2 h
        have h3 : i < 15 := h2
        omega)⟩

/-! ## `GenerateProof` returns a proof when both samples succeed -/

theorem foldlM_some_mem {α σ : Type} (P : σ → Prop) (f : σ → α → Option σ) :
    ∀ (xs : List α), (∀ st x, x ∈ xs → P st → ∃ st2, f st x = some st2 ∧ P st2) →
      ∀ init, P init → ∃ st, xs.foldlM f init = some st ∧ P st := by
  intro xs
  induction xs with
  | nil => intro _ init h0; exact ⟨init, rfl, h0⟩
  | cons x rest ih =>
    intro hf init h0
    obtain ⟨st1, h1, hP1⟩ := hf init x (List.mem_cons_self _ _) h0
    obtain ⟨st, h2, hP⟩ := ih (fun st y hy => hf st y (List.mem_cons_of_mem _ hy)) st1 hP1
    exact ⟨st, by rw [foldlM_cons_option, h1, Option.some_bind, h2], hP⟩

theorem buildPol_some (R nVars : Nat) (pols : List (List (Nat × Int))) (w : List Int) (m : Nat)
    (hpols : nVars ≤ pols.length) (hkeys : ∀ col ∈ pols, ∀ jc ∈ col, jc.1 < m)
    (hw : nVars ≤ w.length) :
    ∃ pol, buildPol R nVars pols w m = some pol ∧ pol.length = m := by
  unfold buildPol forRange
  refine foldlM_some (fun p : List Int => p.length = m) _ nVars ?_ _
    (fun x hx => by rw [List.mem_range'_1] at hx; omega) _ (List.length_replicate _ _)
  intro st i hP hi
  unfold addVariable
  rw [List.getElem?_eq_getElem (by omega : i < pols.length)]
  show ∃ st2, addColumn R w i pols[i] st = some st2 ∧ st2.length = m
  unfold addColumn
  refine foldlM_some_mem (fun p : List Int => p.length = m) _ _ ?_ st hP
  intro p jc hjc hp
  have hj := hkeys pols[i] (List.getElem_mem _) jc hjc
  have hp2 : p.length = m := hp
  unfold addEntry
  rw [List.getElem?_eq_getElem (by omega : jc.1 < p.length),
    List.getElem?_eq_getElem (by omega : i < w.length)]
  refine ⟨_, rfl, ?_⟩
  show (p.set _ _).length = m
  rw [List.length_set]
  exact hp2

theorem transformH_some (R numcpu : Nat) (eng : Engine R) (m : Nat) (polAT polBT : List Int)
    (hA : polAT.length = m) (hB : polBT.length = m) (hm : m < 2 ^ 52)
    (hifft : ∀ xs, (eng.ifft xs).length = xs.length)
    (hfft : ∀ xs, (eng.fft xs).length = xs.length)
    (hroots : m ≤ (eng.roots (ilog2 m + 1)).length) :
    ∃ hh, transformH R numcpu eng m polAT polBT = some hh ∧ hh.length = m := by
  have hL : (eng.ifft (polAT.map (Int.cast : Int → ZMod R))).length = m := by
    rw [hifft, List.length_map, hA]
  have hLB : (eng.ifft (polBT.map (Int.cast : Int → ZMod R))).length = m := by
    rw [hifft, List.length_map, hB]
  have hb := ranges_bounds m numcpu hm
  obtain ⟨shifted, hshift, hs1, hs2⟩ := forChunks_some
    (fun st : List (ZMod R) × List (ZMod R) => st.1.length = m ∧ st.2.length = m)
    (cosetStep (eng.roots (ilog2 m + 1))) m
    (fun st i hP hi => cosetStep_some _ m hroots st i hP hi)
    (ranges m numcpu) (fun c hc => (hb c hc).2)
    (eng.ifft (polAT.map (Int.cast : Int → ZMod R)),
      eng.ifft (polBT.map (Int.cast : Int → ZMod R))) ⟨hL, hLB⟩
  obtain ⟨polABT, hprod, hlen⟩ := forChunks_some (fun st : List (ZMod R) => st.length = m * 2)
    (productStep (polAT.map (Int.cast : Int → ZMod R)) (polBT.map (Int.cast : Int → ZMod R))
      (eng.fft shifted.1) (eng.fft shifted.2)) m
    (fun st i hP hi => productStep_some _ _ _ _ m (by rw [List.length_map, hA])
      (by rw [List.length_map, hB]) (by rw [hfft, hs1]) (by rw [hfft, hs2]) st i hP hi)
    (ranges m numcpu) (fun c hc => (hb c hc).2) (List.replicate (m * 2) 0)
    (List.length_replicate _ _)
  have hfull : (eng.ifft polABT).length = m * 2 := by
    rw [hifft]
    exact hlen
  have hslice := slice_some (eng.ifft polABT) m (eng.ifft polABT).length (by omega) (le_refl _)
  refine ⟨((eng.ifft polABT).drop m).take ((eng.ifft polABT).length - m) |>.map
    fun (x : ZMod R) => ((x.val : Nat) : Int), ?_, ?_⟩
  · simp only [transformH, hL, hshift, hprod, hslice, Option.bind_eq_bind, Option.some_bind,
      Option.pure_def]
  · rw [List.length_map, List.length_take, List.length_drop, hfull]
    omega

theorem calculateH_some {G1 G2 : Type} (R numcpu : Nat) (eng : Engine R) (pk : Pk G1 G2)
    (w : List Int) (hw : pk.NVars ≤ w.length) (hm : pk.DomainSize < 2 ^ 52)
    (hPA : pk.NVars ≤ pk.PolsA.length) (hPB : pk.NVars ≤ pk.PolsB.length)
    (hkA : ∀ col ∈ pk.PolsA, ∀ jc ∈ col, jc.1 < pk.DomainSize)
    (hkB : ∀ col ∈ pk.PolsB, ∀ jc ∈ col, jc.1 < pk.DomainSize)
    (hifft : ∀ xs, (eng.ifft xs).length = xs.length)
    (hfft : ∀ xs, (eng.fft xs).length = xs.length)
    (hroots : pk.DomainSize ≤ (eng.roots (ilog2 pk.DomainSize + 1)).length) :
    ∃ hh, calculateH R numcpu eng pk w = some hh ∧ hh.length = pk.DomainSize := by
  obtain ⟨polAT, hA, hlA⟩ := buildPol_some R pk.NVars pk.PolsA w pk.DomainSize hPA hkA hw
  obtain ⟨polBT, hB, hlB⟩ := buildPol_some R pk.NVars pk.PolsB w pk.DomainSize hPB hkB hw
  obtain ⟨hh, hH, hl⟩ := transformH_some R numcpu eng pk.DomainSize polAT polBT hlA hlB hm
    hifft hfft hroots
  refine ⟨hh, ?_, hl⟩
  simp only [calculateH, hA, hB, hH, Option.bind_eq_bind, Option.some_bind]

theorem mapM_some_length {α β : Type} (f : α → Option β) :
    ∀ rs : List α, (∀ c ∈ rs, ∃ y, f c = some y) →
      ∃ ys, rs.mapM f = some ys ∧ ys.length = rs.length := by
  intro rs
  induction rs with
  | nil => intro _; exact ⟨[], by rw [List.mapM_nil]; rfl, rfl⟩
  | cons c rest ih =>
    intro h
    obtain ⟨y, hy⟩ := h c (List.mem_cons_self _ _)
    obtain ⟨ys, hys, hl⟩ := ih (fun d hd => h d (List.mem_cons_of_mem _ hd))
    exact ⟨y :: ys, by rw [List.mapM_cons, hy, hys]; rfl, by
      rw [List.length_cons, List.length_cons, hl]⟩

theorem join_some {G : Type} [AddCommGroup G] (l : List G) (h : 0 < l.length) :
    ∃ x, join l = some x := by
  cases l with
  | nil => simp at h
  | cons x rest => exact ⟨_, rfl⟩

/-- Under the preconditions on the key, the witness and the engine, the
assembly returns a proof and public signals: no slice and no index is out of
range, for every worker count of at least one. -/
theorem assemble_some {G1 G2 : Type} [AddCommGroup G1] [AddCommGroup G2] (R numcpu : Nat)
    (eng : Engine R) (pk : Pk G1 G2) (w : List Int) (r s : Int) (hcpu : 1 ≤ numcpu)
    (hw : w.length = pk.NVars) (hA : pk.A.length = pk.NVars) (hB1 : pk.B1.length = pk.NVars)
    (hB2 : pk.B2.length = pk.NVars) (hC : pk.C.length = pk.NVars)
    (hn : pk.NVars < 2 ^ 52) (hm : pk.DomainSize < 2 ^ 52) (hpub : pk.NPublic + 1 ≤ pk.NVars)
    (hH : pk.DomainSize ≤ pk.HExps.length)
    (hPA : pk.NVars ≤ pk.PolsA.length) (hPB : pk.NVars ≤ pk.PolsB.length)
    (hkA : ∀ col ∈ pk.PolsA, ∀ jc ∈ col, jc.1 < pk.DomainSize)
    (hkB : ∀ col ∈ pk.PolsB, ∀ jc ∈ col, jc.1 < pk.DomainSize)
    (hifft : ∀ xs, (eng.ifft xs).length = xs.length)
    (hfft : ∀ xs, (eng.fft xs).length = xs.length)
    (hroots : pk.DomainSize ≤ (eng.roots (ilog2 pk.DomainSize + 1)).length) :
    ∃ prf pub, assemble R numcpu eng pk w r s = some (prf, pub) := by
  have hb := ranges_bounds pk.NVars numcpu hn
  obtain ⟨slots, hslots, hsl⟩ := mapM_some_length (split1 pk w) (ranges pk.NVars numcpu)
    (fun c hc => split1_some pk w c (hb c hc).1 (by rw [hA]; exact (hb c hc).2)
      (by rw [hB1]; exact (hb c hc).2) (by rw [hB2]; exact (hb c hc).2)
      (by rw [hC]; exact (hb c hc).2) (by rw [hw]; exact (hb c hc).2))
  rw [ranges_length] at hsl
  obtain ⟨a0, ha0⟩ := join_some (slots.map fun x => x.a) (by rw [List.length_map]; omega)
  obtain ⟨b0, hb0⟩ := join_some (slots.map fun x => x.b) (by rw [List.length_map]; omega)
  obtain ⟨c0, hc0⟩ := join_some (slots.map fun x => x.c) (by rw [List.length_map]; omega)
  obtain ⟨bg0, hbg0⟩ := join_some (slots.map fun x => x.bg1) (by rw [List.length_map]; omega)
  obtain ⟨hh, hhh, hhl⟩ := calculateH_some R numcpu eng pk w (by omega) hm hPA hPB hkA hkB
    hifft hfft hroots
  have hb2 := ranges_bounds hh.length numcpu (by rw [hhl]; exact hm)
  obtain ⟨hslots2, hhs, hsl2⟩ := mapM_some_length (split2 pk hh) (ranges hh.length numcpu)
    (fun c hc => split2_some pk hh c (hb2 c hc).1 (by have := (hb2 c hc).2; omega)
      (hb2 c hc).2)
  rw [ranges_length] at hsl2
  obtain ⟨ch, hch⟩ := join_some hslots2 (by omega)
  have hpubs := slice_some w 1 (pk.NPublic + 1) (by omega) (by omega)
  have hasm : ∃ p, assemble R numcpu eng pk w r s = some p := by
    simp only [assemble, hslots, ha0, hb0, hc0, hbg0, hhh, hhs, hch, hpubs,
      Option.bind_eq_bind, Option.some_bind, Option.pure_def]
    exact ⟨_, rfl⟩
  obtain ⟨⟨prf, pub⟩, h⟩ := hasm
  exact ⟨prf, pub, h⟩

/-- C10, amended: for a group order of at least eight bits, if the entropy
source fails while sampling `r`, or succeeds for `r` and fails while sampling
`s`, then `GenerateProof` returns that error with a nil proof and nil public
signals, whatever the worker count, the engine, the key and the witness are, so
no MSM pass and no H computation enters the result. Conversely, if both samples
succeed and the preconditions hold (at least one worker; the witness and the key
vectors `A`, `B1`, `B2`, `C` have `NVars` entries; `NPublic + 1 ≤ NVars`;
`NVars` and `DomainSize` are below `2 ^ 52`; `HExps` has at least `DomainSize`
entries; `PolsA` and `PolsB` have a column for each variable and every
constraint index in them is below `DomainSize`; `fft` and `ifft` keep the
length of an array; the roots table has at least `DomainSize` entries), then
`GenerateProof` returns a proof and public signals with a nil error: the
assembly on the two sampled scalars returns, it does not panic. -/
theorem GenerateProof_entropy {ε G1 G2 : Type} [AddCommGroup G1] [AddCommGroup G2]
    (R : Nat) (rand : Nat → Read ε) (hR : 8 ≤ bitLen R) :
    (∀ e, rand 0 (bitLen R / 8 - 1) = .error e →
      ∀ (numcpu : Nat) (eng : Engine R) (pk : Pk G1 G2) (w : List Int),
        GenerateProof R numcpu rand eng pk w = some ⟨none, none, some e⟩) ∧
    (∀ b e, rand 0 (bitLen R / 8 - 1) = .ok b → rand 1 (bitLen R / 8 - 1) = .error e →
      ∀ (numcpu : Nat) (eng : Engine R) (pk : Pk G1 G2) (w : List Int),
        GenerateProof R numcpu rand eng pk w = some ⟨none, none, some e⟩) ∧
    (∀ b1 b2, rand 0 (bitLen R / 8 - 1) = .ok b1 → rand 1 (bitLen R / 8 - 1) = .ok b2 →
      ∀ (numcpu : Nat) (eng : Engine R) (pk : Pk G1 G2) (w : List Int),
        1 ≤ numcpu → w.length = pk.NVars → pk.A.length = pk.NVars →
        pk.B1.length = pk.NVars → pk.B2.length = pk.NVars → pk.C.length = pk.NVars →
        pk.NVars < 2 ^ 52 → pk.DomainSize < 2 ^ 52 → pk.NPublic + 1 ≤ pk.NVars →
        pk.DomainSize ≤ pk.HExps.length →
        pk.NVars ≤ pk.PolsA.length → pk.NVars ≤ pk.PolsB.length →
        (∀ col ∈ pk.PolsA, ∀ jc ∈ col, jc.1 < pk.DomainSize) →
        (∀ col ∈ pk.PolsB, ∀ jc ∈ col, jc.1 < pk.DomainSize) →
        (∀ xs, (eng.ifft xs).length = xs.length) → (∀ xs, (eng.fft xs).length = xs.length) →
        pk.DomainSize ≤ (eng.roots (ilog2 pk.DomainSize + 1)).length →
        ∃ prf pub,
          assemble R numcpu eng pk w (((setBytes b1.1 : Nat) : Int) % (R : Int))
            (((setBytes b2.1 : Nat) : Int) % (R : Int)) = some (prf, pub) ∧
          GenerateProof R numcpu rand eng pk w = some ⟨some prf, some pub, none⟩) := by
  refine ⟨?_, ?_, ?_⟩
  · intro e he numcpu eng pk w
    simp only [GenerateProof, randBigInt_error R (rand 0) e hR he]
  · intro b e hb he numcpu eng pk w
    simp only [GenerateProof, randBigInt_ok R (rand 0) b hR hb,
      randBigInt_error R (rand 1) e hR he]
  · intro b1 b2 hb1 hb2 numcpu eng pk w hcpu hw hA hB1 hB2 hC hn hm hpub hH hPA hPB hkA hkB
      hifft hfft hroots
    obtain ⟨prf, pub, hasm⟩ := assemble_some R numcpu eng pk w
      (((setBytes b1.1 : Nat) : Int) % (R : Int)) (((setBytes b2.1 : Nat) : Int) % (R : Int))
      hcpu hw hA hB1 hB2 hC hn hm hpub hH hPA hPB hkA hkB hifft hfft hroots
    refine ⟨prf, pub, hasm, ?_⟩
    simp only [GenerateProof, randBigInt_ok R (rand 0) b1 hR hb1,
      randBigInt_ok R (rand 1) b2 hR hb2, hasm]

set_option maxRecDepth 1000000 in
theorem GenerateProof_entropy_witness :
    8 ≤ bitLen 65537 ∧
      GenerateProof 65537 4 brokenRand (specEngine omega) pk15 w15 = some ⟨none, none, some 7⟩ ∧
      GenerateProof 65537 4 halfBrokenRand (specEngine omega) pk15 w15
        = some ⟨none, none, some 9⟩ ∧
      (∃ prf pub, GenerateProof 65537 4 steadyRand (specEngine omega) pk15 w15
        = some ⟨some prf, some pub, none⟩) ∧
      (∃ prf pub, GenerateProof 65537 11 steadyRand (specEngine omega) pk15 w15
        = some ⟨some prf, some pub, none⟩) :=
  ⟨by decide,
    (GenerateProof_entropy 65537 brokenRand (by decide)).1 7 rfl 4 (specEngine omega) pk15 w15,
    (GenerateProof_entropy 65537 halfBrokenRand (by decide)).2.1
      ⟨List.replicate 1 0, List.length_replicate _ _⟩ 9 rfl rfl 4 (specEngine omega) pk15 w15,
    by
      obtain ⟨prf, pub, _, h⟩ := (GenerateProof_entropy 65537 steadyRand (by decide)).2.2
        _ _ rfl rfl 4 (specEngine omega) pk15 w15 (by decide) (by decide) (by decide)
        (by decide) (by decide) (by decide) (by decide) (by decide) (by decide) (by decide)
        (by decide) (by decide) (by decide) (by decide) (fun xs => idft_length _ xs)
        (fun xs => dft_length _ xs) (by decide)
      exact ⟨prf, pub, h⟩,
    by
      obtain ⟨prf, pub, _, h⟩ := (GenerateProof_entropy 65537 steadyRand (by decide)).2.2
        _ _ rfl rfl 11 (specEngine omega) pk15 w15 (by decide) (by decide) (by decide)
        (by decide) (by decide) (by decide) (by decide) (by decide) (by decide) (by decide)
        (by decide) (by decide) (by decide) (by decide) (fun xs => idft_length _ xs)
        (fun xs => dft_length _ xs) (by decide)
      exact ⟨prf, pub, h⟩⟩

end Prover
